import Mathlib

/-!
# compressedVector: a run-length-compressed ordered array

A verification development over `compressedVector.hpp`.

The class template `compressedVector<keyType, valueType>` is embedded with

* `keyType` a signed integer index type, modelled by `Int`: index arithmetic is
  exact, every statement is about executions in which no index computation
  leaves the range of the machine type;
* `valueType` any type `V` with decidable equality;
* `std::size_t` run lengths modelled by `Nat`;
* `std::map<keyType, valueType>` modelled by the list of its entries in
  ascending key order (`KeyMap`);
* a map iterator modelled by the key of the node it points at, `none` being
  the past-the-end position (`Iter`).  A node keeps its key for as long as it
  stays in the map, so an iterator denotes the same node before and after
  other nodes are inserted or erased, as in `std::map`;
* an operation that dereferences the past-the-end position, or steps before
  the first position, has undefined behaviour: the embedding of such a member
  function returns `Option`, and `none` stands for undefined behaviour;
* `assignValue` is embedded a second time as `assignValueWith`, in which the
  one read of a key at the past-the-end position (`from < itBegin->first`)
  gives an arbitrary key `endKey` instead of being undefined; the statements
  about the result of `assignValue` are proved for every `endKey`.
-/

namespace CompressedVector

/-- The breakpoint mapping `std::map<keyType, valueType>`: its entries in ascending key order. -/
abbrev KeyMap (V : Type) := List (Int × V)

/-- A map iterator: the key of the node pointed at, `none` for `end()`. -/
abbrev Iter := Option Int

/-- The class `compressedVector`: the four data members. -/
structure compressedVector (V : Type) where
  minIndex : Int
  maxIndex : Int
  m_valBegin : V
  m_map : KeyMap V
deriving DecidableEq, Repr

section MapModel

variable {V : Type}

/-- The representation invariant of `std::map`: keys strictly ascending. -/
def Ordered (m : KeyMap V) : Prop := m.Pairwise (fun a b => a.1 < b.1)

instance (m : KeyMap V) : Decidable (Ordered m) := by
  delta Ordered; infer_instance

/-- The node with key `k` lies strictly before the position `it`. -/
def keyBefore (k : Int) : Iter → Bool
  | none => true
  | some j => decide (k < j)

/-- Position `a` is not after position `b`. -/
def iterLE : Iter → Iter → Bool
  | _, none => true
  | none, some _ => false
  | some i, some j => decide (i ≤ j)

/-- The iterator `m.cbegin()`. -/
def mapBegin (m : KeyMap V) : Iter := m.head?.map (fun p => p.1)

/-- The iterator `m.lower_bound(k)`: the first node whose key is not less than `k`. -/
def lowerBound (m : KeyMap V) (k : Int) : Iter :=
  (m.find? (fun p => decide (k ≤ p.1))).map (fun p => p.1)

/-- The iterator `m.upper_bound(k)`: the first node whose key is greater than `k`. -/
def upperBound (m : KeyMap V) (k : Int) : Iter :=
  (m.find? (fun p => decide (k < p.1))).map (fun p => p.1)

/-- The iterator `m.find(k)`. -/
def mapFind (m : KeyMap V) (k : Int) : Iter :=
  (m.find? (fun p => decide (p.1 = k))).map (fun p => p.1)

/-- The entry `*it`; `none` (undefined behaviour) at `end()`. -/
def deref (m : KeyMap V) : Iter → Option (Int × V)
  | none => none
  | some k => m.find? (fun p => decide (p.1 = k))

/-- The entry `*std::prev(it)`; `none` (undefined behaviour) when `it` is `cbegin()`. -/
def prevEntry (m : KeyMap V) (it : Iter) : Option (Int × V) :=
  (m.filter (fun p => keyBefore p.1 it)).getLast?

/-- The iterator `std::prev(it)`. -/
def prevIt (m : KeyMap V) (it : Iter) : Option Iter :=
  (prevEntry m it).map (fun p => some p.1)

/-- The iterator `std::next(it)`; `none` (undefined behaviour) at `end()`. -/
def nextIt (m : KeyMap V) : Iter → Option Iter
  | none => none
  | some k => some (upperBound m k)

/-- The entries of the iterator range `[a, b)`, in order. -/
def rangeOf (m : KeyMap V) (a b : Iter) : List (Int × V) :=
  m.filter (fun p => !keyBefore p.1 a && keyBefore p.1 b)

/-- The map after `m.erase(a, b)`; `none` (undefined behaviour) when `b` lies before `a`. -/
def eraseRange (m : KeyMap V) (a b : Iter) : Option (KeyMap V) :=
  if iterLE a b then some (m.filter (fun p => keyBefore p.1 a || !keyBefore p.1 b)) else none

/-- The map after `m.erase(it)`; `none` (undefined behaviour) at `end()`. -/
def eraseAt (m : KeyMap V) : Iter → Option (KeyMap V)
  | none => none
  | some k => some (m.filter (fun p => !decide (p.1 = k)))

/-- The map after `m.emplace_hint(hint, k, v)`: the entry is inserted at its
ordered position unless the key is present; the hint has no effect on the
result.  The returned iterator is `some k` in both cases. -/
def emplace : KeyMap V → Int → V → KeyMap V
  | [], k, v => [(k, v)]
  | p :: ps, k, v =>
    if k < p.1 then (k, v) :: p :: ps
    else if k = p.1 then p :: ps
    else p :: emplace ps k v

/-- The map after `it->second = v` for the node with key `k`. -/
def setValue (m : KeyMap V) (k : Int) (v : V) : KeyMap V :=
  m.map (fun p => if p.1 = k then (p.1, v) else p)

/-- Re-insertion of a list of extracted nodes, `m.insert(hint, std::move(node))` for each in order. -/
def insertNodes (m : KeyMap V) (nodes : List (Int × V)) : KeyMap V :=
  nodes.foldl (fun acc p => emplace acc p.1 p.2) m

/-- The value `m.empty() ? bg : m.crbegin()->second`: the value of the last
entry, the given value when the map is empty. -/
def lastVal (bg : V) (m : KeyMap V) : V :=
  match m.getLast? with
  | some p => p.2
  | none => bg

end MapModel

section Members

variable {V : Type} [DecidableEq V]

/-- The member `getValidRange`. -/
def getValidRange (s : compressedVector V) (frm til : Int) : Int × Int :=
  if til ≤ frm then (frm, frm)
  else if til ≤ s.minIndex then (s.minIndex, s.minIndex)
  else if s.maxIndex ≤ frm then (s.maxIndex, s.maxIndex)
  else (if s.minIndex ≤ frm then frm else s.minIndex, if til ≤ s.maxIndex then til else s.maxIndex)

/-- The member `operator[]`: with `it = upper_bound(key)`, the value of
`std::prev(it)` when `it` is not `cbegin()`, the initial value otherwise.  On
an ordered map a position other than `cbegin()` has a predecessor, so the
`none` case of the match is never taken. -/
def operatorAt (s : compressedVector V) (key : Int) : V :=
  let it := upperBound s.m_map key
  if it ≠ mapBegin s.m_map then
    match prevEntry s.m_map it with
    | some p => p.2
    | none => s.m_valBegin
  else s.m_valBegin

/-- The test `std::adjacent_find(..., equal values) == cend()`: no two
consecutive entries carry equal values. -/
def noAdjacentEqual : KeyMap V → Bool
  | [] => true
  | [_] => true
  | a :: b :: rest => decide (a.2 ≠ b.2) && noAdjacentEqual (b :: rest)

/-- The member `mapCanonicalValidationDebug`. -/
def mapCanonicalValidationDebug (s : compressedVector V) : Bool :=
  decide (s.m_map.length ≠ 1)
  && (s.m_map.isEmpty ||
      (decide (some s.m_valBegin = s.m_map.getLast?.map (fun p => p.2))
        && decide (some s.m_valBegin ≠ s.m_map.head?.map (fun p => p.2))))
  && noAdjacentEqual s.m_map

/-- The invariants I1 to I5 of the data model, together with the ordering of the map keys. -/
def Canonical (s : compressedVector V) : Prop :=
  Ordered s.m_map
  ∧ s.minIndex < s.maxIndex
  ∧ (∀ p ∈ s.m_map, s.minIndex ≤ p.1 ∧ p.1 ≤ s.maxIndex)
  ∧ noAdjacentEqual s.m_map = true
  ∧ s.m_map.length ≠ 1
  ∧ (s.m_map ≠ [] →
      s.m_map.head?.map (fun p => p.2) ≠ some s.m_valBegin
      ∧ s.m_map.getLast?.map (fun p => p.2) = some s.m_valBegin)

instance (s : compressedVector V) : Decidable (Canonical s) := by
  delta Canonical; infer_instance

/-- The statement `if ( ( not m_map.empty() ) and m_map.cbegin()->second ==
m_valBegin ) m_map.erase(m_map.cbegin());` -/
def eraseFrontInit (bg : V) (m : KeyMap V) : KeyMap V :=
  match m with
  | [] => m
  | p :: rest => if p.2 = bg then rest else m

/-- The statement `if ( ( not m_map.empty() ) and m_map.crbegin()->second !=
m_valBegin ) m_map.emplace_hint(m_map.cend(), position, m_valBegin);` -/
def emplaceBackInit (bg : V) (m : KeyMap V) (position : Int) : KeyMap V :=
  match m.getLast? with
  | none => m
  | some p => if p.2 ≠ bg then emplace m position bg else m

/-- The backward walk of `assignValue`,
`for ( ; itBegin != cbegin() and from < itBegin->first ; --itBegin );`
with one unit of fuel per iteration; `none` when an iterator that cannot be
dereferenced or decremented is used, or when the fuel runs out. -/
def walkBack (m : KeyMap V) (frm : Int) : Nat → Iter → Option Iter
  | 0, _ => none
  | n + 1, it =>
    if it = mapBegin m then some it
    else
      match deref m it with
      | none => none
      | some e =>
        if frm < e.1 then
          match prevIt m it with
          | none => none
          | some it' => walkBack m frm n it'
        else some it

/-- The member `assignValue`. -/
def assignValue (s : compressedVector V) (fromArg toArg : Int) (value : V) :
    Option (compressedVector V) :=
  let r := getValidRange s fromArg toArg
  let frm := r.1
  let til := r.2
  if frm = til then some s
  else if s.m_map.isEmpty then
    if value ≠ s.m_valBegin then
      some { s with m_map := [(frm, value), (til, s.m_valBegin)] }
    else some s
  else do
    let itEnd0 := lowerBound s.m_map til
    -- the map, `itBegin` and `itEnd` after the first `if`/`else`
    let (m1, itBegin0, itEnd) ←
      (if itEnd0 = none then do
        let (m1, itEnd) :=
          if value ≠ s.m_valBegin then (emplace s.m_map til s.m_valBegin, some til)
          else (s.m_map, itEnd0)
        let itBegin ← prevIt m1 itEnd
        pure (m1, itBegin, itEnd)
      else if itEnd0 = mapBegin s.m_map then do
        let e ← deref s.m_map itEnd0
        if til < e.1 ∧ value ≠ s.m_valBegin then
          pure (emplace s.m_map til s.m_valBegin, some til, some til)
        else pure (s.m_map, itEnd0, itEnd0)
      else do
        let prevItEnd ← prevEntry s.m_map itEnd0
        let e ← deref s.m_map itEnd0
        if til < e.1 ∧ value ≠ prevItEnd.2 then
          pure (emplace s.m_map til prevItEnd.2, some til, some til)
        else pure (s.m_map, itEnd0, itEnd0))
    let itBegin1 ← walkBack m1 frm (m1.length + 1) itBegin0
    let e1 ← deref m1 itBegin1
    let itBegin ← (if e1.1 < frm then nextIt m1 itBegin1 else pure itBegin1)
    let prevItBeginVal ←
      (if itBegin = mapBegin m1 then pure s.m_valBegin
       else (prevEntry m1 itBegin).map (fun p => p.2))
    let e2 ← deref m1 itBegin
    if frm < e2.1 then do
      let stop ←
        (if itEnd ≠ none then do
          let e ← deref m1 itEnd
          if e.2 = value then nextIt m1 itEnd else pure itEnd
        else pure itEnd)
      let m2 ← eraseRange m1 itBegin stop
      if value ≠ prevItBeginVal then pure { s with m_map := emplace m2 frm value }
      else pure { s with m_map := m2 }
    else do
      let (m2, itBegin') ←
        (if value ≠ prevItBeginVal then do
          let nxt ← nextIt m1 itBegin
          pure (setValue m1 e2.1 value, nxt)
        else pure (m1, itBegin))
      let stop ←
        (if itEnd ≠ none then do
          let e ← deref m2 itEnd
          if e.2 = value then nextIt m2 itEnd else pure itEnd
        else pure itEnd)
      let m3 ← eraseRange m2 itBegin' stop
      pure { s with m_map := m3 }

/-- The member `assignValue` as it runs when the read `itBegin->first` of the
test `from < itBegin->first` happens at the past-the-end position: `endKey` is
the key which that read gives.  Every other statement is as in `assignValue`;
a write through the past-the-end position has no result. -/
def assignValueWith (endKey : Int) (s : compressedVector V) (fromArg toArg : Int) (value : V) :
    Option (compressedVector V) :=
  let r := getValidRange s fromArg toArg
  let frm := r.1
  let til := r.2
  if frm = til then some s
  else if s.m_map.isEmpty then
    if value ≠ s.m_valBegin then
      some { s with m_map := [(frm, value), (til, s.m_valBegin)] }
    else some s
  else do
    let itEnd0 := lowerBound s.m_map til
    let (m1, itBegin0, itEnd) ←
      (if itEnd0 = none then do
        let (m1, itEnd) :=
          if value ≠ s.m_valBegin then (emplace s.m_map til s.m_valBegin, some til)
          else (s.m_map, itEnd0)
        let itBegin ← prevIt m1 itEnd
        pure (m1, itBegin, itEnd)
      else if itEnd0 = mapBegin s.m_map then do
        let e ← deref s.m_map itEnd0
        if til < e.1 ∧ value ≠ s.m_valBegin then
          pure (emplace s.m_map til s.m_valBegin, some til, some til)
        else pure (s.m_map, itEnd0, itEnd0)
      else do
        let prevItEnd ← prevEntry s.m_map itEnd0
        let e ← deref s.m_map itEnd0
        if til < e.1 ∧ value ≠ prevItEnd.2 then
          pure (emplace s.m_map til prevItEnd.2, some til, some til)
        else pure (s.m_map, itEnd0, itEnd0))
    let itBegin1 ← walkBack m1 frm (m1.length + 1) itBegin0
    let e1 ← deref m1 itBegin1
    let itBegin ← (if e1.1 < frm then nextIt m1 itBegin1 else pure itBegin1)
    let prevItBeginVal ←
      (if itBegin = mapBegin m1 then pure s.m_valBegin
       else (prevEntry m1 itBegin).map (fun p => p.2))
    let key2 ← (if itBegin = none then pure endKey else (deref m1 itBegin).map (fun e => e.1))
    if frm < key2 then do
      let stop ←
        (if itEnd ≠ none then do
          let e ← deref m1 itEnd
          if e.2 = value then nextIt m1 itEnd else pure itEnd
        else pure itEnd)
      let m2 ← eraseRange m1 itBegin stop
      if value ≠ prevItBeginVal then pure { s with m_map := emplace m2 frm value }
      else pure { s with m_map := m2 }
    else do
      let (m2, itBegin') ←
        (if value ≠ prevItBeginVal then do
          let e2 ← deref m1 itBegin
          let nxt ← nextIt m1 itBegin
          pure (setValue m1 e2.1 value, nxt)
        else pure (m1, itBegin))
      let stop ←
        (if itEnd ≠ none then do
          let e ← deref m2 itEnd
          if e.2 = value then nextIt m2 itEnd else pure itEnd
        else pure itEnd)
      let m3 ← eraseRange m2 itBegin' stop
      pure { s with m_map := m3 }

/-- The statement of `erase` that follows `m_map.erase(itBegin, itEnd)`:
`if ( itBegin != itEnd and itEnd != cend() and to != itEnd->first and
prevItEndValue != itEnd->second ) emplace_hint(itEnd, to - difference, prevItEndValue)`.
The iterators are compared as the positions they held before the erasure. -/
def eraseRestore (m1 : KeyMap V) (itBegin itEnd : Iter) (til difference : Int)
    (prevItEndValue : V) : Option (KeyMap V) :=
  if itBegin ≠ itEnd ∧ itEnd ≠ none then do
    let e ← deref m1 itEnd
    if til ≠ e.1 ∧ prevItEndValue ≠ e.2 then
      pure (emplace m1 (til - difference) prevItEndValue)
    else pure m1
  else pure m1

/-- The `if ( shrinkRight )` block of `erase`: the nodes of `[cbegin(), itEnd)`
are extracted, re-keyed by `+ difference` and re-inserted; the node at `itEnd`
is erased when its value equals the value before it; `minIndex` grows. -/
def eraseShrinkRight (s : compressedVector V) (m2 : KeyMap V) (itEnd : Iter) (difference : Int) :
    Option (compressedVector V) := do
  let shifted := (rangeOf m2 (mapBegin m2) itEnd).map (fun p => (p.1 + difference, p.2))
  let m3 ← eraseRange m2 (mapBegin m2) itEnd
  let m5 ←
    (if shifted ≠ [] then do
      let m4 := insertNodes m3 shifted
      if itEnd ≠ none then do
        let e ← deref m4 itEnd
        let p ← prevEntry m4 itEnd
        if e.2 = p.2 then eraseAt m4 itEnd else pure m4
      else pure m4
    else pure m3)
  pure { s with minIndex := s.minIndex + difference, m_map := m5 }

/-- The `else` block of `erase`: the nodes of `[itEnd, cend())` are extracted,
re-keyed by `- difference` and re-inserted, the first one being left out when
its value equals the last value present; `maxIndex` shrinks. -/
def eraseShrinkLeft (s : compressedVector V) (m2 : KeyMap V) (itEnd : Iter) (difference : Int) :
    Option (compressedVector V) := do
  let shifted := (rangeOf m2 itEnd none).map (fun p => (p.1 - difference, p.2))
  let m3 ← eraseRange m2 itEnd none
  let m5 :=
    match shifted with
    | [] => m3
    | n :: rest =>
      let lastValue := lastVal s.m_valBegin m3
      insertNodes m3 (if n.2 ≠ lastValue then n :: rest else rest)
  pure { s with maxIndex := s.maxIndex - difference, m_map := m5 }

/-- The two closing statements of `erase`: a first entry carrying the initial
value is erased, then an entry with the initial value is added at `frm` when
the last value differs from the initial value. -/
def eraseClose (bg : V) (frm : Int) (m : KeyMap V) : KeyMap V :=
  emplaceBackInit bg (eraseFrontInit bg m) frm

/-- The member `erase`. -/
def erase (s : compressedVector V) (fromArg toArg : Int) (shrinkRight : Bool) :
    Option (compressedVector V) :=
  let r := getValidRange s fromArg toArg
  let frm := r.1
  let til := r.2
  if frm = til then some s
  else do
    let difference := til - frm
    let itBegin := lowerBound s.m_map frm
    let itEnd := lowerBound s.m_map til
    let prevItEndValue ←
      (if itEnd ≠ mapBegin s.m_map then (prevEntry s.m_map itEnd).map (fun p => p.2)
       else pure s.m_valBegin)
    let m1 ← eraseRange s.m_map itBegin itEnd
    let m2 ← eraseRestore m1 itBegin itEnd til difference prevItEndValue
    let s3 ←
      (if shrinkRight then eraseShrinkRight s m2 itEnd difference
       else eraseShrinkLeft s m2 itEnd difference)
    pure { s3 with m_map := eraseClose s3.m_valBegin frm s3.m_map }

/-- The member `getValues(fromArg, toArg)`; the loop runs over the pairs of
consecutive nodes of `[itBegin, itEnd)`. -/
def getValues (s : compressedVector V) (fromArg toArg : Int) : Option (List (Int × Int × V)) :=
  let r := getValidRange s fromArg toArg
  let frm := r.1
  let til := r.2
  if frm = til then some []
  else if s.m_map.isEmpty then some [(frm, til, s.m_valBegin)]
  else
    let itBegin := upperBound s.m_map frm
    let itEnd := upperBound s.m_map til
    if itEnd = mapBegin s.m_map ∨ itBegin = none then some [(frm, til, s.m_valBegin)]
    else if itBegin = itEnd then (prevEntry s.m_map itBegin).map (fun p => [(frm, til, p.2)])
    else do
      let b ← deref s.m_map itBegin
      let v0 ← (if itBegin = mapBegin s.m_map then pure s.m_valBegin
                else (prevEntry s.m_map itBegin).map (fun p => p.2))
      let nodes := rangeOf s.m_map itBegin itEnd
      let middle := (nodes.zip nodes.tail).map (fun q => (q.1.1, q.2.1, q.1.2))
      let prevItEnd ← prevEntry s.m_map itEnd
      let last := if prevItEnd.1 ≠ til then [(prevItEnd.1, til, prevItEnd.2)] else []
      pure ((frm, b.1, v0) :: middle ++ last)

/-- The first loop of `assignValues`: the runs lying before the clamped start
are skipped.  Returns `startIndex`, `reduceFirst` for the given `diff`. -/
def skipRuns : List (V × Nat) → Int → Nat → Nat × Nat
  | [], _, startIndex => (startIndex, 0)
  | item :: rest, diff, startIndex =>
    let diff' := diff - (item.2 : Int)
    if diff' < 0 then (startIndex, item.2 - (-diff').toNat)
    else skipRuns rest diff' (startIndex + 1)

/-- The second loop of `assignValues`: runs are appended to `fixedValues`
(kept with its last element apart, as `init ++ [back]`) while
`size < rangeSize`; equal neighbours are coalesced and a run of length zero
with a new value is dropped. -/
def collectRuns (rangeSize : Nat) :
    List (V × Nat) → List (V × Nat) → V × Nat → Nat → List (V × Nat) × (V × Nat) × Nat
  | [], init, back, size => (init, back, size)
  | item :: rest, init, back, size =>
    if size < rangeSize then
      if item.1 ≠ back.1 then
        if item.2 ≠ 0 then collectRuns rangeSize rest (init ++ [back]) item (size + item.2)
        else collectRuns rangeSize rest init back (size + item.2)
      else collectRuns rangeSize rest init (back.1, back.2 + item.2) (size + item.2)
    else (init, back, size)

/-- The loop `for item : fixedValues` of the empty-map branch of
`assignValues`: one `emplace_hint` per run, the position advancing by the run
length.  Returns the map and the final position. -/
def emplaceRuns : List (V × Nat) → KeyMap V → Int → KeyMap V × Int
  | [], m, position => (m, position)
  | item :: rest, m, position => emplaceRuns rest (emplace m position item.1) (position + (item.2 : Int))

/-- The last loop of `assignValues`: the runs are visited from the back, the
position retreating by the run length before each `emplace_hint`.  The list
holds the runs to visit in visiting order. -/
def emplaceRunsBack : List (V × Nat) → KeyMap V → Int → KeyMap V × Int
  | [], m, position => (m, position)
  | item :: rest, m, position =>
    emplaceRunsBack rest (emplace m (position - (item.2 : Int)) item.1) (position - (item.2 : Int))

/-- The two closing statements shared by the branches of `assignValues`:
a final entry with the initial value is added at `position` when the last
value differs from it, then a first entry with the initial value is erased. -/
def closeMap (bg : V) (m : KeyMap V) (position : Int) : KeyMap V :=
  eraseFrontInit bg (emplaceBackInit bg m position)

/-- The member `assignValues(fromArg, toArg, values)`. -/
def assignValues (s : compressedVector V) (fromArg toArg : Int) (values : List (V × Nat)) :
    Option (compressedVector V) :=
  let r := getValidRange s fromArg toArg
  let frm := r.1
  let til := r.2
  if frm = til ∨ values = [] then some s
  else
    let diff := frm - fromArg
    let sk := if 0 < diff then skipRuns values diff 0 else (0, 0)
    let startIndex := sk.1
    let reduceFirst := sk.2
    match values.drop startIndex with
    | [] => some s
    | first :: rest =>
      let rangeSize := (til - frm).toNat
      let c := collectRuns rangeSize rest [] (first.1, first.2 - reduceFirst) (first.2 - reduceFirst)
      let size := if c.2.2 > rangeSize then rangeSize else c.2.2
      let back : V × Nat := if c.2.2 > rangeSize then (c.2.1.1, c.2.1.2 - (c.2.2 - rangeSize)) else c.2.1
      let fixedValues := if back.2 = 0 then c.1 else c.1 ++ [back]
      match fixedValues with
      | [] => some s
      | [only] => assignValue s frm (frm + (only.2 : Int)) only.1
      | front :: more =>
        if s.m_map.isEmpty then
          let e := emplaceRuns fixedValues s.m_map frm
          some { s with m_map := closeMap s.m_valBegin e.1 e.2 }
        else do
          let fback ← fixedValues.getLast?
          let positionTemp := frm + (size : Int) - (fback.2 : Int)
          let s1 ← assignValue s frm (frm + (front.2 : Int)) front.1
          let s2 ← assignValue s1 positionTemp (frm + (size : Int)) fback.1
          if fixedValues.length = 2 then pure s2
          else do
            let secondPrevEnd ← more.dropLast.getLast?
            let position := positionTemp - (secondPrevEnd.2 : Int)
            let s3 ← assignValue s2 position positionTemp secondPrevEnd.1
            if fixedValues.length = 3 then pure s3
            else do
              let it ← prevIt s3.m_map (mapFind s3.m_map positionTemp)
              let m4 ← eraseRange s3.m_map (upperBound s3.m_map frm) it
              let e ← deref m4 it
              let m5 ←
                (if e.1 ≠ position then do
                  let m' ← eraseAt m4 it
                  pure (emplace m' position secondPrevEnd.1)
                else pure m4)
              -- the runs strictly between the first and the last two, from the back
              let inner := (more.dropLast.dropLast).reverse
              let b := emplaceRunsBack inner m5 position
              pure { s3 with m_map := closeMap s3.m_valBegin b.1 b.2 }

/-- The constructor `compressedVector(minIndexArg, maxIndexArg, initValue)`. -/
def fromBounds (minIndexArg maxIndexArg : Int) (initValue : V) : compressedVector V :=
  { minIndex := min minIndexArg maxIndexArg
    maxIndex := max maxIndexArg minIndexArg
    m_valBegin := initValue
    m_map := [] }

/-- The constructor `compressedVector(minIndexArg, initValue, vectorValues)`. -/
def fromRuns (minIndexArg : Int) (initValue : V) (vectorValues : List (V × Nat)) :
    Option (compressedVector V) :=
  let s : compressedVector V :=
    { minIndex := minIndexArg
      maxIndex := vectorValues.foldl (fun left right => left + (right.2 : Int)) minIndexArg
      m_valBegin := initValue
      m_map := [] }
  assignValues s s.minIndex s.maxIndex vectorValues

/-- The run-detection loop of `compress`: `value` and `count` describe the
run being read, `values` the runs already closed. -/
def detectRuns : List V → V → Nat → List (V × Nat) → List (V × Nat)
  | [], value, count, values => values ++ [(value, count)]
  | x :: rest, value, count, values =>
    if x = value then detectRuns rest value (count + 1) values
    else detectRuns rest x 1 (values ++ [(value, count)])

/-- The static member `compress(buffer, startIndex, initValue)`; the ratio
output is not modelled.  For an empty buffer the braced return
`{ startIndex, initValue, {} }` selects the constructor
`compressedVector(minIndexArg, maxIndexArg, initValue)`: `initValue`, converted
to the key type by `toKey`, is its second argument, and `{}`, the value `zero`
of `valueType{}`, its third. -/
def compress (zero : V) (toKey : V → Int) (buffer : List V) (startIndex : Int) (initValue : V) :
    Option (compressedVector V) :=
  match buffer with
  | [] => some (fromBounds startIndex (toKey initValue) zero)
  | x :: rest => fromRuns startIndex initValue (detectRuns rest x 1 [])

/-- The member `uncompressToVector(fromArg, toArg)`; `maxSize` is the value of
`std::vector<valueType>::max_size()`.  The fills run over the pairs of
consecutive nodes of `[itBegin, itEnd)`; their sizes add up to `length`. -/
def uncompressToVector (maxSize : Nat) (s : compressedVector V) (fromArg toArg : Int) :
    Option (List V) :=
  let r := getValidRange s fromArg toArg
  let frm := r.1
  let til := r.2
  if frm = til then some []
  else
    let length := (til - frm).toNat
    if length > maxSize then some []
    else if s.m_map.isEmpty then some (List.replicate length s.m_valBegin)
    else
      let itBegin := lowerBound s.m_map frm
      let itEnd := lowerBound s.m_map til
      if itEnd = mapBegin s.m_map ∨ itBegin = none then some (List.replicate length s.m_valBegin)
      else if itBegin = itEnd then
        (prevEntry s.m_map itBegin).map (fun p => List.replicate length p.2)
      else do
        let b ← deref s.m_map itBegin
        let v0 ← (if itBegin ≠ mapBegin s.m_map then (prevEntry s.m_map itBegin).map (fun p => p.2)
                  else pure s.m_valBegin)
        let nodes := rangeOf s.m_map itBegin itEnd
        let middle := (nodes.zip nodes.tail).map (fun q => List.replicate (q.2.1 - q.1.1).toNat q.1.2)
        let prevItEnd ← prevEntry s.m_map itEnd
        pure (List.replicate (b.1 - frm).toNat v0 ++ middle.flatten
              ++ List.replicate (til - prevItEnd.1).toNat prevItEnd.2)

/-- The insertion loop of `reverseValues` over the extracted nodes, taken from
the last one backwards: each node is re-keyed to `currentIndex` and inserted,
`currentIndex` advancing by the length `prevIndex - key` of its run.  Returns
the map and the final `currentIndex`. -/
def reverseLoop : List (Int × V) → Int → Int → KeyMap V → KeyMap V × Int
  | [], currentIndex, _, m => (m, currentIndex)
  | n :: rest, currentIndex, prevIndex, m =>
    reverseLoop rest (currentIndex + prevIndex - n.1) n.1 (emplace m currentIndex n.2)

/-- The member `reverseValues(fromArg, toArg)`. -/
def reverseValues (s : compressedVector V) (fromArg toArg : Int) : Option (compressedVector V) :=
  let r := getValidRange s fromArg toArg
  let frm := r.1
  let til := r.2
  if frm = til ∨ s.m_map.isEmpty then some s
  else
    let itBegin := lowerBound s.m_map frm
    let itEnd0 := lowerBound s.m_map til
    if itBegin = itEnd0 then some s
    else do
      let prevItBeginValue ←
        (if itBegin ≠ mapBegin s.m_map then (prevEntry s.m_map itBegin).map (fun p => p.2)
         else pure s.m_valBegin)
      let b ← deref s.m_map itBegin
      let insertExtraNode : Bool := decide (frm ≠ b.1)
      let (m1, itEnd) ←
        (if itEnd0 ≠ none then do
          let e ← deref s.m_map itEnd0
          if til ≠ e.1 then do
            let p ← prevEntry s.m_map itEnd0
            pure (emplace s.m_map til p.2, some til)
          else pure (s.m_map, itEnd0)
        else pure (s.m_map, itEnd0))
      -- the nodes of `[itBegin, itEnd)` are extracted
      let nodes := rangeOf m1 itBegin itEnd
      let m2 ← eraseRange m1 itBegin itEnd
      -- `it = nodes.rbegin()`
      let l ←
        (match nodes.reverse with
        | [] => none
        | n :: rest =>
          if n.2 = prevItBeginValue then some (reverseLoop rest (frm + (til - n.1)) n.1 m2)
          else some (reverseLoop (n :: rest) frm til m2))
      let m3 := if insertExtraNode then emplace l.1 l.2 prevItBeginValue else l.1
      let m4 ←
        (if itEnd ≠ none then do
          let e ← deref m3 itEnd
          let p ← prevEntry m3 itEnd
          if e.2 = p.2 then eraseAt m3 itEnd else pure m3
        else pure m3)
      let last ← m4.getLast?
      if last.2 ≠ s.m_valBegin then pure { s with m_map := emplace m4 til s.m_valBegin }
      else pure { s with m_map := m4 }

/-- The statement `orderedValuesMap[k] += n` of `sortValues` on a
`std::map<valueType, std::size_t, comparator>`, kept as the list of its
entries in comparator order: the count of the entry equivalent to `k` grows by
`n`, an entry `(k, n)` being inserted at its ordered position when there is
none. -/
def addCount (comp : V → V → Bool) : List (V × Nat) → V → Nat → List (V × Nat)
  | [], k, n => [(k, n)]
  | e :: es, k, n =>
    if comp e.1 k then e :: addCount comp es k n
    else if comp k e.1 then (k, n) :: e :: es
    else (e.1, e.2 + n) :: es

/-- The member `sortValues(fromArg, toArg, reverse, compareFunction)`. -/
def sortValues (s : compressedVector V) (fromArg toArg : Int) (reverse : Bool)
    (compareFunction : V → V → Bool) : Option (compressedVector V) :=
  let r := getValidRange s fromArg toArg
  let frm := r.1
  let til := r.2
  if frm = til ∨ s.m_map.isEmpty then some s
  else
    let itBegin := lowerBound s.m_map frm
    let itEnd := lowerBound s.m_map til
    if itBegin = itEnd then some s
    else do
      let prevItBeginVal ←
        (if itBegin = mapBegin s.m_map then pure s.m_valBegin
         else (prevEntry s.m_map itBegin).map (fun p => p.2))
      let prevItEndVal ←
        (if itEnd = mapBegin s.m_map then pure s.m_valBegin
         else (prevEntry s.m_map itEnd).map (fun p => p.2))
      let comparator : V → V → Bool :=
        fun a b => if reverse then compareFunction b a else compareFunction a b
      let b ← deref s.m_map itBegin
      let o1 : List (V × Nat) :=
        if b.1 ≠ frm then addCount comparator [] prevItBeginVal (b.1 - frm).toNat else []
      let pe ← prevEntry s.m_map itEnd
      let o2 := addCount comparator o1 (if itEnd ≠ none then pe.2 else s.m_valBegin)
        (til - pe.1).toNat
      -- the loop runs over the pairs of consecutive nodes of `[itBegin, itEnd)`
      let nodes := rangeOf s.m_map itBegin itEnd
      let o3 := (nodes.zip nodes.tail).foldl
        (fun o q => addCount comparator o q.1.2 (q.2.1 - q.1.1).toNat) o2
      let m1 ← eraseRange s.m_map itBegin itEnd
      let first ← o3.head?
      let w := if first.1 = prevItBeginVal then emplaceRuns o3.tail m1 (frm + (first.2 : Int))
               else emplaceRuns o3 m1 frm
      let e ← deref w.1 itEnd
      if til ≠ e.1 then do
        let p ← prevEntry w.1 itEnd
        if p.2 ≠ prevItEndVal then pure { s with m_map := emplace w.1 til prevItEndVal }
        else pure { s with m_map := w.1 }
      else pure { s with m_map := w.1 }

/-- The value read through a reference `valueType&` bound either to
`m_valBegin` (`none`) or to the value of the node with the given key; `none`
(undefined behaviour) when that node is no longer in the map. -/
def readRef (bg : V) (m : KeyMap V) : Option Int → Option V
  | none => some bg
  | some k => (deref m (some k)).map (fun p => p.2)

/-- The member `replaceValue(fromArg, toArg, oldValue, newValue)`.
`prevItBeginVal` and `prevItEndVal` are references in the source: they are
kept as the node they are bound to and read where the source reads them. -/
def replaceValue (s : compressedVector V) (fromArg toArg : Int) (oldValue newValue : V) :
    Option (compressedVector V) :=
  let r := getValidRange s fromArg toArg
  let frm := r.1
  let til := r.2
  if frm = til ∨ oldValue = newValue then some s
  else if s.m_map.isEmpty then
    if s.m_valBegin = oldValue then assignValue s frm til newValue else some s
  else do
    let itBegin0 := lowerBound s.m_map frm
    let itEnd0 := lowerBound s.m_map til
    let prevItBeginRef ←
      (if itBegin0 = mapBegin s.m_map then pure none
       else (prevEntry s.m_map itBegin0).map (fun p => some p.1))
    let prevItEndRef ←
      (if itEnd0 = mapBegin s.m_map then pure none
       else (prevEntry s.m_map itEnd0).map (fun p => some p.1))
    if itBegin0 = itEnd0 then do
      let pb ← readRef s.m_valBegin s.m_map prevItBeginRef
      if oldValue = pb then assignValue s frm til newValue else pure s
    else do
      let b ← deref s.m_map itBegin0
      let (m1, itBegin) ←
        (if frm < b.1 then do
          let pb ← readRef s.m_valBegin s.m_map prevItBeginRef
          if oldValue = pb then do
            let m' := emplace s.m_map frm newValue
            let b' ← deref m' itBegin0
            if b'.2 = newValue then do
              let nxt ← nextIt m' itBegin0
              let m'' ← eraseAt m' itBegin0
              pure (m'', nxt)
            else pure (m', itBegin0)
          else pure (s.m_map, itBegin0)
        else pure (s.m_map, itBegin0))
      let e ← deref m1 itEnd0
      let (m2, itEnd) ←
        (if til < e.1 then do
          let pe ← readRef s.m_valBegin m1 prevItEndRef
          if oldValue = pe then do
            let m' := emplace m1 til pe
            let p ← prevEntry m' itEnd0
            let e' ← deref m' itEnd0
            if p.2 = e'.2 then do
              let nxt ← nextIt m' itEnd0
              let m'' ← eraseAt m' itEnd0
              pure (m'', nxt)
            else pure (m', itEnd0)
          else pure (m1, itEnd0)
        else pure (m1, itEnd0))
      -- the relabelling loop over `[itBegin, itEnd)`
      let m3 := m2.map (fun p =>
        if !keyBefore p.1 itBegin && keyBefore p.1 itEnd && decide (p.2 = oldValue)
            && decide (p.1 ≠ til) then (p.1, newValue) else p)
      let last ← m3.getLast?
      if last.2 ≠ s.m_valBegin then
        pure { s with m_map := emplace m3 s.maxIndex s.m_valBegin }
      else pure { s with m_map := m3 }

/-- The `for` loop of `apply`, one unit of fuel per iteration: the value at
`it` is transformed; the node is erased when its new value equals the value
before it, and `it` moves to the next node. -/
def applyLoop (g : V → V) (itEnd : Iter) : Nat → KeyMap V → Iter → Option (KeyMap V)
  | 0, _, _ => none
  | n + 1, m, it =>
    if it = itEnd then some m
    else
      match deref m it with
      | none => none
      | some e =>
        let m' := setValue m e.1 (g e.2)
        match prevEntry m' it, nextIt m' it with
        | some p, some nxt =>
          if g e.2 = p.2 then
            match eraseAt m' it with
            | some m'' => applyLoop g itEnd n m'' nxt
            | none => none
          else applyLoop g itEnd n m' nxt
        | _, _ => none

/-- The member `apply(fromArg, toArg, appliedFunction)`. -/
def apply (s : compressedVector V) (fromArg toArg : Int) (appliedFunction : V → V) :
    Option (compressedVector V) :=
  let r := getValidRange s fromArg toArg
  let frm := r.1
  let til := r.2
  if frm = til then some s
  else if s.m_map.isEmpty then
    let temp := appliedFunction s.m_valBegin
    if temp ≠ s.m_valBegin then some { s with m_map := [(frm, temp), (til, s.m_valBegin)] }
    else some s
  else do
    let itBegin0 := lowerBound s.m_map frm
    let itEnd := lowerBound s.m_map til
    let prevItEndVal ←
      (if itEnd = mapBegin s.m_map then pure s.m_valBegin
       else (prevEntry s.m_map itEnd).map (fun p => p.2))
    if itBegin0 = itEnd then do
      let newValue := appliedFunction prevItEndVal
      if newValue ≠ prevItEndVal then do
        let m1 := emplace s.m_map frm newValue
        let e ← deref m1 itEnd
        if til < e.1 then pure { s with m_map := emplace m1 til prevItEndVal }
        else do
          let p ← prevEntry m1 itEnd
          if e.2 = p.2 then do
            let m2 ← eraseAt m1 itEnd
            pure { s with m_map := m2 }
          else pure { s with m_map := m1 }
      else pure s
    else do
      let prevItBeginVal ←
        (if itBegin0 = mapBegin s.m_map then pure s.m_valBegin
         else (prevEntry s.m_map itBegin0).map (fun p => p.2))
      let b ← deref s.m_map itBegin0
      let (m1, itBegin, itBeginNotChanged) ←
        (if frm < b.1 then
          let newValue := appliedFunction prevItBeginVal
          if newValue ≠ prevItBeginVal then do
            let m' := emplace s.m_map frm newValue
            let nxt ← nextIt m' (some frm)
            let n ← deref m' nxt
            if n.2 = newValue then do
              let m'' ← eraseAt m' nxt
              pure (m'', some frm, false)
            else pure (m', some frm, false)
          else pure (s.m_map, itBegin0, true)
        else pure (s.m_map, itBegin0, true))
      let m2 ←
        (if itBeginNotChanged then do
          let b1 ← deref m1 itBegin
          pure (setValue m1 b1.1 (appliedFunction b1.2))
        else pure m1)
      let start ← nextIt m2 itBegin
      let m3 ← applyLoop appliedFunction itEnd (m2.length + 1) m2 start
      let bb ← deref m3 itBegin
      let m4 ← (if bb.2 = prevItBeginVal then eraseAt m3 itBegin else pure m3)
      if itEnd = none then do
        let last ← m4.getLast?
        if last.2 ≠ s.m_valBegin then pure { s with m_map := emplace m4 til s.m_valBegin }
        else pure { s with m_map := m4 }
      else do
        let e ← deref m4 itEnd
        if til < e.1 then do
          let p ← prevEntry m4 itEnd
          if p.2 ≠ prevItEndVal then pure { s with m_map := emplace m4 til prevItEndVal }
          else pure { s with m_map := m4 }
        else do
          let p ← prevEntry m4 itEnd
          if p.2 = e.2 then do
            let m5 ← eraseAt m4 itEnd
            pure { s with m_map := m5 }
          else pure { s with m_map := m4 }

/-- The function `std::find_if(first, last, pred)` on the nodes of
`[first, last)`: the position of the first node satisfying the predicate,
`last` when there is none. -/
def findIf (nodes : List (Int × V)) (pred : Int × V → Bool) (last : Iter) : Iter :=
  match nodes.find? pred with
  | some p => some p.1
  | none => last

/-- The member `contains(fromArg, toArg, value)`.  The source compares the
result of `std::find_if(itBegin, itEnd, ...)` with `cend()`. -/
def contains (s : compressedVector V) (fromArg toArg : Int) (value : V) : Option Bool :=
  let r := getValidRange s fromArg toArg
  let frm := r.1
  let til := r.2
  if frm = til then some false
  else if s.m_map.isEmpty then some (decide (s.m_valBegin = value))
  else
    let itBegin := lowerBound s.m_map frm
    let itEnd := lowerBound s.m_map til
    if itEnd = mapBegin s.m_map then some (decide (s.m_valBegin = value))
    else if itBegin = none then (s.m_map.getLast?).map (fun p => decide (p.2 = value))
    else do
      let prevItBeginVal ←
        (if itBegin = mapBegin s.m_map then pure s.m_valBegin
         else (prevEntry s.m_map itBegin).map (fun p => p.2))
      let found := findIf (rangeOf s.m_map itBegin itEnd) (fun p => decide (p.2 = value)) itEnd
      pure (decide (prevItBeginVal = value) || decide (found ≠ none))

/-- The member `setMinIndex(index)`: the returned boolean and the structure after the call. -/
def setMinIndex (s : compressedVector V) (index : Int) : Option (Bool × compressedVector V) :=
  if index ≥ s.maxIndex then some (false, s)
  else do
    let m ← eraseRange s.m_map (mapBegin s.m_map) (lowerBound s.m_map index)
    pure (true, { s with minIndex := index, m_map := m })

/-- The member `setMaxIndex(index)`: the returned boolean and the structure after the call. -/
def setMaxIndex (s : compressedVector V) (index : Int) : Option (Bool × compressedVector V) :=
  if index ≤ s.minIndex then some (false, s)
  else do
    let m ← eraseRange s.m_map (upperBound s.m_map index) none
    pure (true, { s with maxIndex := index, m_map := m })

/-- The member `setInitValue(value)`. -/
def setInitValue (s : compressedVector V) (value : V) : Option (compressedVector V) :=
  if s.m_map.isEmpty then some { s with m_valBegin := value }
  else do
    let first ← s.m_map.head?
    let m1 ← (if value = first.2 then eraseAt s.m_map (mapBegin s.m_map) else pure s.m_map)
    if m1.length = 1 then pure { s with m_valBegin := value, m_map := [] }
    else do
      -- `m_map.rbegin()->second = value`
      let last ← m1.getLast?
      pure { s with m_valBegin := value, m_map := setValue m1 last.1 value }

/-- The member `reset(value)`. -/
def reset (s : compressedVector V) (value : V) : compressedVector V :=
  { s with m_valBegin := value, m_map := [] }

/-- The default constructor `compressedVector()`; `zero` is `valueType(0)`. -/
def defaultVector (zero : V) : compressedVector V :=
  { minIndex := 0, maxIndex := 1, m_valBegin := zero, m_map := [] }

/-- The private constructor `compressedVector(maxArg, mapArg)`; `zero` is
`valueType(0)`.  The structure is reset when `mapCanonicalValidationDebug`
rejects it. -/
def fromMap (zero : V) (maxArg : Int) (mapArg : KeyMap V) : compressedVector V :=
  let s : compressedVector V :=
    { minIndex := (match mapArg.head? with
        | none => maxArg - 1
        | some p => p.1)
      maxIndex := maxArg
      m_valBegin := (match mapArg.getLast? with
        | none => zero
        | some p => p.2)
      m_map := mapArg }
  if ¬ mapCanonicalValidationDebug s then reset s zero else s

/-- The member `getSubArray(fromArg, toArg)`; `zero` is `valueType(0)`.  The
result map receives the node before `itEnd`, then the nodes of `[itBegin,
itEnd)` before it from the back, then the entry `(from, prevItBeginVal)`. -/
def getSubArray (zero : V) (s : compressedVector V) (fromArg toArg : Int) :
    Option (compressedVector V) :=
  let r := getValidRange s fromArg toArg
  let frm := r.1
  let til := r.2
  if frm = til then some (defaultVector zero)
  else if s.m_map.isEmpty then some (fromMap zero til (emplace [] frm s.m_valBegin))
  else do
    let last ← s.m_map.getLast?
    let first ← s.m_map.head?
    if frm ≥ last.1 ∨ til ≤ first.1 then pure (fromMap zero til (emplace [] frm s.m_valBegin))
    else do
      let itBegin := lowerBound s.m_map frm
      let itEnd := lowerBound s.m_map til
      let prevItBeginVal ←
        (if itBegin = mapBegin s.m_map then pure s.m_valBegin
         else (prevEntry s.m_map itBegin).map (fun p => p.2))
      if itBegin = itEnd then pure (fromMap zero til (emplace [] frm prevItBeginVal))
      else do
        let pe ← prevEntry s.m_map itEnd
        let nodes := rangeOf s.m_map itBegin itEnd
        let resultMap := insertNodes (emplace [] pe.1 pe.2) nodes.reverse.tail
        pure (fromMap zero til (emplace resultMap frm prevItBeginVal))

/-- The function `std::min(a, b, comp)`. -/
def stdMin (comp : V → V → Bool) (a b : V) : V := if comp b a then b else a

/-- The function `std::max(a, b, comp)`. -/
def stdMax (comp : V → V → Bool) (a b : V) : V := if comp a b then b else a

/-- The loop of `std::min_element` over the nodes after the first, with the
comparator of `getMinValue` on the values: the first smallest node. -/
def minElement (comp : V → V → Bool) : Int × V → List (Int × V) → Int × V
  | smallest, [] => smallest
  | smallest, n :: rest =>
    if comp n.2 smallest.2 then minElement comp n rest else minElement comp smallest rest

/-- The loop of `std::max_element` over the nodes after the first, with the
comparator of `getMaxValue` on the values: the first largest node. -/
def maxElement (comp : V → V → Bool) : Int × V → List (Int × V) → Int × V
  | largest, [] => largest
  | largest, n :: rest =>
    if comp largest.2 n.2 then maxElement comp n rest else maxElement comp largest rest

/-- The member `getMinValue(fromArg, toArg, compareFunction)`.
`std::min_element(itBegin, itEnd, ...)` returns `itEnd` on an empty range, and
the source dereferences its result. -/
def getMinValue (s : compressedVector V) (fromArg toArg : Int) (compareFunction : V → V → Bool) :
    Option V :=
  let r := getValidRange s fromArg toArg
  let frm := r.1
  let til := r.2
  if frm = til then some s.m_valBegin
  else
    let itBegin := lowerBound s.m_map frm
    if itBegin = none then some s.m_valBegin
    else do
      let b ← deref s.m_map itBegin
      let minFirst ←
        (if b.1 = frm then pure b.2
         else if itBegin = mapBegin s.m_map then pure s.m_valBegin
         else (prevEntry s.m_map itBegin).map (fun p => p.2))
      let itEnd := lowerBound s.m_map til
      let minLast ←
        (if itEnd = none ∨ itEnd = mapBegin s.m_map then pure s.m_valBegin
         else (prevEntry s.m_map itEnd).map (fun p => p.2))
      let element ←
        (match rangeOf s.m_map itBegin itEnd with
         | [] => deref s.m_map itEnd
         | n :: rest => some (minElement compareFunction n rest))
      pure (stdMin compareFunction (stdMin compareFunction minFirst minLast) element.2)

/-- The member `getMaxValue(fromArg, toArg, compareFunction)`.
`std::max_element(itBegin, itEnd, ...)` returns `itEnd` on an empty range, and
the source dereferences its result. -/
def getMaxValue (s : compressedVector V) (fromArg toArg : Int) (compareFunction : V → V → Bool) :
    Option V :=
  let r := getValidRange s fromArg toArg
  let frm := r.1
  let til := r.2
  if frm = til then some s.m_valBegin
  else
    let itBegin := lowerBound s.m_map frm
    if itBegin = none then some s.m_valBegin
    else do
      let b ← deref s.m_map itBegin
      let minFirst ←
        (if b.1 = frm then pure b.2
         else if itBegin = mapBegin s.m_map then pure s.m_valBegin
         else (prevEntry s.m_map itBegin).map (fun p => p.2))
      let itEnd := lowerBound s.m_map til
      let minLast ←
        (if itEnd = none ∨ itEnd = mapBegin s.m_map then pure s.m_valBegin
         else (prevEntry s.m_map itEnd).map (fun p => p.2))
      let element ←
        (match rangeOf s.m_map itBegin itEnd with
         | [] => deref s.m_map itEnd
         | n :: rest => some (maxElement compareFunction n rest))
      pure (stdMax compareFunction (stdMax compareFunction minFirst minLast) element.2)

/-- The member `getSum(fromArg, toArg, init)` for integer values, in exact
arithmetic.  The loop runs over the pairs of consecutive nodes of `[itBegin,
itEnd)`. -/
def getSum (s : compressedVector Int) (fromArg toArg : Int) (init : Int) : Option Int :=
  let r := getValidRange s fromArg toArg
  let frm := r.1
  let til := r.2
  if frm = til then some (operatorAt s frm)
  else if s.m_map.isEmpty then some (init + s.m_valBegin * (til - frm))
  else do
    let first ← s.m_map.head?
    let last ← s.m_map.getLast?
    if til < first.1 ∨ frm > last.1 then pure (init + s.m_valBegin * (til - frm))
    else do
      let itBegin := lowerBound s.m_map frm
      let itEnd := lowerBound s.m_map til
      let prevItBeginVal ←
        (if itBegin = mapBegin s.m_map then pure s.m_valBegin
         else (prevEntry s.m_map itBegin).map (fun p => p.2))
      if itBegin = itEnd then pure (init + (til - frm) * prevItBeginVal)
      else do
        let b ← deref s.m_map itBegin
        let nodes := rangeOf s.m_map itBegin itEnd
        let result := (nodes.zip nodes.tail).foldl
          (fun acc q => acc + (q.2.1 - q.1.1) * q.1.2) (init + (b.1 - frm) * prevItBeginVal)
        let prevItEnd ← prevEntry s.m_map itEnd
        pure (result + (til - prevItEnd.1) * prevItEnd.2)

/-- The first loop of `insertValuesAfterPosition`: the runs after the first
are appended to `fixedValues` (kept with its last element apart, as
`init ++ [back]`); equal neighbours are coalesced and a run of length zero
with a new value is dropped.  Returns `fixedValues` and `size`. -/
def mergeRuns : List (V × Nat) → List (V × Nat) → V × Nat → Nat → List (V × Nat) × (V × Nat) × Nat
  | [], init, back, size => (init, back, size)
  | item :: rest, init, back, size =>
    if item.1 ≠ back.1 then
      if item.2 ≠ 0 then mergeRuns rest (init ++ [back]) item (size + item.2)
      else mergeRuns rest init back (size + item.2)
    else mergeRuns rest init (back.1, back.2 + item.2) (size + item.2)

/-- The insertion of the runs of `insertValuesAfterPosition` from `index`: the
first run is skipped, `index` advancing by its length, when its value equals
`prevVal`.  Returns the map and the final `index`. -/
def emplaceNewRuns (prevVal : V) (fixedValues : List (V × Nat)) (m : KeyMap V) (index : Int) :
    KeyMap V × Int :=
  match fixedValues with
  | [] => (m, index)
  | itNew :: rest =>
    if itNew.1 = prevVal then emplaceRuns rest m (index + (itNew.2 : Int))
    else emplaceRuns (itNew :: rest) m index

/-- The member `insertValuesAfterPosition(position, values, expandLeft)`. -/
def insertValuesAfterPosition (s : compressedVector V) (position : Int) (values : List (V × Nat))
    (expandLeft : Bool) : Option (compressedVector V) :=
  if position < s.minIndex ∨ position ≥ s.maxIndex then some s
  else
    match values with
    | [] => some s
    | front :: rest =>
      let c := mergeRuns rest [] front front.2
      let size : Int := (c.2.2 : Int)
      if s.m_map.isEmpty then
        let fixedValues := if c.2.1.1 = s.m_valBegin then c.1 else c.1 ++ [c.2.1]
        let index := position + 1 + (if expandLeft then -size else 0)
        let e := emplaceRuns fixedValues s.m_map index
        let m1 := emplace e.1 e.2 s.m_valBegin
        let m2 := eraseFrontInit s.m_valBegin m1
        if expandLeft then some { s with minIndex := s.minIndex - size, m_map := m2 }
        else some { s with maxIndex := s.maxIndex + size, m_map := m2 }
      else do
        let fixedValues := c.1 ++ [c.2.1]
        let itPosition := upperBound s.m_map position
        let nextNode ← deref s.m_map itPosition
        let nextKey := nextNode.1
        let prevVal ←
          (if itPosition = mapBegin s.m_map then pure s.m_valBegin
           else (prevEntry s.m_map itPosition).map (fun p => p.2))
        if expandLeft then do
          let shifted := (rangeOf s.m_map (mapBegin s.m_map) itPosition).map
            (fun p => (p.1 - size, p.2))
          let m1 ← eraseRange s.m_map (mapBegin s.m_map) itPosition
          let e := emplaceNewRuns prevVal fixedValues m1 (position + 1 - size)
          let p ← prevEntry e.1 itPosition
          let m2 ←
            (if p.2 ≠ prevVal ∧ nextKey - position > 1 then pure (emplace e.1 e.2 prevVal)
             else do
               let ip ← deref e.1 itPosition
               if ip.2 = c.2.1.1 then eraseAt e.1 itPosition else pure e.1)
          -- `itPosition = m_map.begin()`
          let m3 ←
            (match shifted.reverse with
             | n :: restRev => do
               let bnode ← m2.head?
               pure (insertNodes m2 (if n.2 = bnode.2 then restRev else n :: restRev))
             | [] => do
               let bnode ← m2.head?
               if bnode.2 = s.m_valBegin then eraseAt m2 (mapBegin m2) else pure m2)
          let last ← m3.getLast?
          let m4 := if last.2 ≠ s.m_valBegin then emplace m3 e.2 s.m_valBegin else m3
          pure { s with minIndex := s.minIndex - size, m_map := m4 }
        else do
          let shifted := (rangeOf s.m_map itPosition none).map (fun p => (p.1 + size, p.2))
          let m1 ← eraseRange s.m_map itPosition none
          let e := emplaceNewRuns prevVal fixedValues m1 (position + 1)
          let last1 ← e.1.getLast?
          let m2 := if last1.2 ≠ prevVal ∧ nextKey - position > 1 then emplace e.1 e.2 prevVal
                    else e.1
          let last2 ← m2.getLast?
          let m3 :=
            (match shifted with
             | n :: restShifted => insertNodes m2 (if n.2 = last2.2 then restShifted else n :: restShifted)
             | [] => if last2.2 ≠ s.m_valBegin then emplace m2 e.2 s.m_valBegin else m2)
          pure { s with maxIndex := s.maxIndex + size, m_map := m3 }

/-- The member `appendValues(values, expandLeft)`. -/
def appendValues (s : compressedVector V) (values : List (V × Nat)) (expandLeft : Bool) :
    Option (compressedVector V) :=
  if expandLeft then
    let prevMinIndex := s.minIndex
    let newMin := values.foldl (fun left right => left - (right.2 : Int)) s.minIndex
    let insertedSize := prevMinIndex - newMin
    let nodes := s.m_map.map (fun p => (p.1 - insertedSize, p.2))
    let s1 : compressedVector V := { s with minIndex := newMin, m_map := insertNodes [] nodes }
    assignValues s1 (s1.maxIndex - insertedSize) s1.maxIndex values
  else
    let prevMaxIndex := s.maxIndex
    let newMax := values.foldl (fun left right => left + (right.2 : Int)) s.maxIndex
    let s1 : compressedVector V := { s with maxIndex := newMax }
    assignValues s1 prevMaxIndex s1.maxIndex values

/-- The member `shiftLeft(difference)`: every node is extracted, re-keyed by
`- difference` and re-inserted; both bounds follow. -/
def shiftLeft (s : compressedVector V) (difference : Int) : compressedVector V :=
  let nodes := s.m_map.map (fun p => (p.1 - difference, p.2))
  { minIndex := s.minIndex - difference
    maxIndex := s.maxIndex - difference
    m_valBegin := s.m_valBegin
    m_map := insertNodes [] nodes }

/-- The member `shiftRight(difference)`: every node is extracted, re-keyed by
`+ difference` and re-inserted; both bounds follow. -/
def shiftRight (s : compressedVector V) (difference : Int) : compressedVector V :=
  let nodes := s.m_map.map (fun p => (p.1 + difference, p.2))
  { minIndex := s.minIndex + difference
    maxIndex := s.maxIndex + difference
    m_valBegin := s.m_valBegin
    m_map := insertNodes [] nodes }

/-- The copy assignment `operator=(const compressedVector& other)`: the
structure `*this` after the call. -/
def copyAssign (_s other : compressedVector V) : compressedVector V :=
  { minIndex := other.minIndex
    maxIndex := other.maxIndex
    m_valBegin := other.m_valBegin
    m_map := other.m_map }

/-- The move assignment `operator=(compressedVector&& other)`: the structure
`*this` after the call.  `sameObject` is the test `this == &other`;
`selfMoved` is the content in which `m_map = std::move(m_map)` leaves the map
of an object moved onto itself, which the standard does not specify. -/
def moveAssign (s other : compressedVector V) (sameObject : Bool) (selfMoved : KeyMap V) :
    compressedVector V :=
  if sameObject then
    { minIndex := other.minIndex
      maxIndex := other.maxIndex
      m_valBegin := other.m_valBegin
      m_map := selfMoved }
  else s

end Members

/-! ## Members without a body

Ten members are declared with a body that holds the comment `// TODO` only.
Each is embedded with the outcome type `Except String`, an error value being
what a signalled error would be; the arguments are those of the source.  The
members taking a second structure by reference return both structures. -/

section Stubs

set_option linter.unusedVariables false

variable {V : Type}

/-- The member `assignRangeFromArray(array, fromA, toA, fromB, toB)`. -/
def assignRangeFromArray (s array : compressedVector V) (fromA toA fromB toB : Int) :
    Except String (compressedVector V × compressedVector V) :=
  Except.ok (s, array)

/-- The member `swapRangesWithArray(fromA, toA, array, fromB, toB)`. -/
def swapRangesWithArray (s : compressedVector V) (fromA toA : Int) (array : compressedVector V)
    (fromB toB : Int) : Except String (compressedVector V × compressedVector V) :=
  Except.ok (s, array)

/-- The member `swapRanges(fromA, toA, fromB, toB)`. -/
def swapRanges (s : compressedVector V) (fromA toA fromB toB : Int) :
    Except String (compressedVector V) :=
  Except.ok s

/-- The member `copyRange(fromA, toA, fromB, toB)`. -/
def copyRange (s : compressedVector V) (fromA toA fromB toB : Int) :
    Except String (compressedVector V) :=
  Except.ok s

/-- The member `increaseValueRange(from, to, value, amount, expandLeft)`. -/
def increaseValueRange (s : compressedVector V) (frm til : Int) (value : V) (amount : Nat)
    (expandLeft : Bool) : Except String (compressedVector V) :=
  Except.ok s

/-- The member `decreaseValueRange(from, to, value, amount, shrinkRight)`. -/
def decreaseValueRange (s : compressedVector V) (frm til : Int) (value : V) (amount : Nat)
    (shrinkRight : Bool) : Except String (compressedVector V) :=
  Except.ok s

/-- The member `changeValueRange(from, to, value, newRange)`. -/
def changeValueRange (s : compressedVector V) (frm til : Int) (value : V) (newRange : Nat) :
    Except String (compressedVector V) :=
  Except.ok s

/-- The member `shiftRangeLeft(from, to, difference, fillValue)`. -/
def shiftRangeLeft (s : compressedVector V) (frm til difference : Int) (fillValue : V) :
    Except String (compressedVector V) :=
  Except.ok s

/-- The member `shiftRangeRight(from, to, difference, fillValue)`. -/
def shiftRangeRight (s : compressedVector V) (frm til difference : Int) (fillValue : V) :
    Except String (compressedVector V) :=
  Except.ok s

/-- The member `operationWithArray(array, fromArg, toArg, operation)`. -/
def operationWithArray (s array : compressedVector V) (fromArg toArg : Int)
    (operation : V → V → V) : Except String (compressedVector V × compressedVector V) :=
  Except.ok (s, array)

end Stubs

/-! ## Checked arithmetic

The function template `safeMultiply<T, safetyOn>` is embedded for a signed
integer type `T` of `w` bits that integer promotion leaves as it is
(`int32_t`, `int64_t`): its values are the integers of `[tMin w, tMax w]`.
An operation whose mathematical result leaves that range, and a division by
zero, have undefined behaviour (`none`). -/

section Arithmetic

/-- The value `std::numeric_limits<T>::min()`. -/
def tMin (w : Nat) : Int := -(2 ^ (w - 1))

/-- The value `std::numeric_limits<T>::max()`. -/
def tMax (w : Nat) : Int := 2 ^ (w - 1) - 1

/-- The expression `a * b` in `T`. -/
def mulT (w : Nat) (a b : Int) : Option Int :=
  if tMin w ≤ a * b ∧ a * b ≤ tMax w then some (a * b) else none

/-- The expression `a / b` in `T`: the quotient truncated towards zero. -/
def divT (w : Nat) (a b : Int) : Option Int :=
  if b = 0 then none
  else if tMin w ≤ Int.tdiv a b ∧ Int.tdiv a b ≤ tMax w then some (Int.tdiv a b) else none

/-- The function `safeMultiply<T, safetyOn>(a, b)`. -/
def safeMultiply (w : Nat) (safetyOn : Bool) (a b : Int) : Option Int :=
  if safetyOn then
    if (a = -1 ∧ b = tMin w) ∨ (b = -1 ∧ a = tMin w) then mulT w (-1) (tMin w + 1)
    else do
      -- `b != 0 and a > max / b`
      let over ← (if b ≠ 0 then (divT w (tMax w) b).map (fun q => decide (a > q)) else pure false)
      if over then pure (tMax w)
      else do
        -- `b != 0 and a < min / b`
        let under ← (if b ≠ 0 then (divT w (tMin w) b).map (fun q => decide (a < q)) else pure false)
        if under then pure (tMin w)
        else mulT w a b
  else mulT w a b

end Arithmetic

section Auxiliary

variable {V : Type}

/-- The value at `x` of the step function described by a background value and
a list of breakpoints: the value of the last entry whose key is at most `x`. -/
def valAt (bg : V) (m : KeyMap V) (x : Int) : V :=
  m.foldl (fun acc p => if p.1 ≤ x then p.2 else acc) bg

/-- The triples produced by `getValues` from a start index `a`, the value `v`
holding there, the following breakpoints and the end index: one triple up to
each breakpoint, and a last one up to the end index unless the last
breakpoint lies on it. -/
def segs : Int → V → List (Int × V) → Int → List (Int × Int × V)
  | a, v, [], til => if a ≠ til then [(a, til, v)] else []
  | a, v, n :: ns, til => (a, n.1, v) :: segs n.1 n.2 ns til

/-- A sample structure: the domain `[0, 10)` with background 0 and the single
run of value 7 on `[2, 5)`, as left by `assignValue(2, 5, 7)`. -/
def exampleVector : compressedVector Nat := ⟨0, 10, 0, [(2, 7), (5, 0)]⟩

/-- The breakpoint inserted by `eraseRestore`, as a list: the value `pv` is
restored at `frm` when breakpoints were erased (`B` not empty) and the first
remaining breakpoint `c` neither lies on `til` nor carries that value. -/
def eraseIns [DecidableEq V] (frm til : Int) (pv : V) (B C : KeyMap V) : KeyMap V :=
  match B, C with
  | _ :: _, c :: _ => if til ≠ c.1 ∧ pv ≠ c.2 then [(frm, pv)] else []
  | _, _ => []

/-- The nodes re-inserted by `eraseShrinkLeft`: the shifted nodes, without the
first one when its value equals `lv`. -/
def eraseTail [DecidableEq V] (d : Int) (lv : V) (C : KeyMap V) : KeyMap V :=
  match C.map (fun p => (p.1 - d, p.2)) with
  | [] => []
  | n :: rest => if n.2 ≠ lv then n :: rest else rest

/-- The element sequence written by `uncompressToVector` from a start index
`a`, the value `v` holding there, the following breakpoints and the end index:
each value is repeated up to the next breakpoint, the last one up to the end
index. -/
def fill : Int → V → List (Int × V) → Int → List V
  | a, v, [], til => List.replicate (til - a).toNat v
  | a, v, n :: ns, til => List.replicate (n.1 - a).toNat v ++ fill n.1 n.2 ns til

/-- The element sequence described by a run list: each value repeated by its length. -/
def expandRuns : List (V × Nat) → List V
  | [] => []
  | r :: rs => List.replicate r.2 r.1 ++ expandRuns rs

/-- The total length of a run list. -/
def totalLength : List (V × Nat) → Nat
  | [] => 0
  | r :: rs => r.2 + totalLength rs

/-- The breakpoints of a run list laid out from position `pos`: one entry at the start of each run. -/
def breakpointsOf : Int → List (V × Nat) → KeyMap V
  | _, [] => []
  | pos, r :: rs => (pos, r.1) :: breakpointsOf (pos + (r.2 : Int)) rs

/-- A run list that follows a run of value `prev`, made of runs of non-zero
length whose values differ from one run to the next. -/
def GoodRuns : V → List (V × Nat) → Prop
  | _, [] => True
  | prev, r :: rs => r.1 ≠ prev ∧ r.2 ≠ 0 ∧ GoodRuns r.1 rs

/-- The nodes inserted by the loop of `reverseValues`: the extracted nodes,
taken from the last one backwards, are laid out from `currentIndex`, each run
keeping its length `prevIndex - key`. -/
def revNodes : List (Int × V) → Int → Int → KeyMap V
  | [], _, _ => []
  | n :: rest, currentIndex, prevIndex =>
    (currentIndex, n.2) :: revNodes rest (currentIndex + prevIndex - n.1) n.1

/-- The value of `currentIndex` after the loop of `reverseValues`. -/
def revEnd : List (Int × V) → Int → Int → Int
  | [], currentIndex, _ => currentIndex
  | n :: rest, currentIndex, prevIndex => revEnd rest (currentIndex + prevIndex - n.1) n.1

/-- The comparator `std::less` on natural numbers. -/
def natLess (a b : Nat) : Bool := decide (a < b)

/-- The breakpoints follow a run of value `prev` without a redundant entry:
the value of each differs from the value in force before it. -/
def Changes : V → KeyMap V → Prop
  | _, [] => True
  | prev, p :: ps => p.2 ≠ prev ∧ Changes p.2 ps

/-- The nodes from the range end on, after the first part of `assignValue`:
an entry `(til, pB)` is put in front when no node lies on `til` and the value
`pB` in force before `til` differs from the assigned value. -/
def assignEnd [DecidableEq V] (til : Int) (value pB : V) : KeyMap V → KeyMap V
  | [] => if value ≠ pB then [(til, pB)] else []
  | c :: C => if til < c.1 ∧ value ≠ pB then (til, pB) :: c :: C else c :: C

/-- The nodes left from the range end on: the first one is erased when it
carries the assigned value. -/
def dropEqual [DecidableEq V] (value : V) : KeyMap V → KeyMap V
  | [] => []
  | c :: r => if c.2 = value then r else c :: r

end Auxiliary

/-! ## Lemmas

The map model is computed on an ordered list split in two or three parts
around the positions the iterators point at. -/

section Lemmas

variable {V : Type}

theorem Ordered.lt_of_append {L R : KeyMap V} (h : Ordered (L ++ R)) :
    ∀ p ∈ L, ∀ q ∈ R, p.1 < q.1 := (List.pairwise_append.mp h).2.2

theorem Ordered.left {L R : KeyMap V} (h : Ordered (L ++ R)) : Ordered L :=
  (List.pairwise_append.mp h).1

theorem Ordered.right {L R : KeyMap V} (h : Ordered (L ++ R)) : Ordered R :=
  (List.pairwise_append.mp h).2.1

theorem Ordered.head_lt {r : Int × V} {R : KeyMap V} (h : Ordered (r :: R)) :
    ∀ q ∈ R, r.1 < q.1 := (List.pairwise_cons.mp h).1

theorem Ordered.tail {r : Int × V} {R : KeyMap V} (h : Ordered (r :: R)) : Ordered R :=
  (List.pairwise_cons.mp h).2

theorem keyBefore_left {L R : KeyMap V} (h : Ordered (L ++ R)) {p : Int × V} (hp : p ∈ L) :
    keyBefore p.1 (mapBegin R) = true := by
  cases R with
  | nil => rfl
  | cons r R =>
    have := h.lt_of_append p hp r (List.mem_cons_self _ _)
    simpa [mapBegin, keyBefore] using this

theorem keyBefore_right {R : KeyMap V} (h : Ordered R) {p : Int × V} (hp : p ∈ R) :
    keyBefore p.1 (mapBegin R) = false := by
  cases R with
  | nil => cases hp
  | cons r R =>
    rcases List.mem_cons.mp hp with rfl | hq
    · simp [mapBegin, keyBefore]
    · have := h.head_lt p hq
      simp [mapBegin, keyBefore]; omega

theorem filter_keyBefore {L R : KeyMap V} (h : Ordered (L ++ R)) :
    (L ++ R).filter (fun p => keyBefore p.1 (mapBegin R)) = L := by
  rw [List.filter_append]
  have h1 : L.filter (fun p => keyBefore p.1 (mapBegin R)) = L :=
    List.filter_eq_self.mpr (fun p hp => keyBefore_left h hp)
  have h2 : R.filter (fun p => keyBefore p.1 (mapBegin R)) = [] :=
    List.filter_eq_nil_iff.mpr (fun p hp => by simp [keyBefore_right h.right hp])
  rw [h1, h2, List.append_nil]

theorem filter_not_keyBefore {L R : KeyMap V} (h : Ordered (L ++ R)) :
    (L ++ R).filter (fun p => !keyBefore p.1 (mapBegin R)) = R := by
  rw [List.filter_append]
  have h1 : L.filter (fun p => !keyBefore p.1 (mapBegin R)) = [] :=
    List.filter_eq_nil_iff.mpr (fun p hp => by simp [keyBefore_left h hp])
  have h2 : R.filter (fun p => !keyBefore p.1 (mapBegin R)) = R :=
    List.filter_eq_self.mpr (fun p hp => by simp [keyBefore_right h.right hp])
  rw [h1, h2, List.nil_append]

theorem prevEntry_split {L R : KeyMap V} (h : Ordered (L ++ R)) :
    prevEntry (L ++ R) (mapBegin R) = L.getLast? := by
  unfold prevEntry; rw [filter_keyBefore h]

theorem deref_split {L R : KeyMap V} (h : Ordered (L ++ R)) :
    deref (L ++ R) (mapBegin R) = R.head? := by
  cases R with
  | nil => rfl
  | cons r R =>
    have hL : L.find? (fun p => decide (p.1 = r.1)) = none := by
      rw [List.find?_eq_none]
      intro p hp
      have := h.lt_of_append p hp r (List.mem_cons_self _ _)
      simp; omega
    simp [mapBegin, deref, List.find?_append, hL]

theorem lowerBound_split {L R : KeyMap V} {k : Int} (hL : ∀ p ∈ L, p.1 < k)
    (hR : ∀ p ∈ R, k ≤ p.1) : lowerBound (L ++ R) k = mapBegin R := by
  have h1 : L.find? (fun p => decide (k ≤ p.1)) = none := by
    rw [List.find?_eq_none]; intro p hp; have := hL p hp; simp; omega
  unfold lowerBound mapBegin
  rw [List.find?_append, h1]
  cases R with
  | nil => rfl
  | cons r R => simp [hR r (List.mem_cons_self _ _)]

theorem upperBound_split {L R : KeyMap V} {k : Int} (hL : ∀ p ∈ L, p.1 ≤ k)
    (hR : ∀ p ∈ R, k < p.1) : upperBound (L ++ R) k = mapBegin R := by
  have h1 : L.find? (fun p => decide (k < p.1)) = none := by
    rw [List.find?_eq_none]; intro p hp; have := hL p hp; simp; omega
  unfold upperBound mapBegin
  rw [List.find?_append, h1]
  cases R with
  | nil => rfl
  | cons r R => simp [hR r (List.mem_cons_self _ _)]

theorem mapBegin_eq_iff {L R : KeyMap V} (h : Ordered (L ++ R)) :
    mapBegin R = mapBegin (L ++ R) ↔ L = [] := by
  cases L with
  | nil => simp
  | cons l L =>
    cases R with
    | nil => simp [mapBegin]
    | cons r R =>
      have := h.lt_of_append l (List.mem_cons_self _ _) r (List.mem_cons_self _ _)
      simp [mapBegin]; omega

theorem iterLE_mapBegin {M R : KeyMap V} (h : Ordered (M ++ R)) :
    iterLE (mapBegin (M ++ R)) (mapBegin R) = true := by
  cases R with
  | nil => cases hM : mapBegin (M ++ []) <;> rfl
  | cons r R =>
    cases M with
    | nil => simp [mapBegin, iterLE]
    | cons m M =>
      have := h.lt_of_append m (List.mem_cons_self _ _) r (List.mem_cons_self _ _)
      simp [mapBegin, iterLE]; omega

theorem mapBegin_append_eq_iff {M R : KeyMap V} (h : Ordered (M ++ R)) :
    mapBegin (M ++ R) = mapBegin R ↔ M = [] := by
  have := mapBegin_eq_iff h
  constructor
  · intro e; exact this.mp e.symm
  · intro e; exact (this.mpr e).symm

theorem rangeOf_split {L M R : KeyMap V} (h : Ordered (L ++ (M ++ R))) :
    rangeOf (L ++ (M ++ R)) (mapBegin (M ++ R)) (mapBegin R) = M := by
  have hMR := h.right
  unfold rangeOf
  rw [List.filter_append, List.filter_append]
  have h1 : L.filter (fun p => !keyBefore p.1 (mapBegin (M ++ R)) && keyBefore p.1 (mapBegin R)) = [] :=
    List.filter_eq_nil_iff.mpr (fun p hp => by simp [keyBefore_left h hp])
  have h2 : M.filter (fun p => !keyBefore p.1 (mapBegin (M ++ R)) && keyBefore p.1 (mapBegin R)) = M :=
    List.filter_eq_self.mpr (fun p hp => by
      simp [keyBefore_right hMR (List.mem_append_left _ hp), keyBefore_left hMR hp])
  have h3 : R.filter (fun p => !keyBefore p.1 (mapBegin (M ++ R)) && keyBefore p.1 (mapBegin R)) = [] :=
    List.filter_eq_nil_iff.mpr (fun p hp => by simp [keyBefore_right hMR.right hp])
  rw [h1, h2, h3]; simp

theorem eraseRange_split {L M R : KeyMap V} (h : Ordered (L ++ (M ++ R))) :
    eraseRange (L ++ (M ++ R)) (mapBegin (M ++ R)) (mapBegin R) = some (L ++ R) := by
  have hMR := h.right
  unfold eraseRange
  rw [if_pos (iterLE_mapBegin hMR), List.filter_append, List.filter_append]
  have h1 : L.filter (fun p => keyBefore p.1 (mapBegin (M ++ R)) || !keyBefore p.1 (mapBegin R)) = L :=
    List.filter_eq_self.mpr (fun p hp => by simp [keyBefore_left h hp])
  have h2 : M.filter (fun p => keyBefore p.1 (mapBegin (M ++ R)) || !keyBefore p.1 (mapBegin R)) = [] :=
    List.filter_eq_nil_iff.mpr (fun p hp => by
      simp [keyBefore_right hMR (List.mem_append_left _ hp), keyBefore_left hMR hp])
  have h3 : R.filter (fun p => keyBefore p.1 (mapBegin (M ++ R)) || !keyBefore p.1 (mapBegin R)) = R :=
    List.filter_eq_self.mpr (fun p hp => by simp [keyBefore_right hMR.right hp])
  rw [h1, h2, h3]; simp

theorem nextIt_split {L R : KeyMap V} {r : Int × V} (h : Ordered (L ++ r :: R)) :
    nextIt (L ++ r :: R) (some r.1) = some (mapBegin R) := by
  have e : L ++ r :: R = (L ++ [r]) ++ R := by simp
  show some (upperBound (L ++ r :: R) r.1) = some (mapBegin R)
  rw [e, upperBound_split]
  · intro p hp
    rcases List.mem_append.mp hp with hp | hp
    · exact le_of_lt (h.lt_of_append p hp r (List.mem_cons_self _ _))
    · simp at hp; rw [hp]
  · intro p hp; exact h.right.head_lt p hp

theorem eraseAt_split {L R : KeyMap V} {r : Int × V} (h : Ordered (L ++ r :: R)) :
    eraseAt (L ++ r :: R) (some r.1) = some (L ++ R) := by
  show some ((L ++ r :: R).filter (fun p => !decide (p.1 = r.1))) = some (L ++ R)
  rw [List.filter_append, List.filter_cons]
  have h1 : L.filter (fun p => !decide (p.1 = r.1)) = L :=
    List.filter_eq_self.mpr (fun p hp => by
      have := h.lt_of_append p hp r (List.mem_cons_self _ _); simp; omega)
  have h3 : R.filter (fun p => !decide (p.1 = r.1)) = R :=
    List.filter_eq_self.mpr (fun p hp => by
      have := h.right.head_lt p hp; simp; omega)
  rw [h1, h3]; simp

theorem emplace_split {L R : KeyMap V} {k : Int} (v : V) (hL : ∀ p ∈ L, p.1 < k)
    (hR : ∀ p ∈ R, k < p.1) : emplace (L ++ R) k v = L ++ (k, v) :: R := by
  induction L with
  | nil =>
    cases R with
    | nil => rfl
    | cons r R => simp [emplace, hR r (List.mem_cons_self _ _)]
  | cons l L ih =>
    have hl := hL l (List.mem_cons_self _ _)
    have ih' := ih (fun p hp => hL p (List.mem_cons_of_mem _ hp))
    show (if k < l.1 then (k, v) :: l :: (L ++ _) else if k = l.1 then l :: (L ++ _)
      else l :: emplace (L ++ _) k v) = _
    rw [if_neg (by omega), if_neg (by omega), ih']; rfl

theorem emplace_present {L R : KeyMap V} {k : Int} (v w : V) (hL : ∀ p ∈ L, p.1 < k) :
    emplace (L ++ (k, w) :: R) k v = L ++ (k, w) :: R := by
  induction L with
  | nil => simp [emplace]
  | cons l L ih =>
    have hl := hL l (List.mem_cons_self _ _)
    have ih' := ih (fun p hp => hL p (List.mem_cons_of_mem _ hp))
    show (if k < l.1 then (k, v) :: l :: (L ++ _) else if k = l.1 then l :: (L ++ _)
      else l :: emplace (L ++ _) k v) = _
    rw [if_neg (by omega), if_neg (by omega), ih']; rfl

theorem insertNodes_append {L X : KeyMap V} (h : Ordered (L ++ X)) :
    insertNodes L X = L ++ X := by
  induction X generalizing L with
  | nil => simp [insertNodes]
  | cons x X ih =>
    have e : L ++ x :: X = (L ++ [x]) ++ X := by simp
    have hx : emplace L x.1 x.2 = L ++ [x] := by
      have := emplace_split (L := L) (R := []) (k := x.1) x.2
        (fun p hp => h.lt_of_append p hp x (List.mem_cons_self _ _)) (by simp)
      simpa using this
    unfold insertNodes
    rw [List.foldl_cons, hx]
    have := ih (L := L ++ [x]) (by rw [← e]; exact h)
    unfold insertNodes at this
    rw [this, e]

/-- Every ordered map splits at any key into the entries below it and the entries not below it. -/
theorem Ordered.split_lt {m : KeyMap V} (h : Ordered m) (k : Int) :
    ∃ L R, m = L ++ R ∧ (∀ p ∈ L, p.1 < k) ∧ (∀ p ∈ R, k ≤ p.1) := by
  induction m with
  | nil => exact ⟨[], [], rfl, by simp, by simp⟩
  | cons q m ih =>
    by_cases hq : q.1 < k
    · obtain ⟨L, R, e, hL, hR⟩ := ih h.tail
      refine ⟨q :: L, R, by simp [e], ?_, hR⟩
      intro p hp
      rcases List.mem_cons.mp hp with rfl | hp
      · exact hq
      · exact hL p hp
    · refine ⟨[], q :: m, rfl, by simp, ?_⟩
      intro p hp
      rcases List.mem_cons.mp hp with rfl | hp
      · omega
      · have := h.head_lt p hp; omega

theorem Ordered.split_le {m : KeyMap V} (h : Ordered m) (k : Int) :
    ∃ L R, m = L ++ R ∧ (∀ p ∈ L, p.1 ≤ k) ∧ (∀ p ∈ R, k < p.1) := by
  obtain ⟨L, R, e, hL, hR⟩ := h.split_lt (k + 1)
  exact ⟨L, R, e, fun p hp => by have := hL p hp; omega, fun p hp => by have := hR p hp; omega⟩

theorem valAt_nil (bg : V) (x : Int) : valAt bg [] x = bg := rfl

theorem valAt_cons (bg : V) (p : Int × V) (m : KeyMap V) (x : Int) :
    valAt bg (p :: m) x = valAt (if p.1 ≤ x then p.2 else bg) m x := rfl

theorem valAt_append (bg : V) (L R : KeyMap V) (x : Int) :
    valAt bg (L ++ R) x = valAt (valAt bg L x) R x := by
  unfold valAt; rw [List.foldl_append]

theorem valAt_of_forall_gt (bg : V) {m : KeyMap V} {x : Int} (h : ∀ p ∈ m, x < p.1) :
    valAt bg m x = bg := by
  induction m with
  | nil => rfl
  | cons q m ih =>
    have hq := h q (List.mem_cons_self _ _)
    rw [valAt_cons, if_neg (by omega)]
    exact ih (fun p hp => h p (List.mem_cons_of_mem _ hp))

theorem valAt_of_forall_le (bg : V) {m : KeyMap V} {x : Int} (h : ∀ p ∈ m, p.1 ≤ x) :
    valAt bg m x = lastVal bg m := by
  induction m generalizing bg with
  | nil => rfl
  | cons q m ih =>
    have hq := h q (List.mem_cons_self _ _)
    rw [valAt_cons, if_pos hq, ih _ (fun p hp => h p (List.mem_cons_of_mem _ hp))]
    cases m with
    | nil => rfl
    | cons r m =>
      unfold lastVal
      rw [List.getLast?_cons_cons]
      cases hl : (r :: m).getLast? with
      | none => simp at hl
      | some p => rfl

theorem lastVal_nil (bg : V) : lastVal bg ([] : KeyMap V) = bg := rfl

theorem lastVal_append_cons (bg : V) (L R : KeyMap V) (r : Int × V) :
    lastVal bg (L ++ r :: R) = lastVal r.2 R := by
  induction R generalizing bg r L with
  | nil => simp [lastVal]
  | cons q R ih =>
    have e : L ++ r :: q :: R = (L ++ [r]) ++ q :: R := by simp
    rw [e, ih]
    have := ih r.2 [] q
    simpa using this.symm

theorem operatorAt_eq_valAt [DecidableEq V] (s : compressedVector V) (h : Ordered s.m_map) (x : Int) :
    operatorAt s x = valAt s.m_valBegin s.m_map x := by
  obtain ⟨L, R, e, hL, hR⟩ := h.split_le x
  rw [e] at h
  unfold operatorAt
  simp only [e]
  rw [upperBound_split hL hR, prevEntry_split h, valAt_append, valAt_of_forall_gt _ hR,
    valAt_of_forall_le _ hL]
  by_cases hnil : L = []
  · subst hnil; simp [lastVal]
  · rw [if_pos (fun c => hnil ((mapBegin_eq_iff h).mp c))]
    rfl

theorem zip_tail_segs (b : Int × V) (rest : List (Int × V)) (til : Int) (p : Int × V)
    (hp : (b :: rest).getLast? = some p) :
    ((b :: rest).zip rest).map (fun q => (q.1.1, q.2.1, q.1.2))
      ++ (if p.1 ≠ til then [(p.1, til, p.2)] else []) = segs b.1 b.2 rest til := by
  induction rest generalizing b with
  | nil =>
    simp at hp; subst hp
    simp [segs]
  | cons c rest ih =>
    rw [List.getLast?_cons_cons] at hp
    have := ih c hp
    simp only [List.zip_cons_cons, List.map_cons, List.cons_append, segs]
    rw [this]

theorem segs_start_ge {ns : List (Int × V)} (h : Ordered ns) {a : Int} (v : V) (til : Int)
    (ha : ∀ n ∈ ns, a ≤ n.1) : ∀ t ∈ segs a v ns til, a ≤ t.1 := by
  induction ns generalizing a v with
  | nil =>
    intro t ht
    unfold segs at ht
    split at ht
    · simp at ht; rw [ht]
    · cases ht
  | cons n ns ih =>
    intro t ht
    unfold segs at ht
    rcases List.mem_cons.mp ht with rfl | ht
    · exact le_refl _
    · have h1 := ih h.tail n.2 (fun q hq => le_of_lt (h.head_lt q hq)) t ht
      have h2 := ha n (List.mem_cons_self _ _)
      omega

theorem segs_cover {ns : List (Int × V)} (h : Ordered ns) (a : Int) (v : V) (til x : Int)
    (hax : a ≤ x) (hx : x < til) (hk : ∀ n ∈ ns, a < n.1 ∧ n.1 ≤ til) :
    ∃ lo hi, (segs a v ns til).filter (fun t => decide (t.1 ≤ x ∧ x < t.2.1))
      = [(lo, hi, valAt v ns x)] := by
  induction ns generalizing a v with
  | nil =>
    refine ⟨a, til, ?_⟩
    have : a ≠ til := by omega
    simp [segs, this, hax, hx, valAt_nil]
  | cons n ns ih =>
    have hn := hk n (List.mem_cons_self _ _)
    by_cases hxn : x < n.1
    · refine ⟨a, n.1, ?_⟩
      have hrest : (segs n.1 n.2 ns til).filter (fun t => decide (t.1 ≤ x ∧ x < t.2.1)) = [] := by
        rw [List.filter_eq_nil_iff]
        intro t ht
        have := segs_start_ge h.tail n.2 til (fun q hq => le_of_lt (h.head_lt q hq)) t ht
        simp; intro; omega
      have hv : valAt v (n :: ns) x = v := by
        apply valAt_of_forall_gt
        intro p hp
        rcases List.mem_cons.mp hp with rfl | hp
        · exact hxn
        · have := h.head_lt p hp; omega
      simp only [segs]
      rw [List.filter_cons, hrest, hv]
      simp [hax, hxn]
    · obtain ⟨lo, hi, e⟩ := ih h.tail n.1 n.2 (by omega)
        (fun q hq => ⟨h.head_lt q hq, (hk q (List.mem_cons_of_mem _ hq)).2⟩)
      refine ⟨lo, hi, ?_⟩
      have hv : valAt v (n :: ns) x = valAt n.2 ns x := by
        rw [valAt_cons, if_pos (by omega)]
      simp only [segs]
      rw [hv, List.filter_cons, e]
      simp [hxn]

theorem getValidRange_full (s : compressedVector V) (h : s.minIndex < s.maxIndex) :
    getValidRange s s.minIndex s.maxIndex = (s.minIndex, s.maxIndex) := by
  unfold getValidRange
  rw [if_neg (by omega), if_neg (by omega), if_neg (by omega), if_pos (le_refl _), if_pos (le_refl _)]

theorem prevEntry_none (m : KeyMap V) : prevEntry m none = m.getLast? := by
  unfold prevEntry
  have : m.filter (fun p => keyBefore p.1 none) = m :=
    List.filter_eq_self.mpr (fun p _ => rfl)
  rw [this]

theorem rangeOf_to_end {L R : KeyMap V} (h : Ordered (L ++ R)) :
    rangeOf (L ++ R) (mapBegin R) none = R := by
  have := rangeOf_split (L := L) (M := R) (R := []) (by simpa using h)
  simpa [mapBegin] using this

theorem getValues_full [DecidableEq V] (s : compressedVector V) (h : Canonical s) :
    ∃ L R, s.m_map = L ++ R ∧ (∀ p ∈ L, p.1 ≤ s.minIndex) ∧ (∀ p ∈ R, s.minIndex < p.1)
      ∧ getValues s s.minIndex s.maxIndex
          = some (segs s.minIndex (lastVal s.m_valBegin L) R s.maxIndex) := by
  obtain ⟨hord, h1, h2, h3, h4, h5⟩ := h
  have hr := getValidRange_full s h1
  obtain ⟨L, R, e, hL, hR⟩ := hord.split_le s.minIndex
  refine ⟨L, R, e, hL, hR, ?_⟩
  have hne : s.minIndex ≠ s.maxIndex := by omega
  by_cases hm : s.m_map = []
  · have hLR : L = [] ∧ R = [] := by
      rw [hm] at e; simpa using e.symm
    simp [getValues, hr, hne, hm, hLR.1, hLR.2, segs, lastVal]
  · -- the map is not empty: some key lies above `minIndex`
    rw [e] at hord hm h2 h4
    have hRne : R ≠ [] := by
      intro hR0
      subst hR0
      simp only [List.append_nil] at hord hm h2 h4
      -- every key equals `minIndex`, so there is at most one
      cases L with
      | nil => exact hm rfl
      | cons l L =>
        cases L with
        | nil => exact h4 rfl
        | cons l' L =>
          have a1 := hord.head_lt l' (List.mem_cons_self _ _)
          have a2 := (h2 l (List.mem_cons_self _ _)).1
          have a3 := hL l' (by simp)
          omega
    obtain ⟨b, rest, rfl⟩ := List.exists_cons_of_ne_nil hRne
    have hup1 : upperBound (L ++ b :: rest) s.minIndex = mapBegin (b :: rest) :=
      upperBound_split hL hR
    have hup2 : upperBound (L ++ b :: rest) s.maxIndex = none := by
      have := upperBound_split (L := L ++ b :: rest) (R := []) (k := s.maxIndex)
        (fun p hp => (h2 p hp).2) (by simp)
      simpa [mapBegin] using this
    have hlast : ∃ p, (b :: rest).getLast? = some p := by
      cases hl : (b :: rest).getLast? with
      | none => simp at hl
      | some p => exact ⟨p, rfl⟩
    obtain ⟨p, hp⟩ := hlast
    have hlast' : (L ++ b :: rest).getLast? = some p := by
      rw [List.getLast?_append, hp]; rfl
    have hv0 : (if mapBegin (b :: rest) = mapBegin (L ++ b :: rest) then some s.m_valBegin
        else (prevEntry (L ++ b :: rest) (mapBegin (b :: rest))).map (fun p => p.2))
        = some (lastVal s.m_valBegin L) := by
      rw [prevEntry_split hord]
      by_cases hLn : L = []
      · subst hLn; simp [lastVal]
      · rw [if_neg (fun c => hLn ((mapBegin_eq_iff hord).mp c))]
        cases hl : L.getLast? with
        | none => simp at hl; exact absurd hl hLn
        | some q => simp [lastVal, hl]
    have hisEmpty : (L ++ b :: rest).isEmpty = false := by
      cases L <;> rfl
    unfold getValues
    simp only [hr, e, if_neg hne, hisEmpty, hup1, hup2]
    have hb0 : ¬ (none = mapBegin (L ++ b :: rest) ∨ mapBegin (b :: rest) = none) := by
      cases L <;> simp [mapBegin]
    have hb1 : ¬ (mapBegin (b :: rest) = none) := by simp [mapBegin]
    rw [if_neg hb0, if_neg hb1]
    have hderef := deref_split hord
    simp only [Option.bind_eq_bind, Option.pure_def, pure, bind] at hv0 ⊢
    rw [hderef]
    simp only [List.head?_cons, Option.some_bind, Option.bind]
    rw [hv0]
    simp only [rangeOf_to_end hord, prevEntry_none, hlast']
    simp only [List.tail_cons]
    rw [segs, List.cons_append, zip_tail_segs b rest s.maxIndex p hp]
    simp

theorem eraseRange_to_end {L R : KeyMap V} (h : Ordered (L ++ R)) :
    eraseRange (L ++ R) (mapBegin R) none = some L := by
  have := eraseRange_split (L := L) (M := R) (R := []) (by simpa using h)
  simpa [mapBegin] using this

theorem prevValue_split [DecidableEq V] (bg : V) {L R : KeyMap V} (h : Ordered (L ++ R)) :
    (if mapBegin R ≠ mapBegin (L ++ R) then (prevEntry (L ++ R) (mapBegin R)).map (fun p => p.2)
      else pure bg) = some (lastVal bg L) := by
  rw [prevEntry_split h]
  by_cases hL : L = []
  · subst hL; simp [lastVal]
  · rw [if_pos (fun c => hL ((mapBegin_eq_iff h).mp c))]
    cases hl : L.getLast? with
    | none => simp at hl; exact absurd hl hL
    | some q => simp [lastVal, hl]

theorem eraseRestore_closed [DecidableEq V] {A B C : KeyMap V} (hord : Ordered (A ++ (B ++ C)))
    (frm til : Int) (pv : V) (hlt : frm < til)
    (hA : ∀ p ∈ A, p.1 < frm) (hC : ∀ p ∈ C, til ≤ p.1) :
    eraseRestore (A ++ C) (mapBegin (B ++ C)) (mapBegin C) til (til - frm) pv
      = some (A ++ (eraseIns frm til pv B C ++ C)) := by
  have hAC : Ordered (A ++ C) := by
    have h1 := hord.left
    have h2 := hord.right.right
    exact List.pairwise_append.mpr ⟨h1, h2, fun p hp q hq =>
      hord.lt_of_append p hp q (List.mem_append_right _ hq)⟩
  unfold eraseRestore
  cases C with
  | nil => cases B <;> simp [mapBegin, eraseIns]
  | cons c C =>
    cases B with
    | nil => simp [eraseIns]
    | cons b B =>
      have hbc : mapBegin (b :: B ++ c :: C) ≠ mapBegin (c :: C) := by
        intro e
        have := (mapBegin_append_eq_iff hord.right).mp e
        cases this
      rw [if_pos ⟨hbc, by simp [mapBegin]⟩, deref_split hAC]
      have hc := hC c (List.mem_cons_self _ _)
      simp only [List.head?_cons, Option.bind_eq_bind, Option.some_bind, eraseIns]
      by_cases hcond : til ≠ c.1 ∧ pv ≠ c.2
      · rw [if_pos hcond, if_pos hcond]
        have : til - (til - frm) = frm := by omega
        rw [this, emplace_split pv hA (fun p hp => by have := hC p hp; omega)]
        rfl
      · rw [if_neg hcond, if_neg hcond]; rfl

theorem eraseShrinkLeft_closed [DecidableEq V] (s : compressedVector V) {L C : KeyMap V} (d : Int)
    (hord : Ordered (L ++ C)) (hsh : Ordered (L ++ C.map (fun p => (p.1 - d, p.2)))) :
    eraseShrinkLeft s (L ++ C) (mapBegin C) d
      = some { s with maxIndex := s.maxIndex - d
                      m_map := L ++ eraseTail d (lastVal s.m_valBegin L) C } := by
  unfold eraseShrinkLeft
  rw [rangeOf_to_end hord, eraseRange_to_end hord]
  simp only [Option.bind_eq_bind, Option.some_bind, Option.pure_def]
  congr 2
  unfold eraseTail
  cases hC : C.map (fun p => (p.1 - d, p.2)) with
  | nil => simp
  | cons n rest =>
    rw [hC] at hsh
    simp only
    by_cases hn : n.2 ≠ lastVal s.m_valBegin L
    · rw [if_pos hn]; exact insertNodes_append hsh
    · rw [if_neg hn]
      apply insertNodes_append
      exact List.pairwise_append.mpr ⟨hsh.left, hsh.right.tail, fun p hp q hq =>
        hsh.lt_of_append p hp q (List.mem_cons_of_mem _ hq)⟩

theorem mem_emplace {m : KeyMap V} {k : Int} {v : V} {q : Int × V} (hq : q ∈ emplace m k v) :
    q = (k, v) ∨ q ∈ m := by
  induction m with
  | nil => simp [emplace] at hq; exact Or.inl hq
  | cons p ps ih =>
    unfold emplace at hq
    split at hq
    · rcases List.mem_cons.mp hq with h | h
      · exact Or.inl h
      · exact Or.inr h
    · split at hq
      · exact Or.inr hq
      · rcases List.mem_cons.mp hq with h | h
        · exact Or.inr (h ▸ List.mem_cons_self _ _)
        · rcases ih h with h' | h'
          · exact Or.inl h'
          · exact Or.inr (List.mem_cons_of_mem _ h')

theorem emplace_ordered {m : KeyMap V} (h : Ordered m) (k : Int) (v : V) :
    Ordered (emplace m k v) := by
  induction m with
  | nil => simp [emplace, Ordered]
  | cons p ps ih =>
    unfold emplace
    split
    · rename_i hk
      refine List.pairwise_cons.mpr ⟨?_, h⟩
      intro q hq
      rcases List.mem_cons.mp hq with rfl | hq
      · exact hk
      · have := h.head_lt q hq
        show k < q.1
        omega
    · split
      · exact h
      · rename_i h1 h2
        refine List.pairwise_cons.mpr ⟨?_, ih h.tail⟩
        intro q hq
        rcases mem_emplace hq with rfl | hq
        · show p.1 < k; omega
        · exact h.head_lt q hq

theorem ordered_map_sub {C : KeyMap V} (h : Ordered C) (d : Int) :
    Ordered (C.map (fun p => (p.1 - d, p.2))) := by
  unfold Ordered at *
  rw [List.pairwise_map]
  exact h.imp (fun hab => by simpa using hab)

theorem valAt_map_sub (bg : V) (C : KeyMap V) (d x : Int) :
    valAt bg (C.map (fun p => (p.1 - d, p.2))) x = valAt bg C (x + d) := by
  induction C generalizing bg with
  | nil => rfl
  | cons c C ih =>
    rw [List.map_cons, valAt_cons, valAt_cons, ih]
    by_cases hc : c.1 ≤ x + d
    · rw [if_pos hc, if_pos (show (c.1 - d, c.2).1 ≤ x by simpa using by omega)]
    · rw [if_neg hc, if_neg (show ¬ (c.1 - d, c.2).1 ≤ x by simpa using by omega)]

theorem lastVal_map_sub (bg : V) (C : KeyMap V) (d : Int) :
    lastVal bg (C.map (fun p => (p.1 - d, p.2))) = lastVal bg C := by
  unfold lastVal
  rw [List.getLast?_map]
  cases C.getLast? <;> rfl

theorem lastVal_append_of_ne_nil (bg : V) (L : KeyMap V) {R : KeyMap V} (h : R ≠ []) :
    lastVal bg (L ++ R) = lastVal bg R := by
  obtain ⟨r, R', rfl⟩ := List.exists_cons_of_ne_nil h
  rw [lastVal_append_cons]
  have := lastVal_append_cons bg [] R' r
  simpa using this.symm

theorem noAdjacentEqual_junction [DecidableEq V] {L R : KeyMap V} {a b : Int × V}
    (h : noAdjacentEqual (L ++ a :: b :: R) = true) : a.2 ≠ b.2 := by
  induction L with
  | nil => simp [noAdjacentEqual] at h; exact h.1
  | cons l L ih =>
    cases L with
    | nil => simp [noAdjacentEqual] at h; exact h.2.1
    | cons l' L =>
      simp only [List.cons_append, noAdjacentEqual, Bool.and_eq_true] at h
      exact ih (by simpa using h.2)

theorem valAt_eraseFrontInit [DecidableEq V] (bg : V) (m : KeyMap V) (x : Int) :
    valAt bg (eraseFrontInit bg m) x = valAt bg m x := by
  cases m with
  | nil => rfl
  | cons p rest =>
    unfold eraseFrontInit
    by_cases hp : p.2 = bg
    · simp only [if_pos hp]
      rw [valAt_cons, hp]; simp
    · simp only [if_neg hp]

theorem lastVal_eraseFrontInit [DecidableEq V] (bg : V) (m : KeyMap V) :
    lastVal bg (eraseFrontInit bg m) = lastVal bg m := by
  cases m with
  | nil => rfl
  | cons p rest =>
    unfold eraseFrontInit
    by_cases hp : p.2 = bg
    · simp only [if_pos hp]
      cases rest with
      | nil => simp [lastVal, hp]
      | cons q rest =>
        have := lastVal_append_cons bg [p] rest q
        have h2 := lastVal_append_cons bg [] rest q
        simp only [List.singleton_append, List.nil_append] at this h2
        rw [this, h2]
    · simp only [if_neg hp]

theorem mem_eraseFrontInit [DecidableEq V] {bg : V} {m : KeyMap V} {q : Int × V}
    (hq : q ∈ eraseFrontInit bg m) : q ∈ m := by
  cases m with
  | nil => exact hq
  | cons p rest =>
    unfold eraseFrontInit at hq
    by_cases hp : p.2 = bg
    · simp only [if_pos hp] at hq
      exact List.mem_cons_of_mem _ hq
    · simp only [if_neg hp] at hq
      exact hq

theorem ordered_eraseFrontInit [DecidableEq V] (bg : V) {m : KeyMap V} (h : Ordered m) :
    Ordered (eraseFrontInit bg m) := by
  cases m with
  | nil => exact h
  | cons p rest =>
    unfold eraseFrontInit
    by_cases hp : p.2 = bg
    · simp only [if_pos hp]
      exact h.tail
    · simp only [if_neg hp]
      exact h

theorem emplaceBackInit_of_lastVal_eq [DecidableEq V] {bg : V} {m : KeyMap V} (position : Int)
    (h : lastVal bg m = bg) : emplaceBackInit bg m position = m := by
  unfold emplaceBackInit
  unfold lastVal at h
  cases hl : m.getLast? with
  | none => rfl
  | some p =>
    rw [hl] at h
    simp only at h ⊢
    rw [if_neg (by simpa using h)]

theorem emplaceBackInit_of_lastVal_ne [DecidableEq V] {bg : V} {m : KeyMap V} (position : Int)
    (h : lastVal bg m ≠ bg) : emplaceBackInit bg m position = emplace m position bg := by
  unfold emplaceBackInit
  unfold lastVal at h
  cases hl : m.getLast? with
  | none => rw [hl] at h; exact absurd rfl h
  | some p =>
    rw [hl] at h
    simp only at h ⊢
    rw [if_pos h]

theorem ordered_emplaceBackInit [DecidableEq V] (bg : V) {m : KeyMap V} (position : Int)
    (h : Ordered m) : Ordered (emplaceBackInit bg m position) := by
  by_cases hl : lastVal bg m = bg
  · rw [emplaceBackInit_of_lastVal_eq position hl]; exact h
  · rw [emplaceBackInit_of_lastVal_ne position hl]; exact emplace_ordered h _ _

theorem ordered_eraseClose [DecidableEq V] (bg : V) (frm : Int) {m : KeyMap V} (h : Ordered m) :
    Ordered (eraseClose bg frm m) :=
  ordered_emplaceBackInit bg frm (ordered_eraseFrontInit bg h)

theorem valAt_eraseClose_of_lastVal_eq [DecidableEq V] {bg : V} (frm : Int) {m : KeyMap V}
    (h : lastVal bg m = bg) (x : Int) : valAt bg (eraseClose bg frm m) x = valAt bg m x := by
  unfold eraseClose
  rw [emplaceBackInit_of_lastVal_eq frm (by rw [lastVal_eraseFrontInit]; exact h),
    valAt_eraseFrontInit]

theorem valAt_eraseClose_of_lastVal_ne [DecidableEq V] {bg : V} {frm : Int} {m : KeyMap V}
    (h : lastVal bg m ≠ bg) (hk : ∀ p ∈ m, p.1 < frm) (x : Int) :
    valAt bg (eraseClose bg frm m) x = if x < frm then valAt bg m x else bg := by
  unfold eraseClose
  rw [emplaceBackInit_of_lastVal_ne frm (by rw [lastVal_eraseFrontInit]; exact h)]
  have := emplace_split (L := eraseFrontInit bg m) (R := []) (k := frm) bg
    (fun p hp => hk p (mem_eraseFrontInit hp)) (by simp)
  rw [List.append_nil] at this
  rw [this, valAt_append, valAt_eraseFrontInit, valAt_cons, valAt_nil]
  by_cases hx : x < frm
  · rw [if_pos hx, if_neg (by simpa using hx)]
  · rw [if_neg hx, if_pos (by simpa using hx)]

theorem eraseIns_cases [DecidableEq V] (frm til : Int) (pv : V) (B C : KeyMap V) :
    eraseIns frm til pv B C = [] ∨
    (eraseIns frm til pv B C = [(frm, pv)]
      ∧ B ≠ [] ∧ ∃ c C', C = c :: C' ∧ til ≠ c.1 ∧ pv ≠ c.2) := by
  cases B with
  | nil => left; cases C <;> rfl
  | cons b B =>
    cases C with
    | nil => left; rfl
    | cons c C =>
      by_cases hc : til ≠ c.1 ∧ pv ≠ c.2
      · right
        exact ⟨by simp [eraseIns, hc], by simp, c, C, rfl, hc.1, hc.2⟩
      · left; simp only [eraseIns, if_neg hc]

theorem ordered_append_of {L R : KeyMap V} (hL : Ordered L) (hR : Ordered R)
    (h : ∀ p ∈ L, ∀ q ∈ R, p.1 < q.1) : Ordered (L ++ R) :=
  List.pairwise_append.mpr ⟨hL, hR, h⟩

/-- The facts on the map of `erase` after `eraseRestore`, for a map split as
`A ++ (B ++ C)` around the erased range `[frm, til)`. -/
theorem erase_restored_ordered [DecidableEq V] {A B C : KeyMap V} (hord : Ordered (A ++ (B ++ C)))
    (frm til : Int) (pv : V) (hlt : frm < til)
    (hA : ∀ p ∈ A, p.1 < frm) (hC : ∀ p ∈ C, til ≤ p.1) :
    (∀ p ∈ A ++ eraseIns frm til pv B C, p.1 ≤ frm)
    ∧ Ordered ((A ++ eraseIns frm til pv B C) ++ C)
    ∧ Ordered ((A ++ eraseIns frm til pv B C) ++ C.map (fun p => (p.1 - (til - frm), p.2))) := by
  have hAo := hord.left
  have hCo := hord.right.right
  have hCs := ordered_map_sub hCo (til - frm)
  rcases eraseIns_cases frm til pv B C with e | ⟨e, -, c, C', hCc, hc1, -⟩
  · rw [e, List.append_nil]
    refine ⟨fun p hp => le_of_lt (hA p hp), ?_, ?_⟩
    · exact ordered_append_of hAo hCo (fun p hp q hq => by
        have := hA p hp; have := hC q hq; omega)
    · refine ordered_append_of hAo hCs (fun p hp q hq => ?_)
      obtain ⟨q', hq', rfl⟩ := List.mem_map.mp hq
      have := hA p hp; have := hC q' hq'
      show p.1 < q'.1 - (til - frm); omega
  · have hgt : ∀ q ∈ C, til < q.1 := by
      intro q hq
      rw [hCc] at hq hCo hC
      have h0 := hC c (List.mem_cons_self _ _)
      rcases List.mem_cons.mp hq with rfl | hq
      · omega
      · have := hCo.head_lt q hq; omega
    have hAi : Ordered (A ++ [(frm, pv)]) :=
      ordered_append_of hAo (by simp [Ordered]) (fun p hp q hq => by
        simp at hq; rw [hq]; exact hA p hp)
    have hle : ∀ p ∈ A ++ [(frm, pv)], p.1 ≤ frm := by
      intro p hp
      rcases List.mem_append.mp hp with hp | hp
      · exact le_of_lt (hA p hp)
      · simp at hp; rw [hp]
    rw [e]
    refine ⟨hle, ?_, ?_⟩
    · exact ordered_append_of hAi hCo (fun p hp q hq => by
        have := hle p hp; have := hgt q hq; omega)
    · refine ordered_append_of hAi hCs (fun p hp q hq => ?_)
      obtain ⟨q', hq', rfl⟩ := List.mem_map.mp hq
      have := hle p hp; have := hgt q' hq'
      show p.1 < q'.1 - (til - frm); omega

theorem erase_false_closed [DecidableEq V] (s : compressedVector V) (fromArg toArg frm til : Int)
    (A B C : KeyMap V) (hs : s.m_map = A ++ (B ++ C)) (hord : Ordered (A ++ (B ++ C)))
    (hr : getValidRange s fromArg toArg = (frm, til)) (hlt : frm < til)
    (hA : ∀ p ∈ A, p.1 < frm) (hB : ∀ p ∈ B, frm ≤ p.1 ∧ p.1 < til) (hC : ∀ p ∈ C, til ≤ p.1) :
    erase s fromArg toArg false = some
      { s with
        maxIndex := s.maxIndex - (til - frm)
        m_map := eraseClose s.m_valBegin frm
          ((A ++ eraseIns frm til (lastVal s.m_valBegin (A ++ B)) B C)
            ++ eraseTail (til - frm)
                (lastVal s.m_valBegin (A ++ eraseIns frm til (lastVal s.m_valBegin (A ++ B)) B C)) C) } := by
  have hne : frm ≠ til := by omega
  have hBC : ∀ p ∈ B ++ C, frm ≤ p.1 := by
    intro p hp
    rcases List.mem_append.mp hp with hp | hp
    · exact (hB p hp).1
    · have := hC p hp; omega
  have hAB : ∀ p ∈ A ++ B, p.1 < til := by
    intro p hp
    rcases List.mem_append.mp hp with hp | hp
    · have := hA p hp; omega
    · exact (hB p hp).2
  have S1 : lowerBound (A ++ (B ++ C)) frm = mapBegin (B ++ C) := lowerBound_split hA hBC
  have hord' : Ordered ((A ++ B) ++ C) := by simpa using hord
  have S2 : lowerBound (A ++ (B ++ C)) til = mapBegin C := by
    have := lowerBound_split hAB hC
    simpa using this
  have S3 : (if mapBegin C ≠ mapBegin (A ++ (B ++ C))
      then (prevEntry (A ++ (B ++ C)) (mapBegin C)).map (fun p => p.2)
      else pure s.m_valBegin) = some (lastVal s.m_valBegin (A ++ B)) := by
    rw [← List.append_assoc]; exact prevValue_split s.m_valBegin hord'
  have S4 := eraseRange_split hord
  have S5 := eraseRestore_closed hord frm til (lastVal s.m_valBegin (A ++ B)) hlt hA hC
  obtain ⟨-, ho1, ho2⟩ := erase_restored_ordered (B := B) hord frm til
    (lastVal s.m_valBegin (A ++ B)) hlt hA hC
  have S6 := eraseShrinkLeft_closed s (til - frm) ho1 ho2
  unfold erase
  simp only [hr, hs, if_neg hne, S1, S2, S3, S4, S5, Option.bind_eq_bind, Option.some_bind]
  rw [← List.append_assoc, S6]
  rfl

theorem lastVal_append (bg : V) (L R : KeyMap V) :
    lastVal bg (L ++ R) = lastVal (lastVal bg L) R := by
  cases R with
  | nil => simp [lastVal_nil]
  | cons r R =>
    rw [lastVal_append_cons]
    have := lastVal_append_cons (lastVal bg L) [] R r
    simpa using this.symm

theorem lastVal_cons (bg : V) (r : Int × V) (R : KeyMap V) :
    lastVal bg (r :: R) = lastVal r.2 R := by
  have := lastVal_append_cons bg [] R r
  simpa using this

theorem valAt_eraseTail [DecidableEq V] (d : Int) (lv : V) (C : KeyMap V) (x : Int) :
    valAt lv (eraseTail d lv C) x = valAt lv C (x + d) := by
  cases C with
  | nil => rfl
  | cons c C =>
    unfold eraseTail
    simp only [List.map_cons]
    by_cases hc : c.2 ≠ lv
    · rw [if_pos hc]
      exact valAt_map_sub lv (c :: C) d x
    · rw [if_neg hc, valAt_map_sub, valAt_cons]
      have : c.2 = lv := by simpa using hc
      rw [this]; simp

theorem lastVal_eraseTail [DecidableEq V] (d : Int) (lv : V) (C : KeyMap V) :
    lastVal lv (eraseTail d lv C) = lastVal lv C := by
  cases C with
  | nil => rfl
  | cons c C =>
    unfold eraseTail
    simp only [List.map_cons]
    by_cases hc : c.2 ≠ lv
    · rw [if_pos hc]
      exact lastVal_map_sub lv (c :: C) d
    · rw [if_neg hc, lastVal_map_sub, lastVal_cons]
      have : c.2 = lv := by simpa using hc
      rw [this]

theorem mem_eraseTail [DecidableEq V] {d : Int} {lv : V} {C : KeyMap V} {q : Int × V}
    (hq : q ∈ eraseTail d lv C) : q ∈ C.map (fun p => (p.1 - d, p.2)) := by
  cases C with
  | nil => exact hq
  | cons c C =>
    unfold eraseTail at hq
    simp only [List.map_cons] at hq ⊢
    by_cases hc : c.2 ≠ lv
    · rw [if_pos hc] at hq; exact hq
    · rw [if_neg hc] at hq; exact List.mem_cons_of_mem _ hq

theorem ordered_eraseTail [DecidableEq V] {L C : KeyMap V} (d : Int) (lv : V)
    (h : Ordered (L ++ C.map (fun p => (p.1 - d, p.2)))) : Ordered (L ++ eraseTail d lv C) := by
  cases C with
  | nil => exact h
  | cons c C =>
    unfold eraseTail
    simp only [List.map_cons] at h ⊢
    by_cases hc : c.2 ≠ lv
    · rw [if_pos hc]; exact h
    · rw [if_neg hc]
      exact ordered_append_of h.left h.right.tail (fun p hp q hq =>
        h.lt_of_append p hp q (List.mem_cons_of_mem _ hq))

/-- The step function described by the map left by `erase` (without
`shrinkRight`) is the one of the original map with the range `[frm, til)` cut
out. -/
theorem erase_false_valAt [DecidableEq V] (bg : V) (frm til : Int) (A B C : KeyMap V)
    (hord : Ordered (A ++ (B ++ C))) (hlt : frm < til)
    (hA : ∀ p ∈ A, p.1 < frm) (hB : ∀ p ∈ B, frm ≤ p.1 ∧ p.1 < til) (hC : ∀ p ∈ C, til ≤ p.1)
    (h3 : noAdjacentEqual (A ++ (B ++ C)) = true) (h5 : lastVal bg (A ++ (B ++ C)) = bg) (x : Int) :
    valAt bg (eraseClose bg frm
        ((A ++ eraseIns frm til (lastVal bg (A ++ B)) B C)
          ++ eraseTail (til - frm) (lastVal bg (A ++ eraseIns frm til (lastVal bg (A ++ B)) B C)) C)) x
      = if x < frm then valAt bg (A ++ (B ++ C)) x else valAt bg (A ++ (B ++ C)) (x + (til - frm)) := by
  have hBC : ∀ p ∈ B ++ C, frm ≤ p.1 := by
    intro p hp
    rcases List.mem_append.mp hp with hp | hp
    · exact (hB p hp).1
    · have := hC p hp; omega
  have hAB : ∀ p ∈ A ++ B, p.1 < til := by
    intro p hp
    rcases List.mem_append.mp hp with hp | hp
    · have := hA p hp; omega
    · exact (hB p hp).2
  have F1 : x < frm → valAt bg (A ++ (B ++ C)) x = valAt bg A x := by
    intro hx
    rw [valAt_append, valAt_of_forall_gt _ (fun p hp => by have := hBC p hp; omega)]
  have F2 : frm ≤ x → valAt bg (A ++ (B ++ C)) (x + (til - frm))
      = valAt (lastVal bg (A ++ B)) C (x + (til - frm)) := by
    intro hx
    rw [← List.append_assoc, valAt_append,
      valAt_of_forall_le (m := A ++ B) _ (fun p hp => by have := hAB p hp; omega)]
  obtain ⟨hle, -, ho2⟩ := erase_restored_ordered (B := B) hord frm til (lastVal bg (A ++ B)) hlt hA hC
  generalize hpv : lastVal bg (A ++ B) = pv at *
  generalize hins : eraseIns frm til pv B C = ins at *
  generalize hlv : lastVal bg (A ++ ins) = lv at *
  have hXk : ∀ p ∈ eraseTail (til - frm) lv C, frm ≤ p.1 := by
    intro p hp
    obtain ⟨q, hq, rfl⟩ := List.mem_map.mp (mem_eraseTail hp)
    have := hC q hq
    show frm ≤ q.1 - (til - frm); omega
  cases C with
  | nil =>
    have hi : ins = [] := by rw [← hins]; cases B <;> rfl
    subst hi
    have hX : eraseTail (til - frm) lv ([] : KeyMap V) = [] := rfl
    rw [hX]
    simp only [List.append_nil] at h5 hlv F1 F2 ⊢
    rw [hpv] at h5
    by_cases hl : lastVal bg A = bg
    · rw [valAt_eraseClose_of_lastVal_eq frm hl]
      by_cases hx : x < frm
      · rw [if_pos hx, F1 hx]
      · rw [if_neg hx, F2 (by omega), valAt_nil, h5,
          valAt_of_forall_le _ (fun p hp => by have := hA p hp; omega), hl]
    · rw [valAt_eraseClose_of_lastVal_ne hl hA]
      by_cases hx : x < frm
      · rw [if_pos hx, if_pos hx, F1 hx]
      · rw [if_neg hx, if_neg hx, F2 (by omega), valAt_nil, h5]
  | cons c C' =>
    have h5' : lastVal c.2 C' = bg := by
      rw [← List.append_assoc, lastVal_append_cons] at h5; exact h5
    have hlast : lastVal bg ((A ++ ins) ++ eraseTail (til - frm) lv (c :: C')) = bg := by
      rw [lastVal_append, hlv, lastVal_eraseTail, lastVal_cons, h5']
    rw [valAt_eraseClose_of_lastVal_eq frm hlast, valAt_append]
    by_cases hx : x < frm
    · rw [if_pos hx, F1 hx, valAt_of_forall_gt _ (fun p hp => by have := hXk p hp; omega),
        valAt_append]
      apply valAt_of_forall_gt
      intro p hp
      rcases eraseIns_cases frm til pv B (c :: C') with e | ⟨e, -⟩
      · rw [hins] at e; rw [e] at hp; cases hp
      · rw [hins] at e; rw [e] at hp; simp at hp; rw [hp]; exact hx
    · rw [if_neg hx, F2 (by omega),
        valAt_of_forall_le (m := A ++ ins) _ (fun p hp => by have := hle p hp; omega),
        hlv, valAt_eraseTail]
      -- it remains to compare the value `lv` before the shifted nodes with `pv`
      rcases eraseIns_cases frm til pv B (c :: C') with e | ⟨e, -⟩
      · rw [hins] at e
        subst e
        rw [List.append_nil] at hlv
        rcases List.eq_nil_or_concat B with hBnil | ⟨B', b, hBb⟩
        · subst hBnil
          rw [List.append_nil] at hpv
          rw [← hlv, ← hpv]
        · rw [List.concat_eq_append] at hBb
          subst hBb
          have hpvb : pv = b.2 := by
            rw [← hpv, ← List.append_assoc, lastVal_append_cons]; rfl
          have hj : b.2 ≠ c.2 := by
            have e' : A ++ ((B' ++ [b]) ++ c :: C') = (A ++ B') ++ b :: c :: C' := by simp
            rw [e'] at h3
            exact noAdjacentEqual_junction h3
          have hcond : ¬ (til ≠ c.1 ∧ pv ≠ c.2) := by
            intro hc
            have : eraseIns frm til pv (B' ++ [b]) (c :: C') = [(frm, pv)] := by
              cases B' <;> simp [eraseIns, hc]
            rw [hins] at this; cases this
          have htc : til = c.1 := by
            by_contra hne
            exact hcond ⟨hne, by rw [hpvb]; exact hj⟩
          rw [valAt_cons, valAt_cons, if_pos (by omega), if_pos (by omega)]
      · rw [hins] at e
        subst e
        have : lv = pv := by
          rw [← hlv, lastVal_append]; rfl
        rw [this]

theorem Ordered.split3 {m : KeyMap V} (h : Ordered m) (frm til : Int) :
    ∃ A B C, m = A ++ (B ++ C) ∧ (∀ p ∈ A, p.1 < frm)
      ∧ (∀ p ∈ B, frm ≤ p.1 ∧ p.1 < til) ∧ (∀ p ∈ C, til ≤ p.1) := by
  obtain ⟨A, R, e, hA, hR⟩ := h.split_lt frm
  rw [e] at h
  obtain ⟨B, C, e', hB, hC⟩ := h.right.split_lt til
  refine ⟨A, B, C, by rw [e, e'], hA, ?_, hC⟩
  intro p hp
  exact ⟨hR p (by rw [e']; exact List.mem_append_left _ hp), hB p hp⟩

theorem Canonical.lastVal_eq [DecidableEq V] {s : compressedVector V} (h : Canonical s) :
    lastVal s.m_valBegin s.m_map = s.m_valBegin := by
  obtain ⟨-, -, -, -, -, h5⟩ := h
  by_cases hm : s.m_map = []
  · rw [hm]; rfl
  · have := (h5 hm).2
    unfold lastVal
    cases hl : s.m_map.getLast? with
    | none => rfl
    | some p => rw [hl] at this; simpa using this

theorem zip_tail_fill (b : Int × V) (rest : List (Int × V)) (til : Int) (p : Int × V)
    (hp : (b :: rest).getLast? = some p) :
    (((b :: rest).zip rest).map (fun q => List.replicate (q.2.1 - q.1.1).toNat q.1.2)).flatten
      ++ List.replicate (til - p.1).toNat p.2 = fill b.1 b.2 rest til := by
  induction rest generalizing b with
  | nil =>
    simp at hp; subst hp
    simp [fill]
  | cons c rest ih =>
    rw [List.getLast?_cons_cons] at hp
    have := ih c hp
    simp only [List.zip_cons_cons, List.map_cons, List.flatten_cons, List.append_assoc, fill]
    rw [this]

/-- The closed form of `uncompressToVector` on a map split as `A ++ (B ++ C)`
around the clamped range `[frm, til)`. -/
theorem uncompressToVector_closed [DecidableEq V] (maxSize : Nat) (s : compressedVector V)
    (fromArg toArg frm til : Int) (A B C : KeyMap V)
    (hs : s.m_map = A ++ (B ++ C)) (hord : Ordered (A ++ (B ++ C)))
    (h5 : lastVal s.m_valBegin (A ++ (B ++ C)) = s.m_valBegin)
    (hr : getValidRange s fromArg toArg = (frm, til)) (hlt : frm < til)
    (hsize : (til - frm).toNat ≤ maxSize)
    (hA : ∀ p ∈ A, p.1 < frm) (hB : ∀ p ∈ B, frm ≤ p.1 ∧ p.1 < til) (hC : ∀ p ∈ C, til ≤ p.1) :
    uncompressToVector maxSize s fromArg toArg = some (fill frm (lastVal s.m_valBegin A) B til) := by
  have hne : frm ≠ til := by omega
  have hBC : ∀ p ∈ B ++ C, frm ≤ p.1 := by
    intro p hp
    rcases List.mem_append.mp hp with hp | hp
    · exact (hB p hp).1
    · have := hC p hp; omega
  have hAB : ∀ p ∈ A ++ B, p.1 < til := by
    intro p hp
    rcases List.mem_append.mp hp with hp | hp
    · have := hA p hp; omega
    · exact (hB p hp).2
  have S1 : lowerBound (A ++ (B ++ C)) frm = mapBegin (B ++ C) := lowerBound_split hA hBC
  have hord' : Ordered ((A ++ B) ++ C) := by simpa using hord
  have S2 : lowerBound (A ++ (B ++ C)) til = mapBegin C := by
    have := lowerBound_split hAB hC
    simpa using this
  unfold uncompressToVector
  simp only [hr, hs, if_neg hne, if_neg (not_lt.mpr hsize), S1, S2]
  by_cases hm : A ++ (B ++ C) = []
  · have hA0 : A = [] := (List.append_eq_nil.mp hm).1
    have hB0 : B = [] := (List.append_eq_nil.mp (List.append_eq_nil.mp hm).2).1
    have hC0 : C = [] := (List.append_eq_nil.mp (List.append_eq_nil.mp hm).2).2
    subst hA0 hB0 hC0
    simp [fill, lastVal]
  · have hie : (A ++ (B ++ C)).isEmpty = false := by
      cases hm' : A ++ (B ++ C) with
      | nil => exact absurd hm' hm
      | cons _ _ => rfl
    rw [hie]
    simp only [Bool.false_eq_true, if_false]
    by_cases hAB0 : A ++ B = []
    · -- every key lies at or after `til`
      have hA0 : A = [] := (List.append_eq_nil.mp hAB0).1
      have hB0 : B = [] := (List.append_eq_nil.mp hAB0).2
      subst hA0 hB0
      simp [fill, lastVal]
    · have hbeg : mapBegin C ≠ mapBegin (A ++ (B ++ C)) := by
        intro c
        rw [← List.append_assoc] at c
        exact hAB0 ((mapBegin_eq_iff hord').mp c)
      by_cases hBC0 : B ++ C = []
      · -- every key lies before `frm`
        have hB0 : B = [] := (List.append_eq_nil.mp hBC0).1
        have hC0 : C = [] := (List.append_eq_nil.mp hBC0).2
        subst hB0 hC0
        simp only [List.append_nil] at h5 ⊢
        rw [if_pos (Or.inr (by rfl))]
        simp [fill, h5]
      · have hbn : mapBegin (B ++ C) ≠ none := by
          cases hbc : B ++ C with
          | nil => exact absurd hbc hBC0
          | cons _ _ => simp [mapBegin]
        rw [if_neg (by
          intro c
          rcases c with c | c
          · exact hbeg c
          · exact hbn c)]
        by_cases hB0 : B = []
        · subst hB0
          simp only [List.nil_append, List.append_nil] at *
          rw [if_pos (by trivial), prevEntry_split hord]
          cases hl : A.getLast? with
          | none => simp at hl; exact absurd hl hAB0
          | some q => simp [fill, lastVal, hl]
        · obtain ⟨b, rest, rfl⟩ := List.exists_cons_of_ne_nil hB0
          have hbe : mapBegin (b :: rest ++ C) ≠ mapBegin C := by
            intro c
            have := (mapBegin_append_eq_iff hord.right).mp c
            cases this
          rw [if_neg hbe, deref_split hord]
          have hv0 : (if mapBegin (b :: rest ++ C) ≠ mapBegin (A ++ (b :: rest ++ C))
              then (prevEntry (A ++ (b :: rest ++ C)) (mapBegin (b :: rest ++ C))).map (fun p => p.2)
              else pure s.m_valBegin) = some (lastVal s.m_valBegin A) :=
            prevValue_split s.m_valBegin hord
          obtain ⟨p, hp⟩ : ∃ p, (b :: rest).getLast? = some p := by
            cases hl : (b :: rest).getLast? with
            | none => simp at hl
            | some p => exact ⟨p, rfl⟩
          have hprev : prevEntry (A ++ (b :: rest ++ C)) (mapBegin C) = some p := by
            rw [← List.append_assoc, prevEntry_split hord', List.getLast?_append, hp]; rfl
          simp only [List.cons_append, List.head?_cons, Option.bind_eq_bind, Option.some_bind]
          simp only [List.cons_append] at hv0 hprev
          rw [hv0, Option.some_bind, hprev, Option.some_bind]
          have hrange : rangeOf (A ++ b :: (rest ++ C)) (mapBegin (b :: (rest ++ C))) (mapBegin C)
              = b :: rest := by
            have := rangeOf_split hord
            simpa using this
          rw [hrange]
          simp only [List.tail_cons, Option.pure_def, fill, List.append_assoc]
          rw [zip_tail_fill b rest til p hp]

theorem foldl_totalLength (rs : List (V × Nat)) (start : Int) :
    rs.foldl (fun left right => left + (right.2 : Int)) start = start + (totalLength rs : Int) := by
  induction rs generalizing start with
  | nil => simp [totalLength]
  | cons r rs ih =>
    rw [List.foldl_cons, ih, totalLength]
    push_cast; ring

theorem detectRuns_acc [DecidableEq V] (rest : List V) (value : V) (count : Nat)
    (acc : List (V × Nat)) :
    detectRuns rest value count acc = acc ++ detectRuns rest value count [] := by
  induction rest generalizing value count acc with
  | nil => simp [detectRuns]
  | cons x rest ih =>
    unfold detectRuns
    by_cases hx : x = value
    · rw [if_pos hx, if_pos hx]; exact ih _ _ _
    · rw [if_neg hx, if_neg hx, ih x 1 (acc ++ [(value, count)]), ih x 1 ([] ++ [(value, count)])]
      simp

/-- The run list found by the detection loop of `compress`: it starts with a
run of `value`, its runs have non-zero length and alternate in value, and it
expands to the sequence read. -/
theorem detectRuns_spec [DecidableEq V] (rest : List V) (value : V) (count : Nat) (hc : count ≠ 0) :
    ∃ n more, detectRuns rest value count [] = (value, n) :: more ∧ n ≠ 0 ∧ GoodRuns value more
      ∧ expandRuns ((value, n) :: more) = List.replicate count value ++ rest := by
  induction rest generalizing value count with
  | nil => exact ⟨count, [], by simp [detectRuns], hc, trivial, by simp [expandRuns]⟩
  | cons x rest ih =>
    unfold detectRuns
    by_cases hx : x = value
    · rw [if_pos hx]
      obtain ⟨n, more, e, hn, hg, hex⟩ := ih value (count + 1) (by omega)
      refine ⟨n, more, e, hn, hg, ?_⟩
      rw [hex, hx, List.replicate_succ', List.append_assoc]; rfl
    · rw [if_neg hx, detectRuns_acc]
      obtain ⟨n, more, e, hn, hg, hex⟩ := ih x 1 (by omega)
      refine ⟨count, (x, n) :: more, by rw [e]; rfl, hc, ⟨hx, hn, hg⟩, ?_⟩
      rw [expandRuns, hex]; rfl

theorem collectRuns_good [DecidableEq V] (rangeSize : Nat) (rest : List (V × Nat))
    (init : List (V × Nat)) (back : V × Nat) (size : Nat)
    (hg : GoodRuns back.1 rest) (hsz : size + totalLength rest = rangeSize) :
    ∃ init' back', collectRuns rangeSize rest init back size = (init', back', rangeSize)
      ∧ init' ++ [back'] = init ++ back :: rest := by
  induction rest generalizing init back size with
  | nil =>
    refine ⟨init, back, ?_, rfl⟩
    simp only [totalLength, Nat.add_zero] at hsz
    simp [collectRuns, hsz]
  | cons item rest ih =>
    obtain ⟨h1, h2, h3⟩ := hg
    unfold collectRuns
    simp only [totalLength] at hsz
    rw [if_pos (by omega), if_pos h1, if_pos h2]
    obtain ⟨init', back', e, hh⟩ := ih (init ++ [back]) item (size + item.2) h3 (by omega)
    exact ⟨init', back', e, by rw [hh]; simp⟩

theorem mem_breakpointsOf {pos : Int} {rs : List (V × Nat)} {p : Int × V}
    (hp : p ∈ breakpointsOf pos rs) : pos ≤ p.1 ∧ p.1 ≤ pos + (totalLength rs : Int) := by
  induction rs generalizing pos with
  | nil => cases hp
  | cons r rs ih =>
    unfold breakpointsOf at hp
    simp only [totalLength]
    rcases List.mem_cons.mp hp with rfl | hp
    · constructor
      · exact le_refl _
      · show pos ≤ pos + ((r.2 + totalLength rs : Nat) : Int); omega
    · have := ih hp
      push_cast; omega

theorem mem_breakpointsOf_lt {pos : Int} {rs : List (V × Nat)} (hl : ∀ r ∈ rs, r.2 ≠ 0)
    {p : Int × V} (hp : p ∈ breakpointsOf pos rs) : p.1 < pos + (totalLength rs : Int) := by
  induction rs generalizing pos with
  | nil => cases hp
  | cons r rs ih =>
    unfold breakpointsOf at hp
    simp only [totalLength]
    have hr := hl r (List.mem_cons_self _ _)
    rcases List.mem_cons.mp hp with rfl | hp
    · show pos < pos + ((r.2 + totalLength rs : Nat) : Int); omega
    · have := ih (fun q hq => hl q (List.mem_cons_of_mem _ hq)) hp
      push_cast; omega

theorem breakpointsOf_ordered (pos : Int) {rs : List (V × Nat)} (hl : ∀ r ∈ rs, r.2 ≠ 0) :
    Ordered (breakpointsOf pos rs) := by
  induction rs generalizing pos with
  | nil => simp [breakpointsOf, Ordered]
  | cons r rs ih =>
    unfold breakpointsOf
    refine List.pairwise_cons.mpr ⟨?_, ih _ (fun q hq => hl q (List.mem_cons_of_mem _ hq))⟩
    intro q hq
    have := (mem_breakpointsOf hq).1
    have hr := hl r (List.mem_cons_self _ _)
    show pos < q.1; omega

theorem emplaceRuns_append (rs : List (V × Nat)) (m : KeyMap V) (pos : Int)
    (hl : ∀ r ∈ rs, r.2 ≠ 0) (hm : ∀ p ∈ m, p.1 < pos) :
    emplaceRuns rs m pos = (m ++ breakpointsOf pos rs, pos + (totalLength rs : Int)) := by
  induction rs generalizing m pos with
  | nil => simp [emplaceRuns, breakpointsOf, totalLength]
  | cons r rs ih =>
    unfold emplaceRuns
    have he : emplace m pos r.1 = m ++ [(pos, r.1)] := by
      have := emplace_split (L := m) (R := []) (k := pos) r.1 hm (by simp)
      simpa using this
    have hr := hl r (List.mem_cons_self _ _)
    rw [he, ih _ _ (fun q hq => hl q (List.mem_cons_of_mem _ hq)) (by
      intro p hp
      rcases List.mem_append.mp hp with hp | hp
      · have := hm p hp; omega
      · simp at hp; rw [hp]; show pos < pos + (r.2 : Int); omega)]
    simp only [breakpointsOf, totalLength, List.append_assoc, List.singleton_append]
    congr 1; push_cast; ring

theorem GoodRuns.lengths {prev : V} {rs : List (V × Nat)} (h : GoodRuns prev rs) :
    ∀ r ∈ rs, r.2 ≠ 0 := by
  induction rs generalizing prev with
  | nil => intro r hr; cases hr
  | cons q rs ih =>
    intro r hr
    rcases List.mem_cons.mp hr with rfl | hr
    · exact h.2.1
    · exact ih h.2.2 r hr

theorem fromRuns_closed [DecidableEq V] (start : Int) (bg v1 : V) (n1 : Nat)
    (more : List (V × Nat)) (hn : n1 ≠ 0) (hg : GoodRuns v1 more) :
    fromRuns start bg ((v1, n1) :: more) = some
      { minIndex := start
        maxIndex := start + (totalLength ((v1, n1) :: more) : Int)
        m_valBegin := bg
        m_map := closeMap bg (breakpointsOf start ((v1, n1) :: more))
          (start + (totalLength ((v1, n1) :: more) : Int)) } := by
  have htot : totalLength ((v1, n1) :: more) ≠ 0 := by simp [totalLength]; omega
  unfold fromRuns
  simp only [foldl_totalLength]
  generalize htil : start + (totalLength ((v1, n1) :: more) : Int) = til
  have hlt : start < til := by omega
  have hr : getValidRange (⟨start, til, bg, []⟩ : compressedVector V) start til = (start, til) :=
    getValidRange_full _ hlt
  have hrs : (til - start).toNat = totalLength ((v1, n1) :: more) := by omega
  obtain ⟨init', back', hc, hh⟩ := collectRuns_good (totalLength ((v1, n1) :: more)) more []
    (v1, n1) n1 hg (by simp [totalLength])
  have hback : back'.2 ≠ 0 := by
    have hmem : back' ∈ init' ++ [back'] := by simp
    rw [hh] at hmem
    rcases List.mem_cons.mp (by simpa using hmem) with e | hmem
    · rw [e]; exact hn
    · exact hg.lengths back' hmem
  unfold assignValues
  simp only [hr, hrs]
  rw [if_neg (by simp; omega)]
  simp only [sub_self, lt_self_iff_false, if_false, List.drop_zero, Nat.sub_zero, hc,
    gt_iff_lt, if_neg hback]
  simp only [List.nil_append] at hh
  rw [hh]
  cases more with
  | nil =>
    simp only
    -- a single run: `assignValue` on the empty map
    have htil' : til = start + (n1 : Int) := by
      rw [← htil]; simp [totalLength]
    unfold assignValue
    simp only [← htil', hr]
    rw [if_neg (by omega)]
    simp only [List.isEmpty_nil, if_true]
    by_cases hv : v1 = bg
    · subst hv
      simp [closeMap, emplaceBackInit, eraseFrontInit, breakpointsOf]
    · rw [if_pos hv]
      have h1 : ¬ til < start := by omega
      have h2 : ¬ til = start := by omega
      simp [closeMap, emplaceBackInit, eraseFrontInit, breakpointsOf, hv, emplace, h1, h2]
  | cons r2 more' =>
    simp only [List.isEmpty_nil, if_true]
    rw [emplaceRuns_append _ _ _ (by
        intro r hr'
        rcases List.mem_cons.mp hr' with e | hr'
        · rw [e]; exact hn
        · exact hg.lengths r hr') (by simp)]
    simp only [List.nil_append, htil]

theorem emplace_end {m : KeyMap V} {k : Int} (v : V) (hm : ∀ p ∈ m, p.1 < k) :
    emplace m k v = m ++ [(k, v)] := by
  have := emplace_split (L := m) (R := []) (k := k) v hm (by simp)
  simpa using this

theorem fill_breakpoints (rs : List (V × Nat)) (pos : Int) (v : V) (l : Nat) (til : Int)
    (htil : til = pos + (l : Int) + (totalLength rs : Int)) :
    fill pos v (breakpointsOf (pos + (l : Int)) rs) til = List.replicate l v ++ expandRuns rs := by
  induction rs generalizing pos v l with
  | nil =>
    simp only [totalLength] at htil
    have : (til - pos).toNat = l := by omega
    simp [breakpointsOf, fill, expandRuns, this]
  | cons r rs ih =>
    simp only [totalLength] at htil
    have h1 : (pos + (l : Int) - pos).toNat = l := by omega
    simp only [breakpointsOf, fill, expandRuns, h1]
    rw [ih (pos + (l : Int)) r.1 r.2 (by rw [htil]; push_cast; ring)]

theorem length_expandRuns (rs : List (V × Nat)) : (expandRuns rs).length = totalLength rs := by
  induction rs with
  | nil => rfl
  | cons r rs ih => simp [expandRuns, totalLength, ih]

/-- The round trip on a non-empty run list as found by the detection loop. -/
theorem uncompress_fromRuns [DecidableEq V] (maxSize : Nat) (start : Int) (bg v1 : V) (n1 : Nat)
    (more : List (V × Nat)) (hn : n1 ≠ 0) (hg : GoodRuns v1 more)
    (hsize : totalLength ((v1, n1) :: more) ≤ maxSize) :
    ∃ c, fromRuns start bg ((v1, n1) :: more) = some c
      ∧ uncompressToVector maxSize c c.minIndex c.maxIndex
          = some (expandRuns ((v1, n1) :: more)) := by
  refine ⟨_, fromRuns_closed start bg v1 n1 more hn hg, ?_⟩
  have hlen : ∀ r ∈ (v1, n1) :: more, r.2 ≠ 0 := by
    intro r hr
    rcases List.mem_cons.mp hr with e | hr
    · rw [e]; exact hn
    · exact hg.lengths r hr
  have htot : totalLength ((v1, n1) :: more) ≠ 0 := by simp [totalLength]; omega
  generalize htil : start + (totalLength ((v1, n1) :: more) : Int) = til
  have hlt : start < til := by omega
  -- the breakpoints, and the closing entry added after them
  have hnodes : breakpointsOf start ((v1, n1) :: more)
      = (start, v1) :: breakpointsOf (start + (n1 : Int)) more := rfl
  have hkeys : ∀ p ∈ breakpointsOf start ((v1, n1) :: more), start ≤ p.1 ∧ p.1 < til := by
    intro p hp
    exact ⟨(mem_breakpointsOf hp).1, by rw [← htil]; exact mem_breakpointsOf_lt hlen hp⟩
  have hno : Ordered (breakpointsOf start ((v1, n1) :: more)) := breakpointsOf_ordered start hlen
  obtain ⟨T, hT, hTk, hTl, hTo⟩ : ∃ T : KeyMap V,
      emplaceBackInit bg (breakpointsOf start ((v1, n1) :: more)) til
        = breakpointsOf start ((v1, n1) :: more) ++ T
      ∧ (∀ p ∈ T, til ≤ p.1)
      ∧ lastVal bg (breakpointsOf start ((v1, n1) :: more) ++ T) = bg
      ∧ Ordered T := by
    by_cases hl : lastVal bg (breakpointsOf start ((v1, n1) :: more)) = bg
    · exact ⟨[], by rw [emplaceBackInit_of_lastVal_eq til hl, List.append_nil], by simp,
        by rw [List.append_nil]; exact hl, by simp [Ordered]⟩
    · refine ⟨[(til, bg)], ?_, by simp, ?_, by simp [Ordered]⟩
      · rw [emplaceBackInit_of_lastVal_ne til hl]
        exact emplace_end bg (fun p hp => (hkeys p hp).2)
      · rw [lastVal_append_cons]; rfl
  have hall : Ordered (breakpointsOf start ((v1, n1) :: more) ++ T) :=
    ordered_append_of hno hTo (fun p hp q hq => by
      have := (hkeys p hp).2; have := hTk q hq; omega)
  have hr : getValidRange (⟨start, til, bg,
      closeMap bg (breakpointsOf start ((v1, n1) :: more)) til⟩ : compressedVector V) start til
      = (start, til) := getValidRange_full _ hlt
  have hsz : (til - start).toNat ≤ maxSize := by
    have : (til - start).toNat = totalLength ((v1, n1) :: more) := by omega
    rw [this]; exact hsize
  have hfill : fill start v1 (breakpointsOf (start + (n1 : Int)) more) til
      = expandRuns ((v1, n1) :: more) := by
    rw [fill_breakpoints more start v1 n1 til (by rw [← htil]; simp [totalLength]; ring)]
    rfl
  simp only
  unfold closeMap
  rw [hT]
  by_cases hv : v1 = bg
  · -- the first run carries the initial value: its breakpoint is erased
    have hM : eraseFrontInit bg (breakpointsOf start ((v1, n1) :: more) ++ T)
        = [] ++ (breakpointsOf (start + (n1 : Int)) more ++ T) := by
      rw [hnodes]; simp [eraseFrontInit, hv]
    rw [hnodes] at hall hTl hkeys
    have hord : Ordered ([] ++ (breakpointsOf (start + (n1 : Int)) more ++ T)) := by
      simpa using hall.tail
    have h5 : lastVal bg ([] ++ (breakpointsOf (start + (n1 : Int)) more ++ T)) = bg := by
      rw [List.cons_append, lastVal_cons, hv] at hTl
      simpa using hTl
    rw [uncompressToVector_closed maxSize _ start til start til [] _ T hM hord h5
      (getValidRange_full _ hlt) hlt hsz (by simp)
      (fun p hp => hkeys p (List.mem_cons_of_mem _ hp)) hTk]
    rw [lastVal_nil, ← hv, hfill]
  · have hM : eraseFrontInit bg (breakpointsOf start ((v1, n1) :: more) ++ T)
        = [] ++ (breakpointsOf start ((v1, n1) :: more) ++ T) := by
      rw [hnodes]; simp [eraseFrontInit, hv]
    rw [uncompressToVector_closed maxSize _ start til start til [] _ T hM (by simpa using hall)
      (by simpa using hTl) (getValidRange_full _ hlt) hlt hsz (by simp) hkeys
      hTk]
    rw [lastVal_nil, hnodes, fill]
    simp only [sub_self, Int.toNat_zero, List.replicate_zero, List.nil_append]
    rw [hfill]

theorem length_fill {ns : List (Int × V)} (h : Ordered ns) (a : Int) (v : V) (til : Int)
    (hk : ∀ p ∈ ns, a ≤ p.1 ∧ p.1 ≤ til) (hle : a ≤ til) :
    ((fill a v ns til).length : Int) = til - a := by
  induction ns generalizing a v with
  | nil => simp [fill]; omega
  | cons n ns ih =>
    have hn := hk n (List.mem_cons_self _ _)
    have ih' := ih h.tail n.1 n.2
      (fun p hp => ⟨le_of_lt (h.head_lt p hp), (hk p (List.mem_cons_of_mem _ hp)).2⟩) hn.2
    simp only [fill, List.length_append, List.length_replicate, Nat.cast_add]
    rw [ih']; omega

theorem getElem?_fill {ns : List (Int × V)} (h : Ordered ns) (a : Int) (v : V) (til : Int)
    (hk : ∀ p ∈ ns, a ≤ p.1 ∧ p.1 ≤ til) (i : Nat) (hi : (i : Int) < til - a) :
    (fill a v ns til)[i]? = some (valAt v ns (a + i)) := by
  induction ns generalizing a v i with
  | nil =>
    simp only [fill, valAt_nil, List.getElem?_replicate]
    rw [if_pos (by omega)]
  | cons n ns ih =>
    have hn := hk n (List.mem_cons_self _ _)
    simp only [fill]
    by_cases hc : i < (n.1 - a).toNat
    · rw [List.getElem?_append_left (by simpa using hc), List.getElem?_replicate, if_pos hc,
        valAt_cons, if_neg (by omega)]
      rw [valAt_of_forall_gt]
      intro p hp
      have := h.head_lt p hp
      omega
    · rw [List.getElem?_append_right (by simpa using hc), List.length_replicate,
        ih h.tail n.1 n.2
          (fun p hp => ⟨le_of_lt (h.head_lt p hp), (hk p (List.mem_cons_of_mem _ hp)).2⟩)
          (i - (n.1 - a).toNat) (by omega),
        valAt_cons, if_pos (by omega)]
      have e : n.1 + ((i - (n.1 - a).toNat : Nat) : Int) = a + i := by omega
      rw [e]

theorem revEnd_eq {rs : List (Int × V)} {b : Int × V} (hb : rs.getLast? = some b)
    (cur prev : Int) : revEnd rs cur prev = cur + prev - b.1 := by
  induction rs generalizing cur prev with
  | nil => simp at hb
  | cons n rest ih =>
    cases rest with
    | nil =>
      simp at hb; subst hb
      simp [revEnd]
    | cons m rest =>
      rw [List.getLast?_cons_cons] at hb
      show revEnd (m :: rest) (cur + prev - n.1) n.1 = _
      rw [ih hb]; omega

theorem revEnd_ge {rs : List (Int × V)} (hdesc : rs.Pairwise (fun a b => b.1 < a.1))
    (cur prev : Int) (hprev : ∀ n ∈ rs, n.1 < prev) : cur ≤ revEnd rs cur prev := by
  induction rs generalizing cur prev with
  | nil => exact le_refl _
  | cons n rest ih =>
    have hn := hprev n (List.mem_cons_self _ _)
    have := ih (List.pairwise_cons.mp hdesc).2 (cur + prev - n.1) n.1
      (fun q hq => (List.pairwise_cons.mp hdesc).1 q hq)
    show cur ≤ revEnd rest (cur + prev - n.1) n.1
    omega

theorem mem_revNodes {rs : List (Int × V)} (hdesc : rs.Pairwise (fun a b => b.1 < a.1))
    (cur prev : Int) (hprev : ∀ n ∈ rs, n.1 < prev) {q : Int × V}
    (hq : q ∈ revNodes rs cur prev) : cur ≤ q.1 ∧ q.1 < revEnd rs cur prev := by
  induction rs generalizing cur prev with
  | nil => cases hq
  | cons n rest ih =>
    have hn := hprev n (List.mem_cons_self _ _)
    have hd := (List.pairwise_cons.mp hdesc).2
    have hp : ∀ m ∈ rest, m.1 < n.1 := fun m hm => (List.pairwise_cons.mp hdesc).1 m hm
    have hge := revEnd_ge hd (cur + prev - n.1) n.1 hp
    rcases List.mem_cons.mp hq with rfl | hq
    · show cur ≤ cur ∧ cur < revEnd rest (cur + prev - n.1) n.1
      omega
    · have := ih hd (cur + prev - n.1) n.1 hp hq
      show cur ≤ q.1 ∧ q.1 < revEnd rest (cur + prev - n.1) n.1
      omega

theorem ordered_revNodes {rs : List (Int × V)} (hdesc : rs.Pairwise (fun a b => b.1 < a.1))
    (cur prev : Int) (hprev : ∀ n ∈ rs, n.1 < prev) : Ordered (revNodes rs cur prev) := by
  induction rs generalizing cur prev with
  | nil => exact List.Pairwise.nil
  | cons n rest ih =>
    have hn := hprev n (List.mem_cons_self _ _)
    have hd := (List.pairwise_cons.mp hdesc).2
    have hp : ∀ m ∈ rest, m.1 < n.1 := fun m hm => (List.pairwise_cons.mp hdesc).1 m hm
    refine List.pairwise_cons.mpr ⟨fun q hq => ?_, ih hd _ _ hp⟩
    have := (mem_revNodes hd (cur + prev - n.1) n.1 hp hq).1
    show cur < q.1
    omega

theorem reverseLoop_eq {rs : List (Int × V)} (hdesc : rs.Pairwise (fun a b => b.1 < a.1))
    (cur prev : Int) (hprev : ∀ n ∈ rs, n.1 < prev) (L R : KeyMap V)
    (hL : ∀ p ∈ L, p.1 < cur) (hR : ∀ q ∈ R, revEnd rs cur prev ≤ q.1) :
    reverseLoop rs cur prev (L ++ R) = (L ++ (revNodes rs cur prev ++ R), revEnd rs cur prev) := by
  induction rs generalizing cur prev L with
  | nil => simp [reverseLoop, revNodes, revEnd]
  | cons n rest ih =>
    have hn := hprev n (List.mem_cons_self _ _)
    have hd := (List.pairwise_cons.mp hdesc).2
    have hp : ∀ m ∈ rest, m.1 < n.1 := fun m hm => (List.pairwise_cons.mp hdesc).1 m hm
    have hge := revEnd_ge hd (cur + prev - n.1) n.1 hp
    have hR' : ∀ q ∈ R, revEnd rest (cur + prev - n.1) n.1 ≤ q.1 := hR
    have he : emplace (L ++ R) cur n.2 = (L ++ [(cur, n.2)]) ++ R := by
      rw [emplace_split n.2 hL (fun q hq => by have := hR' q hq; omega)]
      simp
    show reverseLoop rest (cur + prev - n.1) n.1 (emplace (L ++ R) cur n.2) = _
    rw [he, ih hd _ _ hp (L ++ [(cur, n.2)]) (fun p hp' => by
      rcases List.mem_append.mp hp' with h | h
      · have := hL p h; omega
      · simp at h; rw [h]; show cur < _; omega) hR']
    simp [revNodes, revEnd]

theorem valAt_snoc (d : V) (m : KeyMap V) (n : Int × V) (x : Int) :
    valAt d (m ++ [n]) x = if n.1 ≤ x then n.2 else valAt d m x := by
  rw [valAt_append, valAt_cons, valAt_nil]

/-- The value at the mirrored index `cur + prev - 1 - x` of the nodes laid out
by the loop of `reverseValues` is the value at `x` of the extracted nodes. -/
theorem valAt_revNodes {rs : List (Int × V)} (hdesc : rs.Pairwise (fun a b => b.1 < a.1))
    (cur prev : Int) (hprev : ∀ n ∈ rs, n.1 < prev) (w d : V) (x : Int) (hx : x < prev)
    (hex : ∃ n ∈ rs, n.1 ≤ x) :
    valAt w (revNodes rs cur prev) (cur + prev - 1 - x) = valAt d rs.reverse x := by
  induction rs generalizing cur prev w with
  | nil => obtain ⟨n, hn, -⟩ := hex; cases hn
  | cons n rest ih =>
    have hn := hprev n (List.mem_cons_self _ _)
    have hd := (List.pairwise_cons.mp hdesc).2
    have hp : ∀ m ∈ rest, m.1 < n.1 := fun m hm => (List.pairwise_cons.mp hdesc).1 m hm
    rw [List.reverse_cons, valAt_snoc]
    show valAt w ((cur, n.2) :: revNodes rest (cur + prev - n.1) n.1) (cur + prev - 1 - x) = _
    rw [valAt_cons, if_pos (by show cur ≤ cur + prev - 1 - x; omega)]
    by_cases hc : n.1 ≤ x
    · rw [if_pos hc, valAt_of_forall_gt]
      intro q hq
      have := (mem_revNodes hd _ _ hp hq).1
      omega
    · rw [if_neg hc]
      have e : cur + prev - 1 - x = (cur + prev - n.1) + n.1 - 1 - x := by omega
      rw [e]
      refine ih hd _ _ hp n.2 (by omega) ?_
      obtain ⟨m, hm, hmx⟩ := hex
      rcases List.mem_cons.mp hm with rfl | hm
      · exact absurd hmx hc
      · exact ⟨m, hm, hmx⟩

/-- Erasing a node whose value equals the value before it does not change the step function. -/
theorem valAt_erase_dup (w : V) {L R : KeyMap V} {c : Int × V} (h : Ordered (L ++ c :: R))
    (hc : c.2 = lastVal w L) (x : Int) :
    valAt w (L ++ c :: R) x = valAt w (L ++ R) x := by
  rw [valAt_append, valAt_append, valAt_cons]
  by_cases hx : c.1 ≤ x
  · rw [if_pos hx, valAt_of_forall_le (m := L) _ (fun p hp => by
      have := h.lt_of_append p hp c (List.mem_cons_self _ _); omega), hc]
  · rw [if_neg hx]

/-- The loop of `reverseValues` and the extra node that follows it, on the map
`A ++ C1` left by the extraction of the nodes `b :: B` of `[f, t)`: a list of
nodes `X` is inserted between `A` and `C1`, whose step function on `[f, t)` is
the mirror image of that of `b :: B`. -/
theorem reverse_middle [DecidableEq V] (f t : Int) (pbv : V) (A C1 : KeyMap V) (b : Int × V)
    (B : KeyMap V) (n : Int × V) (rest : List (Int × V))
    (hrs : (b :: B).reverse = n :: rest) (hBo : Ordered (b :: B))
    (hB : ∀ p ∈ b :: B, f ≤ p.1 ∧ p.1 < t) (hfirst : b.2 ≠ pbv)
    (hA : ∀ p ∈ A, p.1 < f) (hC1 : ∀ q ∈ C1, t ≤ q.1) :
    ∃ X : KeyMap V,
      (if decide (f ≠ b.1) = true then
          emplace
            (if n.2 = pbv then reverseLoop rest (f + (t - n.1)) n.1 (A ++ C1)
              else reverseLoop (n :: rest) f t (A ++ C1)).1
            (if n.2 = pbv then reverseLoop rest (f + (t - n.1)) n.1 (A ++ C1)
              else reverseLoop (n :: rest) f t (A ++ C1)).2 pbv
        else
          (if n.2 = pbv then reverseLoop rest (f + (t - n.1)) n.1 (A ++ C1)
            else reverseLoop (n :: rest) f t (A ++ C1)).1) = A ++ (X ++ C1)
      ∧ X ≠ [] ∧ Ordered X ∧ (∀ q ∈ X, f ≤ q.1 ∧ q.1 < t)
      ∧ (∀ x, f ≤ x → x < t → valAt pbv X (f + t - 1 - x) = valAt pbv (b :: B) x) := by
  have hdesc : (n :: rest).Pairwise (fun a c => c.1 < a.1) := by
    rw [← hrs]; exact List.pairwise_reverse.mpr hBo
  have hmem : ∀ q, q ∈ n :: rest ↔ q ∈ b :: B := by
    intro q; rw [← hrs]; exact List.mem_reverse
  have hlast : (n :: rest).getLast? = some b := by
    rw [← hrs, List.getLast?_reverse]; rfl
  have hBeq : b :: B = rest.reverse ++ [n] := by
    have := congrArg List.reverse hrs
    simpa using this
  have hd := (List.pairwise_cons.mp hdesc).2
  have hp : ∀ m ∈ rest, m.1 < n.1 := fun m hm => (List.pairwise_cons.mp hdesc).1 m hm
  have hprev : ∀ m ∈ n :: rest, m.1 < t := fun m hm => (hB m ((hmem m).mp hm)).2
  have hn := hB n ((hmem n).mp (List.mem_cons_self _ _))
  have hb := hB b (List.mem_cons_self _ _)
  have hbmin : ∀ p ∈ b :: B, b.1 ≤ p.1 := by
    intro p hp
    rcases List.mem_cons.mp hp with rfl | hp
    · exact le_refl _
    · exact le_of_lt (hBo.head_lt p hp)
  -- the loop
  obtain ⟨X, E, hl, hE, hX0, hXo, hXk, hXv⟩ : ∃ (X : KeyMap V) (E : Int),
      (if n.2 = pbv then reverseLoop rest (f + (t - n.1)) n.1 (A ++ C1)
        else reverseLoop (n :: rest) f t (A ++ C1)) = (A ++ (X ++ C1), E)
      ∧ E = f + t - b.1 ∧ X ≠ [] ∧ Ordered X ∧ (∀ q ∈ X, f ≤ q.1 ∧ q.1 < E)
      ∧ (∀ x, b.1 ≤ x → x < t → valAt pbv X (f + t - 1 - x) = valAt pbv (b :: B) x) := by
    by_cases hskip : n.2 = pbv
    · have hrest : rest ≠ [] := by
        intro e
        rw [e] at hlast
        simp at hlast
        rw [hlast] at hskip
        exact hfirst hskip
      have hlast' : rest.getLast? = some b := by
        cases rest with
        | nil => exact absurd rfl hrest
        | cons m rest' => rw [List.getLast?_cons_cons] at hlast; exact hlast
      have hEe := revEnd_eq hlast' (f + (t - n.1)) n.1
      refine ⟨revNodes rest (f + (t - n.1)) n.1, revEnd rest (f + (t - n.1)) n.1, ?_, ?_, ?_, ?_,
        ?_, ?_⟩
      · rw [if_pos hskip]
        exact reverseLoop_eq hd _ _ hp A C1 (fun p hp' => by have := hA p hp'; omega)
          (fun q hq => by have := hC1 q hq; rw [hEe]; omega)
      · rw [hEe]; omega
      · cases rest with
        | nil => exact absurd rfl hrest
        | cons m rest' => simp [revNodes]
      · exact ordered_revNodes hd _ _ hp
      · intro q hq
        have := mem_revNodes hd _ _ hp hq
        omega
      · intro x hx1 hx2
        rw [hBeq, valAt_snoc]
        by_cases hc : n.1 ≤ x
        · rw [if_pos hc, hskip, valAt_of_forall_gt]
          intro q hq
          have := (mem_revNodes hd _ _ hp hq).1
          omega
        · rw [if_neg hc]
          have e : f + t - 1 - x = (f + (t - n.1)) + n.1 - 1 - x := by omega
          rw [e]
          refine valAt_revNodes hd _ _ hp pbv pbv x (by omega) ⟨b, ?_, hx1⟩
          exact List.mem_of_mem_getLast? hlast'
    · have hEe := revEnd_eq hlast f t
      refine ⟨revNodes (n :: rest) f t, revEnd (n :: rest) f t, ?_, hEe, ?_, ?_, ?_, ?_⟩
      · rw [if_neg hskip]
        exact reverseLoop_eq hdesc _ _ hprev A C1 hA
          (fun q hq => by have := hC1 q hq; rw [hEe]; omega)
      · simp [revNodes]
      · exact ordered_revNodes hdesc _ _ hprev
      · intro q hq
        exact mem_revNodes hdesc _ _ hprev hq
      · intro x hx1 hx2
        have := valAt_revNodes hdesc f t hprev pbv pbv x hx2
          ⟨b, (hmem b).mpr (List.mem_cons_self _ _), hx1⟩
        rw [this, hrs.symm, List.reverse_reverse]
  rw [hl]
  by_cases hex : f ≠ b.1
  · have hEt : E < t := by omega
    refine ⟨X ++ [(E, pbv)], ?_, by simp, ?_, ?_, ?_⟩
    · rw [if_pos (by simpa using hex)]
      have := emplace_split (L := A ++ X) (R := C1) (k := E) pbv
        (fun p hp' => by
          rcases List.mem_append.mp hp' with h | h
          · have := hA p h; omega
          · exact (hXk p h).2)
        (fun q hq => by have := hC1 q hq; omega)
      simpa using this
    · exact ordered_append_of hXo (by simp [Ordered]) (fun p hp' q hq => by
        simp at hq; rw [hq]; exact (hXk p hp').2)
    · intro q hq
      rcases List.mem_append.mp hq with h | h
      · have := hXk q h; omega
      · simp at h; rw [h]; show f ≤ E ∧ E < t; omega
    · intro x hx1 hx2
      rw [valAt_snoc]
      by_cases hc : b.1 ≤ x
      · rw [if_neg (by show ¬ E ≤ f + t - 1 - x; omega)]
        exact hXv x hc hx2
      · rw [if_pos (by show E ≤ f + t - 1 - x; omega), valAt_of_forall_gt]
        intro p hp'
        have := hbmin p hp'
        omega
  · have hfb : f = b.1 := by omega
    refine ⟨X, ?_, hX0, hXo, ?_, ?_⟩
    · rw [if_neg (by simpa using hex)]
    · intro q hq
      have := hXk q hq; omega
    · intro x hx1 hx2
      exact hXv x (by omega) hx2

theorem reverseValues_split [DecidableEq V] (s : compressedVector V) (fromArg toArg f t : Int)
    (A C : KeyMap V) (b : Int × V) (B : KeyMap V)
    (hs : s.m_map = A ++ ((b :: B) ++ C)) (hord : Ordered (A ++ ((b :: B) ++ C)))
    (hr : getValidRange s fromArg toArg = (f, t)) (hlt : f < t)
    (hA : ∀ p ∈ A, p.1 < f) (hB : ∀ p ∈ b :: B, f ≤ p.1 ∧ p.1 < t) (hC : ∀ p ∈ C, t ≤ p.1)
    (h5 : lastVal s.m_valBegin (A ++ ((b :: B) ++ C)) = s.m_valBegin)
    (hfirst : b.2 ≠ lastVal s.m_valBegin A) :
    ∃ M, reverseValues s fromArg toArg = some { s with m_map := M } ∧ Ordered M
      ∧ (∀ x, f ≤ x → x < t →
          valAt s.m_valBegin M (f + t - 1 - x) = valAt s.m_valBegin (A ++ ((b :: B) ++ C)) x)
      ∧ (∀ x, ¬ (f ≤ x ∧ x < t) →
          valAt s.m_valBegin M x = valAt s.m_valBegin (A ++ ((b :: B) ++ C)) x) := by
  have hne : f ≠ t := by omega
  have hBC : ∀ p ∈ (b :: B) ++ C, f ≤ p.1 := by
    intro p hp
    rcases List.mem_append.mp hp with hp | hp
    · exact (hB p hp).1
    · have := hC p hp; omega
  have hAB : ∀ p ∈ A ++ (b :: B), p.1 < t := by
    intro p hp
    rcases List.mem_append.mp hp with hp | hp
    · have := hA p hp; omega
    · exact (hB p hp).2
  have S1 : lowerBound (A ++ ((b :: B) ++ C)) f = mapBegin ((b :: B) ++ C) := lowerBound_split hA hBC
  have hord' : Ordered ((A ++ (b :: B)) ++ C) := by simpa using hord
  have S2 : lowerBound (A ++ ((b :: B) ++ C)) t = mapBegin C := by
    have := lowerBound_split hAB hC
    simpa using this
  have S3 := prevValue_split s.m_valBegin (L := A) (R := (b :: B) ++ C) hord
  have S4 : deref (A ++ ((b :: B) ++ C)) (mapBegin ((b :: B) ++ C)) = some b := by
    rw [deref_split hord]; rfl
  have hbc : mapBegin ((b :: B) ++ C) ≠ mapBegin C := by
    intro e
    have := (mapBegin_append_eq_iff hord.right).mp e
    cases this
  have hABne : A ++ (b :: B) ≠ [] := by simp
  -- the node emplaced at the range end
  obtain ⟨C1, S5, hC1, hord1, hnil, hval1, hlast1⟩ : ∃ C1 : KeyMap V,
      ((if mapBegin C ≠ none then
          (deref (A ++ ((b :: B) ++ C)) (mapBegin C)).bind fun e =>
            if t ≠ e.1 then
              (prevEntry (A ++ ((b :: B) ++ C)) (mapBegin C)).bind fun p =>
                pure (emplace (A ++ ((b :: B) ++ C)) t p.2, some t)
            else pure (A ++ ((b :: B) ++ C), mapBegin C)
        else pure (A ++ ((b :: B) ++ C), mapBegin C)) : Option (KeyMap V × Iter))
        = some (A ++ ((b :: B) ++ C1), mapBegin C1)
      ∧ (∀ q ∈ C1, t ≤ q.1) ∧ Ordered (A ++ ((b :: B) ++ C1)) ∧ (C = [] → C1 = [])
      ∧ (C ≠ [] → ∀ (w : V) (x : Int), t ≤ x →
          valAt w C1 x = valAt (lastVal s.m_valBegin (A ++ (b :: B))) C x)
      ∧ (∀ w : V, lastVal w C1 = lastVal w C) := by
    cases C with
    | nil => exact ⟨[], by simp [mapBegin], hC, hord, fun _ => rfl, fun h => absurd rfl h, fun _ => rfl⟩
    | cons c C' =>
      have hc := hC c (List.mem_cons_self _ _)
      have hd : deref (A ++ ((b :: B) ++ c :: C')) (mapBegin (c :: C')) = some c := by
        rw [← List.append_assoc, deref_split hord']; rfl
      rw [if_pos (by simp [mapBegin]), hd, Option.some_bind]
      by_cases hct : t ≠ c.1
      · have hpe : prevEntry (A ++ ((b :: B) ++ c :: C')) (mapBegin (c :: C'))
            = (A ++ (b :: B)).getLast? := by
          rw [← List.append_assoc, prevEntry_split hord']
        obtain ⟨p, hp⟩ : ∃ p, (A ++ (b :: B)).getLast? = some p := by
          cases hl : (A ++ (b :: B)).getLast? with
          | none => simp at hl
          | some p => exact ⟨p, rfl⟩
        have hpv : p.2 = lastVal s.m_valBegin (A ++ (b :: B)) := by
          unfold lastVal; rw [hp]
        have hem : emplace (A ++ ((b :: B) ++ c :: C')) t p.2
            = A ++ ((b :: B) ++ (t, p.2) :: c :: C') := by
          have := emplace_split (L := A ++ (b :: B)) (R := c :: C') (k := t) p.2 hAB
            (fun q hq => by have := hC q hq; rcases List.mem_cons.mp hq with rfl | hq'
                            · omega
                            · have := hord.right.right.head_lt q hq'; omega)
          simpa using this
        refine ⟨(t, p.2) :: c :: C', ?_, ?_, ?_, fun h => absurd h (List.cons_ne_nil _ _), ?_, ?_⟩
        · rw [if_pos hct, hpe, hp, Option.some_bind, hem]; rfl
        · intro q hq
          rcases List.mem_cons.mp hq with rfl | hq
          · exact le_refl _
          · exact hC q hq
        · rw [← hem]; exact emplace_ordered hord t p.2
        · intro _ w x hx
          rw [valAt_cons, if_pos hx, hpv]
        · intro w
          rw [lastVal_cons, lastVal_cons, lastVal_cons]
      · refine ⟨c :: C', ?_, hC, hord, fun h => absurd h (List.cons_ne_nil _ _), ?_, fun _ => rfl⟩
        · rw [if_neg hct]; rfl
        · intro _ w x hx
          rw [valAt_cons, valAt_cons, if_pos (by omega), if_pos (by omega)]
  have hmb : mapBegin ((b :: B) ++ C) = mapBegin ((b :: B) ++ C1) := rfl
  have S6 := eraseRange_split hord1
  have S7 := rangeOf_split hord1
  obtain ⟨n, rest, hrs⟩ : ∃ n rest, (b :: B).reverse = n :: rest := by
    cases hrv : (b :: B).reverse with
    | nil => simp at hrv
    | cons n rest => exact ⟨n, rest, rfl⟩
  have hite : ∀ (c : Prop) [Decidable c] (x y : KeyMap V × Int),
      (if c then some x else some y) = some (if c then x else y) := by
    intro c _ x y; split <;> rfl
  obtain ⟨X, S8, hX0, hXo, hXk, hXv⟩ := reverse_middle f t (lastVal s.m_valBegin A) A C1 b B n rest
    hrs hord.right.left hB hfirst hA hC1
  unfold reverseValues
  simp only [hr, hs]
  rw [if_neg (by simp [hne])]
  simp only [S1, S2, if_neg hbc, S3, S4, Option.bind_eq_bind, Option.some_bind]
  rw [S5]
  simp only [Option.some_bind, hmb, S6, S7, hrs, hite, S8]
  have hAX : ∀ p ∈ A ++ X, p.1 < t := by
    intro p hp
    rcases List.mem_append.mp hp with hp | hp
    · have := hA p hp; omega
    · exact (hXk p hp).2
  have hAXo : Ordered (A ++ X) :=
    ordered_append_of hord.left hXo (fun p hp q hq => by
      have := hA p hp; have := (hXk q hq).1; omega)
  have hordX : Ordered ((A ++ X) ++ C1) :=
    ordered_append_of hAXo hord1.right.right (fun p hp q hq => by
      have := hAX p hp; have := hC1 q hq; omega)
  have hAXne : A ++ X ≠ [] := by simp [hX0]
  obtain ⟨pl, hpl⟩ : ∃ p, (A ++ X).getLast? = some p := by
    cases hl : (A ++ X).getLast? with
    | none => simp [hX0] at hl
    | some p => exact ⟨p, rfl⟩
  have hplv : pl.2 = lastVal s.m_valBegin (A ++ X) := by
    unfold lastVal; rw [hpl]
  -- the node at the range end is erased when its value equals the value before it
  obtain ⟨m4, S9, hm4o, hm4v, hm4l, hm4nil, hm4ne⟩ : ∃ m4 : KeyMap V,
      ((if mapBegin C1 ≠ none then
          (deref (A ++ (X ++ C1)) (mapBegin C1)).bind fun a =>
            (prevEntry (A ++ (X ++ C1)) (mapBegin C1)).bind fun a_1 =>
              if a.2 = a_1.2 then eraseAt (A ++ (X ++ C1)) (mapBegin C1)
              else pure (A ++ (X ++ C1))
        else pure (A ++ (X ++ C1))) : Option (KeyMap V))
        = some m4
      ∧ Ordered m4
      ∧ (∀ x, valAt s.m_valBegin m4 x = valAt s.m_valBegin ((A ++ X) ++ C1) x)
      ∧ lastVal s.m_valBegin m4 = lastVal s.m_valBegin ((A ++ X) ++ C1)
      ∧ (C1 = [] → m4 = A ++ X) ∧ m4 ≠ [] := by
    rw [← List.append_assoc]
    cases C1 with
    | nil =>
      refine ⟨A ++ X, by simp [mapBegin], hAXo, fun x => by simp, by simp, fun _ => rfl, hAXne⟩
    | cons c1 C1' =>
      rw [if_pos (by simp [mapBegin]), deref_split hordX, prevEntry_split hordX, hpl]
      simp only [List.head?_cons, Option.some_bind]
      by_cases hdup : c1.2 = pl.2
      · refine ⟨(A ++ X) ++ C1', ?_, ?_, ?_, ?_, fun h => absurd h (List.cons_ne_nil _ _), ?_⟩
        · rw [if_pos hdup]; exact eraseAt_split hordX
        · exact ordered_append_of hAXo hordX.right.tail (fun p hp q hq =>
            hordX.lt_of_append p hp q (List.mem_cons_of_mem _ hq))
        · intro x
          exact (valAt_erase_dup s.m_valBegin hordX (hdup.trans hplv) x).symm
        · rw [lastVal_append_cons, lastVal_append, ← hplv, hdup]
        · simp [hX0]
      · refine ⟨(A ++ X) ++ c1 :: C1', ?_, hordX, fun _ => rfl, rfl,
          fun h => absurd h (List.cons_ne_nil _ _), by simp⟩
        rw [if_neg hdup]; rfl
  obtain ⟨last, hlast⟩ : ∃ p, m4.getLast? = some p := by
    cases hl : m4.getLast? with
    | none => simp at hl; exact absurd hl hm4ne
    | some p => exact ⟨p, rfl⟩
  have hlastv : last.2 = lastVal s.m_valBegin m4 := by
    unfold lastVal; rw [hlast]
  rw [S9]
  simp only [Option.some_bind, hlast]
  -- the step functions
  have hvA : ∀ x, f ≤ x → valAt s.m_valBegin A x = lastVal s.m_valBegin A := fun x hx =>
    valAt_of_forall_le _ (fun p hp => by have := hA p hp; omega)
  have hold_in : ∀ x, f ≤ x → x < t → valAt s.m_valBegin (A ++ ((b :: B) ++ C)) x
      = valAt (lastVal s.m_valBegin A) (b :: B) x := by
    intro x hx1 hx2
    rw [valAt_append, valAt_append, hvA x hx1,
      valAt_of_forall_gt (m := C) _ (fun p hp => by have := hC p hp; omega)]
  have hold_lo : ∀ x, x < f → valAt s.m_valBegin (A ++ ((b :: B) ++ C)) x
      = valAt s.m_valBegin A x := by
    intro x hx
    rw [valAt_append, valAt_of_forall_gt (m := (b :: B) ++ C) _
      (fun p hp => by have := hBC p hp; omega)]
  have hold_hi : ∀ x, t ≤ x → valAt s.m_valBegin (A ++ ((b :: B) ++ C)) x
      = valAt (lastVal s.m_valBegin (A ++ (b :: B))) C x := by
    intro x hx
    rw [← List.append_assoc, valAt_append,
      valAt_of_forall_le (m := A ++ (b :: B)) _ (fun p hp => by have := hAB p hp; omega)]
  have hnew_in : ∀ y, f ≤ y → y < t → valAt s.m_valBegin ((A ++ X) ++ C1) y
      = valAt (lastVal s.m_valBegin A) X y := by
    intro y hy1 hy2
    rw [valAt_append, valAt_append, hvA y hy1,
      valAt_of_forall_gt (m := C1) _ (fun p hp => by have := hC1 p hp; omega)]
  have hnew_lo : ∀ x, x < f → valAt s.m_valBegin ((A ++ X) ++ C1) x
      = valAt s.m_valBegin A x := by
    intro x hx
    rw [List.append_assoc, valAt_append, valAt_of_forall_gt (m := X ++ C1) _
      (fun p hp => by
        rcases List.mem_append.mp hp with hp | hp
        · have := (hXk p hp).1; omega
        · have := hC1 p hp; omega)]
  have hnew_hi : ∀ x, t ≤ x → valAt s.m_valBegin ((A ++ X) ++ C1) x
      = valAt (lastVal s.m_valBegin (A ++ X)) C1 x := by
    intro x hx
    rw [valAt_append,
      valAt_of_forall_le (m := A ++ X) _ (fun p hp => by have := hAX p hp; omega)]
  by_cases hCnil : C = []
  · have hC1nil := hnil hCnil
    have hm4 := hm4nil hC1nil
    subst hCnil
    subst hC1nil
    have h5' : lastVal s.m_valBegin (A ++ (b :: B)) = s.m_valBegin := by simpa using h5
    by_cases hterm : last.2 ≠ s.m_valBegin
    · have hem : emplace m4 t s.m_valBegin = m4 ++ [(t, s.m_valBegin)] := by
        rw [hm4]; exact emplace_end _ hAX
      refine ⟨m4 ++ [(t, s.m_valBegin)], by rw [if_pos hterm, hem]; rfl, ?_, ?_, ?_⟩
      · rw [← hem]; exact emplace_ordered hm4o _ _
      · intro x hx1 hx2
        rw [valAt_snoc, if_neg (by omega), hm4v, hnew_in _ (by omega) (by omega), hXv x hx1 hx2,
          hold_in x hx1 hx2]
      · intro x hx
        rw [valAt_snoc]
        by_cases hxt : t ≤ x
        · rw [if_pos hxt, hold_hi x hxt, valAt_nil, h5']
        · rw [if_neg hxt, hm4v, hnew_lo x (by omega), hold_lo x (by omega)]
    · have hbg : lastVal s.m_valBegin (A ++ X) = s.m_valBegin := by
        rw [← hm4, ← hlastv]; exact not_not.mp hterm
      refine ⟨m4, by rw [if_neg hterm]; rfl, hm4o, ?_, ?_⟩
      · intro x hx1 hx2
        rw [hm4v, hnew_in _ (by omega) (by omega), hXv x hx1 hx2, hold_in x hx1 hx2]
      · intro x hx
        rw [hm4v]
        by_cases hxt : t ≤ x
        · rw [hnew_hi x hxt, hold_hi x hxt, valAt_nil, valAt_nil, hbg, h5']
        · rw [hnew_lo x (by omega), hold_lo x (by omega)]
  · obtain ⟨c, C', rfl⟩ : ∃ c C', C = c :: C' := by
      cases C with
      | nil => exact absurd rfl hCnil
      | cons c C' => exact ⟨c, C', rfl⟩
    have hbg : last.2 = s.m_valBegin := by
      rw [hlastv, hm4l, lastVal_append, hlast1, ← h5, ← List.append_assoc,
        lastVal_append_cons, lastVal_cons]
    refine ⟨m4, by rw [if_neg (not_not.mpr hbg)]; rfl, hm4o, ?_, ?_⟩
    · intro x hx1 hx2
      rw [hm4v, hnew_in _ (by omega) (by omega), hXv x hx1 hx2, hold_in x hx1 hx2]
    · intro x hx
      rw [hm4v]
      by_cases hxt : t ≤ x
      · rw [hnew_hi x hxt, hold_hi x hxt, hval1 hCnil _ x hxt]
      · rw [hnew_lo x (by omega), hold_lo x (by omega)]

theorem getValidRange_empty_of_cases (s : compressedVector V) (fromArg toArg : Int)
    (h : toArg ≤ fromArg ∨ toArg ≤ s.minIndex ∨ s.maxIndex ≤ fromArg) :
    (getValidRange s fromArg toArg).1 = (getValidRange s fromArg toArg).2 := by
  unfold getValidRange
  by_cases h1 : toArg ≤ fromArg
  · rw [if_pos h1]
  · rw [if_neg h1]
    by_cases h2 : toArg ≤ s.minIndex
    · rw [if_pos h2]
    · rw [if_neg h2]
      by_cases h3 : s.maxIndex ≤ fromArg
      · rw [if_pos h3]
      · rcases h with h | h | h
        · exact absurd h h1
        · exact absurd h h2
        · exact absurd h h3

theorem setMinIndex_closed (s : compressedVector V) (index : Int) (h : Ordered s.m_map)
    (hk : index < s.maxIndex) :
    ∃ m, setMinIndex s index = some (true, { s with minIndex := index, m_map := m }) := by
  obtain ⟨L, R, e, hL, hR⟩ := h.split_lt index
  rw [e] at h
  have S1 : lowerBound (L ++ R) index = mapBegin R := lowerBound_split hL hR
  have S2 : eraseRange (L ++ R) (mapBegin (L ++ R)) (mapBegin R) = some R := by
    have := eraseRange_split (L := []) (M := L) (R := R) (by simpa using h)
    simpa using this
  refine ⟨R, ?_⟩
  unfold setMinIndex
  rw [if_neg (by omega)]
  simp only [e, S1, S2, Option.bind_eq_bind, Option.some_bind, Option.pure_def]

theorem setMaxIndex_closed (s : compressedVector V) (index : Int) (hk : s.minIndex < index) :
    ∃ m, setMaxIndex s index = some (true, { s with maxIndex := index, m_map := m }) := by
  have hle : iterLE (upperBound s.m_map index) none = true := by
    cases upperBound s.m_map index <;> rfl
  refine ⟨s.m_map.filter (fun p => keyBefore p.1 (upperBound s.m_map index) || !keyBefore p.1 none),
    ?_⟩
  unfold setMaxIndex eraseRange
  rw [if_neg (by omega), if_pos hle]
  rfl

theorem ordered_map_add {C : KeyMap V} (h : Ordered C) (d : Int) :
    Ordered (C.map (fun p => (p.1 + d, p.2))) := by
  unfold Ordered at *
  rw [List.pairwise_map]
  exact h.imp (fun hab => by simpa using hab)

theorem valAt_map_add (bg : V) (C : KeyMap V) (d x : Int) :
    valAt bg (C.map (fun p => (p.1 + d, p.2))) (x + d) = valAt bg C x := by
  induction C generalizing bg with
  | nil => rfl
  | cons c C ih =>
    rw [List.map_cons, valAt_cons, valAt_cons, ih]
    by_cases hc : c.1 ≤ x
    · rw [if_pos hc, if_pos (show (c.1 + d, c.2).1 ≤ x + d by simpa using hc)]
    · rw [if_neg hc, if_neg (show ¬ (c.1 + d, c.2).1 ≤ x + d by simpa using hc)]

theorem insertNodes_nil {X : KeyMap V} (h : Ordered X) : insertNodes [] X = X := by
  have := insertNodes_append (L := []) (X := X) (by simpa using h)
  simpa using this

theorem shiftRight_closed (s : compressedVector V) (d : Int) (h : Ordered s.m_map) :
    shiftRight s d = { minIndex := s.minIndex + d, maxIndex := s.maxIndex + d,
                       m_valBegin := s.m_valBegin,
                       m_map := s.m_map.map (fun p => (p.1 + d, p.2)) } := by
  unfold shiftRight
  simp only [insertNodes_nil (ordered_map_add h d)]

theorem shiftLeft_closed (s : compressedVector V) (d : Int) (h : Ordered s.m_map) :
    shiftLeft s d = { minIndex := s.minIndex - d, maxIndex := s.maxIndex - d,
                      m_valBegin := s.m_valBegin,
                      m_map := s.m_map.map (fun p => (p.1 - d, p.2)) } := by
  unfold shiftLeft
  simp only [insertNodes_nil (ordered_map_sub h d)]

theorem noAdjacentEqual_cons_iff [DecidableEq V] (p : Int × V) (ps : KeyMap V) :
    noAdjacentEqual (p :: ps) = true ↔ Changes p.2 ps := by
  induction ps generalizing p with
  | nil => simp [noAdjacentEqual, Changes]
  | cons q ps ih =>
    simp only [noAdjacentEqual, Bool.and_eq_true, decide_eq_true_eq, Changes, ih q]
    constructor
    · rintro ⟨h1, h2⟩; exact ⟨fun e => h1 e.symm, h2⟩
    · rintro ⟨h1, h2⟩; exact ⟨fun e => h1 e.symm, h2⟩

theorem Changes.append {v : V} {L R : KeyMap V} :
    Changes v (L ++ R) ↔ Changes v L ∧ Changes (lastVal v L) R := by
  induction L generalizing v with
  | nil => simp [Changes, lastVal_nil]
  | cons p L ih =>
    show (p.2 ≠ v ∧ Changes p.2 (L ++ R)) ↔ (p.2 ≠ v ∧ Changes p.2 L) ∧ _
    rw [ih, lastVal_cons, and_assoc]

/-- What `mapCanonicalValidationDebug` checks, on the step function: no entry
is redundant and the last value is the initial value. -/
theorem changes_of_validation [DecidableEq V] (s : compressedVector V)
    (h : mapCanonicalValidationDebug s = true) :
    Changes s.m_valBegin s.m_map ∧ lastVal s.m_valBegin s.m_map = s.m_valBegin := by
  unfold mapCanonicalValidationDebug at h
  simp only [Bool.and_eq_true, Bool.or_eq_true, decide_eq_true_eq] at h
  obtain ⟨⟨-, h2⟩, h3⟩ := h
  cases hm : s.m_map with
  | nil => exact ⟨trivial, rfl⟩
  | cons p ps =>
    rw [hm] at h2 h3
    rcases h2 with h2 | ⟨h2, h2'⟩
    · simp at h2
    · refine ⟨⟨?_, (noAdjacentEqual_cons_iff p ps).mp h3⟩, ?_⟩
      · intro e
        apply h2'
        simp [e]
      · unfold lastVal
        cases hl : (p :: ps).getLast? with
        | none => simp at hl
        | some q =>
          rw [hl] at h2
          simp at h2
          exact h2.symm

/-- The invariants I1 to I5 from the step function: an ordered map within the
bounds, without a redundant entry, whose last value is the initial value. -/
theorem canonical_of_changes [DecidableEq V] (s : compressedVector V) (ho : Ordered s.m_map)
    (h1 : s.minIndex < s.maxIndex) (hk : ∀ p ∈ s.m_map, s.minIndex ≤ p.1 ∧ p.1 ≤ s.maxIndex)
    (hc : Changes s.m_valBegin s.m_map) (hl : lastVal s.m_valBegin s.m_map = s.m_valBegin) :
    Canonical s := by
  refine ⟨ho, h1, hk, ?_, ?_, ?_⟩
  · cases hm : s.m_map with
    | nil => rfl
    | cons p ps =>
      rw [hm] at hc
      exact (noAdjacentEqual_cons_iff p ps).mpr hc.2
  · cases hm : s.m_map with
    | nil => simp
    | cons p ps =>
      cases ps with
      | nil =>
        rw [hm] at hc hl
        exact absurd hl hc.1
      | cons q ps => simp
  · intro hne
    cases hm : s.m_map with
    | nil => exact absurd hm hne
    | cons p ps =>
      rw [hm] at hc hl
      refine ⟨?_, ?_⟩
      · simp only [List.head?_cons, Option.map_some', ne_eq, Option.some.injEq]
        exact hc.1
      · unfold lastVal at hl
        cases hq : (p :: ps).getLast? with
        | none => simp at hq
        | some q =>
          rw [hq] at hl
          simp only [Option.map_some', Option.some.injEq]
          exact hl

theorem changes_of_canonical [DecidableEq V] {s : compressedVector V} (h : Canonical s) :
    Changes s.m_valBegin s.m_map := by
  obtain ⟨-, -, -, h3, -, h5⟩ := h
  cases hm : s.m_map with
  | nil => trivial
  | cons p ps =>
    rw [hm] at h3 h5
    refine ⟨?_, (noAdjacentEqual_cons_iff p ps).mp h3⟩
    have := (h5 (by simp)).1
    intro e
    apply this
    simp [e]

theorem valAt_head (v : V) {p : Int × V} {r : KeyMap V} (h : Ordered (p :: r)) :
    valAt v (p :: r) p.1 = p.2 := by
  rw [valAt_cons, if_pos (le_refl _), valAt_of_forall_gt]
  exact h.head_lt

/-- A list of breakpoints with a first entry, without a redundant entry and
ending with the value `v` it follows, is not constant on `[lo, hi)`. -/
theorem not_constant_of_cons {v : V} {lo hi : Int} (p : Int × V) (r : KeyMap V)
    (ho : Ordered (p :: r)) (hk : ∀ q ∈ p :: r, lo ≤ q.1 ∧ q.1 ≤ hi) (hp : p.2 ≠ v)
    (hlv : lastVal v (p :: r) = v) (hval : ∀ x, lo ≤ x → x < hi → valAt v (p :: r) x = v) :
    False := by
  have hpk := hk p (List.mem_cons_self _ _)
  by_cases hlt : p.1 < hi
  · have := hval p.1 hpk.1 hlt
    rw [valAt_head v ho] at this
    exact hp this
  · have hr : r = [] := by
      cases r with
      | nil => rfl
      | cons q r =>
        have h1 := ho.head_lt q (List.mem_cons_self _ _)
        have h2 := (hk q (List.mem_cons_of_mem _ (List.mem_cons_self _ _))).2
        omega
    subst hr
    rw [lastVal_cons, lastVal_nil] at hlv
    exact hp hlv

/-- Two ordered lists of breakpoints within `[lo, hi]`, neither with a
redundant entry, that follow the same value, end with the same value and
describe the same step function on `[lo, hi)`, are equal. -/
theorem unique_of_valAt {m1 m2 : KeyMap V} {v : V} {lo hi : Int}
    (ho1 : Ordered m1) (ho2 : Ordered m2)
    (hk1 : ∀ p ∈ m1, lo ≤ p.1 ∧ p.1 ≤ hi) (hk2 : ∀ p ∈ m2, lo ≤ p.1 ∧ p.1 ≤ hi)
    (hc1 : Changes v m1) (hc2 : Changes v m2) (hl : lastVal v m1 = lastVal v m2)
    (hv : ∀ x, lo ≤ x → x < hi → valAt v m1 x = valAt v m2 x) : m1 = m2 := by
  induction m1 generalizing m2 v lo with
  | nil =>
    cases m2 with
    | nil => rfl
    | cons q r2 =>
      exfalso
      rw [lastVal_nil] at hl
      exact not_constant_of_cons q r2 ho2 hk2 hc2.1 hl.symm (fun x h1 h2 => (hv x h1 h2).symm)
  | cons p r1 ih =>
    cases m2 with
    | nil =>
      exfalso
      rw [lastVal_nil] at hl
      exact not_constant_of_cons p r1 ho1 hk1 hc1.1 hl hv
    | cons q r2 =>
      have hpk := hk1 p (List.mem_cons_self _ _)
      have hqk := hk2 q (List.mem_cons_self _ _)
      have hkeq : p.1 = q.1 := by
        rcases lt_trichotomy p.1 q.1 with hlt | heq | hgt
        · exfalso
          have := hv p.1 hpk.1 (by omega)
          rw [valAt_head v ho1, valAt_of_forall_gt v (fun z hz => by
            rcases List.mem_cons.mp hz with rfl | hz
            · exact hlt
            · have := ho2.head_lt z hz; omega)] at this
          exact hc1.1 this
        · exact heq
        · exfalso
          have := hv q.1 hqk.1 (by omega)
          rw [valAt_head v ho2, valAt_of_forall_gt v (fun z hz => by
            rcases List.mem_cons.mp hz with rfl | hz
            · exact hgt
            · have := ho1.head_lt z hz; omega)] at this
          exact hc2.1 this.symm
      by_cases hlt : p.1 < hi
      · have hval := hv p.1 hpk.1 hlt
        rw [valAt_head v ho1] at hval
        have hq' : valAt v (q :: r2) p.1 = q.2 := by rw [hkeq]; exact valAt_head v ho2
        rw [hq'] at hval
        have hpq : p = q := Prod.ext hkeq hval
        subst hpq
        have hr : r1 = r2 := by
          refine @ih _ _ (p.1 + 1) ho1.tail ho2.tail ?_ ?_ hc1.2 hc2.2 ?_ ?_
          · intro z hz
            have := ho1.head_lt z hz
            have := (hk1 z (List.mem_cons_of_mem _ hz)).2
            omega
          · intro z hz
            have := ho2.head_lt z hz
            have := (hk2 z (List.mem_cons_of_mem _ hz)).2
            omega
          · rw [lastVal_cons, lastVal_cons] at hl; exact hl
          · intro x h1 h2
            have := hv x (by omega) h2
            rw [valAt_cons, valAt_cons, if_pos (by omega)] at this
            exact this
        rw [hr]
      · have hr1 : r1 = [] := by
          cases r1 with
          | nil => rfl
          | cons z r =>
            have h1 := ho1.head_lt z (List.mem_cons_self _ _)
            have h2 := (hk1 z (List.mem_cons_of_mem _ (List.mem_cons_self _ _))).2
            omega
        have hr2 : r2 = [] := by
          cases r2 with
          | nil => rfl
          | cons z r =>
            have h1 := ho2.head_lt z (List.mem_cons_self _ _)
            have h2 := (hk2 z (List.mem_cons_of_mem _ (List.mem_cons_self _ _))).2
            omega
        subst hr1 hr2
        rw [lastVal_cons, lastVal_cons, lastVal_nil, lastVal_nil] at hl
        rw [Prod.ext hkeq hl]

theorem changes_breakpointsOf {prev : V} {rs : List (V × Nat)} (h : GoodRuns prev rs) (pos : Int) :
    Changes prev (breakpointsOf pos rs) := by
  induction rs generalizing prev pos with
  | nil => trivial
  | cons r rs ih => exact ⟨h.1, ih h.2.2 _⟩

/-- The two closing statements of `assignValues` turn an ordered list of
breakpoints below `til`, whose values change from one entry to the next, into
a list without a redundant entry whose last value is the initial value. -/
theorem closeMap_changes [DecidableEq V] (bg : V) (p : Int × V) (r : KeyMap V) (lo til : Int)
    (ho : Ordered (p :: r)) (hk : ∀ q ∈ p :: r, lo ≤ q.1 ∧ q.1 < til) (hc : Changes p.2 r) :
    Ordered (closeMap bg (p :: r) til)
    ∧ (∀ q ∈ closeMap bg (p :: r) til, lo ≤ q.1 ∧ q.1 ≤ til)
    ∧ Changes bg (closeMap bg (p :: r) til)
    ∧ lastVal bg (closeMap bg (p :: r) til) = bg := by
  have hlo : lo ≤ til := by have := hk p (List.mem_cons_self _ _); omega
  obtain ⟨r1, e1, ho1, hk1, hc1, hl1⟩ : ∃ r1, emplaceBackInit bg (p :: r) til = p :: r1
      ∧ Ordered (p :: r1) ∧ (∀ q ∈ p :: r1, lo ≤ q.1 ∧ q.1 ≤ til) ∧ Changes p.2 r1
      ∧ lastVal bg (p :: r1) = bg := by
    by_cases hl : lastVal bg (p :: r) = bg
    · exact ⟨r, emplaceBackInit_of_lastVal_eq til hl, ho,
        fun q hq => ⟨(hk q hq).1, le_of_lt (hk q hq).2⟩, hc, hl⟩
    · have he : emplace (p :: r) til bg = p :: (r ++ [(til, bg)]) :=
        emplace_end bg (fun q hq => (hk q hq).2)
      refine ⟨r ++ [(til, bg)], by rw [emplaceBackInit_of_lastVal_ne til hl, he], ?_, ?_, ?_, ?_⟩
      · rw [← he]; exact emplace_ordered ho _ _
      · intro q hq
        rcases List.mem_cons.mp hq with rfl | hq
        · have := hk q (List.mem_cons_self _ _); omega
        · rcases List.mem_append.mp hq with hq | hq
          · have := hk q (List.mem_cons_of_mem _ hq); omega
          · simp at hq; rw [hq]; exact ⟨hlo, le_refl _⟩
      · rw [Changes.append]
        refine ⟨hc, ?_, trivial⟩
        rw [lastVal_cons] at hl
        exact fun e => hl e.symm
      · rw [lastVal_cons, lastVal_append, lastVal_cons, lastVal_nil]
  unfold closeMap
  rw [e1]
  refine ⟨ordered_eraseFrontInit bg ho1, fun q hq => hk1 q (mem_eraseFrontInit hq), ?_,
    by rw [lastVal_eraseFrontInit]; exact hl1⟩
  unfold eraseFrontInit
  by_cases hp : p.2 = bg
  · simp only [if_pos hp]
    rw [← hp]; exact hc1
  · simp only [if_neg hp]
    exact ⟨hp, hc1⟩

theorem changes_iff_chain (p : Int × V) (l : KeyMap V) :
    Changes p.2 l ↔ List.Chain' (fun x y : V => x ≠ y) ((p :: l).map Prod.snd) := by
  induction l generalizing p with
  | nil => simp [Changes]
  | cons q l ih =>
    rw [List.map_cons, List.map_cons, List.chain'_cons, ← List.map_cons, ← ih q]
    show (q.2 ≠ p.2 ∧ Changes q.2 l) ↔ _
    constructor
    · rintro ⟨h1, h2⟩; exact ⟨fun e => h1 e.symm, h2⟩
    · rintro ⟨h1, h2⟩; exact ⟨fun e => h1 e.symm, h2⟩

/-- Reading a list of breakpoints backwards keeps the property that the
values change from one entry to the next. -/
theorem changes_reverse {a z : Int × V} {l l' : KeyMap V} (h : (a :: l).reverse = z :: l')
    (hc : Changes a.2 l) : Changes z.2 l' := by
  rw [changes_iff_chain] at hc ⊢
  rw [← h, List.map_reverse, List.chain'_reverse]
  refine hc.imp ?_
  intro x y hxy
  exact fun e => hxy e.symm

theorem changes_revNodes (w : V) (rs : List (Int × V)) (cur prev : Int) :
    Changes w (revNodes rs cur prev) ↔ Changes w rs := by
  induction rs generalizing w cur prev with
  | nil => rfl
  | cons n rest ih =>
    show (n.2 ≠ w ∧ Changes n.2 (revNodes rest _ _)) ↔ (n.2 ≠ w ∧ Changes n.2 rest)
    rw [ih]

theorem lastVal_revNodes (w : V) (rs : List (Int × V)) (cur prev : Int) :
    lastVal w (revNodes rs cur prev) = lastVal w rs := by
  induction rs generalizing w cur prev with
  | nil => rfl
  | cons n rest ih =>
    show lastVal w ((cur, n.2) :: revNodes rest _ _) = _
    rw [lastVal_cons, lastVal_cons, ih]

theorem lastVal_of_getLast? (w : V) {l : KeyMap V} {b : Int × V} (h : l.getLast? = some b) :
    lastVal w l = b.2 := by
  unfold lastVal; rw [h]

/-- The nodes inserted by `reverseValues` between `A` and `C1` carry no
redundant entry when the extracted nodes `b :: B` carry none. -/
theorem reverse_middle_changes [DecidableEq V] (f t : Int) (pbv : V) (A C1 : KeyMap V)
    (b : Int × V) (B : KeyMap V) (n : Int × V) (rest : List (Int × V))
    (hrs : (b :: B).reverse = n :: rest) (hBo : Ordered (b :: B))
    (hB : ∀ p ∈ b :: B, f ≤ p.1 ∧ p.1 < t) (hfirst : b.2 ≠ pbv)
    (hA : ∀ p ∈ A, p.1 < f) (hC1 : ∀ q ∈ C1, t ≤ q.1) (hch : Changes b.2 B) :
    ∃ X : KeyMap V,
      (if decide (f ≠ b.1) = true then
          emplace
            (if n.2 = pbv then reverseLoop rest (f + (t - n.1)) n.1 (A ++ C1)
              else reverseLoop (n :: rest) f t (A ++ C1)).1
            (if n.2 = pbv then reverseLoop rest (f + (t - n.1)) n.1 (A ++ C1)
              else reverseLoop (n :: rest) f t (A ++ C1)).2 pbv
        else
          (if n.2 = pbv then reverseLoop rest (f + (t - n.1)) n.1 (A ++ C1)
            else reverseLoop (n :: rest) f t (A ++ C1)).1) = A ++ (X ++ C1)
      ∧ Changes pbv X := by
  have hdesc : (n :: rest).Pairwise (fun a c => c.1 < a.1) := by
    rw [← hrs]; exact List.pairwise_reverse.mpr hBo
  have hmem : ∀ q, q ∈ n :: rest ↔ q ∈ b :: B := by
    intro q; rw [← hrs]; exact List.mem_reverse
  have hlast : (n :: rest).getLast? = some b := by
    rw [← hrs, List.getLast?_reverse]; rfl
  have hd := (List.pairwise_cons.mp hdesc).2
  have hp : ∀ m ∈ rest, m.1 < n.1 := fun m hm => (List.pairwise_cons.mp hdesc).1 m hm
  have hprev : ∀ m ∈ n :: rest, m.1 < t := fun m hm => (hB m ((hmem m).mp hm)).2
  have hn := hB n ((hmem n).mp (List.mem_cons_self _ _))
  have hb := hB b (List.mem_cons_self _ _)
  have hadj : Changes n.2 rest := changes_reverse hrs hch
  -- the loop
  obtain ⟨X, E, hl, hE, hXk, hXc, hXl⟩ : ∃ (X : KeyMap V) (E : Int),
      (if n.2 = pbv then reverseLoop rest (f + (t - n.1)) n.1 (A ++ C1)
        else reverseLoop (n :: rest) f t (A ++ C1)) = (A ++ (X ++ C1), E)
      ∧ E = f + t - b.1 ∧ (∀ q ∈ X, q.1 < E) ∧ Changes pbv X ∧ lastVal pbv X = b.2 := by
    by_cases hskip : n.2 = pbv
    · have hrest : rest ≠ [] := by
        intro e
        rw [e] at hlast
        simp at hlast
        rw [hlast] at hskip
        exact hfirst hskip
      have hlast' : rest.getLast? = some b := by
        cases rest with
        | nil => exact absurd rfl hrest
        | cons m rest' => rw [List.getLast?_cons_cons] at hlast; exact hlast
      have hEe := revEnd_eq hlast' (f + (t - n.1)) n.1
      refine ⟨revNodes rest (f + (t - n.1)) n.1, revEnd rest (f + (t - n.1)) n.1, ?_, ?_, ?_, ?_,
        ?_⟩
      · rw [if_pos hskip]
        exact reverseLoop_eq hd _ _ hp A C1 (fun p hp' => by have := hA p hp'; omega)
          (fun q hq => by have := hC1 q hq; rw [hEe]; omega)
      · rw [hEe]; omega
      · intro q hq
        exact (mem_revNodes hd _ _ hp hq).2
      · rw [changes_revNodes, ← hskip]; exact hadj
      · rw [lastVal_revNodes]; exact lastVal_of_getLast? pbv hlast'
    · have hEe := revEnd_eq hlast f t
      refine ⟨revNodes (n :: rest) f t, revEnd (n :: rest) f t, ?_, hEe, ?_, ?_, ?_⟩
      · rw [if_neg hskip]
        exact reverseLoop_eq hdesc _ _ hprev A C1 hA
          (fun q hq => by have := hC1 q hq; rw [hEe]; omega)
      · intro q hq
        exact (mem_revNodes hdesc _ _ hprev hq).2
      · rw [changes_revNodes]; exact ⟨hskip, hadj⟩
      · rw [lastVal_revNodes]; exact lastVal_of_getLast? pbv hlast
  rw [hl]
  by_cases hex : f ≠ b.1
  · have hEt : E < t := by omega
    refine ⟨X ++ [(E, pbv)], ?_, ?_⟩
    · rw [if_pos (by simpa using hex)]
      have := emplace_split (L := A ++ X) (R := C1) (k := E) pbv
        (fun p hp' => by
          rcases List.mem_append.mp hp' with h | h
          · have := hA p h; omega
          · exact hXk p h)
        (fun q hq => by have := hC1 q hq; omega)
      simpa using this
    · rw [Changes.append, hXl]
      exact ⟨hXc, fun e => hfirst e.symm, trivial⟩
  · exact ⟨X, by rw [if_neg (by simpa using hex)], hXc⟩

/-- The map left by `reverseValues` on a map split as `A ++ ((b :: B) ++ C)`
around the clamped range `[f, t)`: its keys, the absence of a redundant entry,
and its last value. -/
theorem reverseValues_split_canonical [DecidableEq V] (s : compressedVector V)
    (fromArg toArg f t : Int) (A C : KeyMap V) (b : Int × V) (B : KeyMap V)
    (hs : s.m_map = A ++ ((b :: B) ++ C)) (hord : Ordered (A ++ ((b :: B) ++ C)))
    (hr : getValidRange s fromArg toArg = (f, t)) (hlt : f < t)
    (hA : ∀ p ∈ A, p.1 < f) (hB : ∀ p ∈ b :: B, f ≤ p.1 ∧ p.1 < t) (hC : ∀ p ∈ C, t ≤ p.1)
    (h5 : lastVal s.m_valBegin (A ++ ((b :: B) ++ C)) = s.m_valBegin)
    (hfirst : b.2 ≠ lastVal s.m_valBegin A)
    (hch : Changes s.m_valBegin (A ++ ((b :: B) ++ C))) :
    ∃ M, reverseValues s fromArg toArg = some { s with m_map := M }
      ∧ (∀ q ∈ M, q ∈ A ∨ q ∈ C ∨ (f ≤ q.1 ∧ q.1 ≤ t))
      ∧ Changes s.m_valBegin M ∧ lastVal s.m_valBegin M = s.m_valBegin := by
  have hne : f ≠ t := by omega
  have hBC : ∀ p ∈ (b :: B) ++ C, f ≤ p.1 := by
    intro p hp
    rcases List.mem_append.mp hp with hp | hp
    · exact (hB p hp).1
    · have := hC p hp; omega
  have hAB : ∀ p ∈ A ++ (b :: B), p.1 < t := by
    intro p hp
    rcases List.mem_append.mp hp with hp | hp
    · have := hA p hp; omega
    · exact (hB p hp).2
  have S1 : lowerBound (A ++ ((b :: B) ++ C)) f = mapBegin ((b :: B) ++ C) := lowerBound_split hA hBC
  have hord' : Ordered ((A ++ (b :: B)) ++ C) := by simpa using hord
  have S2 : lowerBound (A ++ ((b :: B) ++ C)) t = mapBegin C := by
    have := lowerBound_split hAB hC
    simpa using this
  have S3 := prevValue_split s.m_valBegin (L := A) (R := (b :: B) ++ C) hord
  have S4 : deref (A ++ ((b :: B) ++ C)) (mapBegin ((b :: B) ++ C)) = some b := by
    rw [deref_split hord]; rfl
  have hbc : mapBegin ((b :: B) ++ C) ≠ mapBegin C := by
    intro e
    have := (mapBegin_append_eq_iff hord.right).mp e
    cases this
  -- the absence of redundant entries, part by part
  obtain ⟨hchA, hchBC⟩ := Changes.append.mp hch
  obtain ⟨hchB, hchC⟩ := Changes.append.mp hchBC
  have hlB : lastVal (lastVal s.m_valBegin A) (b :: B) = lastVal s.m_valBegin (A ++ (b :: B)) :=
    (lastVal_append _ _ _).symm
  rw [hlB] at hchC
  -- the node emplaced at the range end
  obtain ⟨C1, S5, hC1, hord1, hnil, hlast1, hmemC1, hadjC1⟩ : ∃ C1 : KeyMap V,
      ((if mapBegin C ≠ none then
          (deref (A ++ ((b :: B) ++ C)) (mapBegin C)).bind fun e =>
            if t ≠ e.1 then
              (prevEntry (A ++ ((b :: B) ++ C)) (mapBegin C)).bind fun p =>
                pure (emplace (A ++ ((b :: B) ++ C)) t p.2, some t)
            else pure (A ++ ((b :: B) ++ C), mapBegin C)
        else pure (A ++ ((b :: B) ++ C), mapBegin C)) : Option (KeyMap V × Iter))
        = some (A ++ ((b :: B) ++ C1), mapBegin C1)
      ∧ (∀ q ∈ C1, t ≤ q.1) ∧ Ordered (A ++ ((b :: B) ++ C1)) ∧ (C = [] → C1 = [])
      ∧ (∀ w : V, lastVal w C1 = lastVal w C)
      ∧ (∀ q ∈ C1, q ∈ C ∨ q.1 = t)
      ∧ (∀ c1 r, C1 = c1 :: r → Changes c1.2 r) := by
    cases C with
    | nil =>
      exact ⟨[], by simp [mapBegin], hC, hord, fun _ => rfl, fun _ => rfl,
        fun q hq => Or.inl hq, fun c1 r h => absurd h.symm (List.cons_ne_nil _ _)⟩
    | cons c C' =>
      have hc := hC c (List.mem_cons_self _ _)
      have hd : deref (A ++ ((b :: B) ++ c :: C')) (mapBegin (c :: C')) = some c := by
        rw [← List.append_assoc, deref_split hord']; rfl
      rw [if_pos (by simp [mapBegin]), hd, Option.some_bind]
      by_cases hct : t ≠ c.1
      · have hpe : prevEntry (A ++ ((b :: B) ++ c :: C')) (mapBegin (c :: C'))
            = (A ++ (b :: B)).getLast? := by
          rw [← List.append_assoc, prevEntry_split hord']
        obtain ⟨p, hp⟩ : ∃ p, (A ++ (b :: B)).getLast? = some p := by
          cases hl : (A ++ (b :: B)).getLast? with
          | none => simp at hl
          | some p => exact ⟨p, rfl⟩
        have hpv : p.2 = lastVal s.m_valBegin (A ++ (b :: B)) := by
          unfold lastVal; rw [hp]
        have hem : emplace (A ++ ((b :: B) ++ c :: C')) t p.2
            = A ++ ((b :: B) ++ (t, p.2) :: c :: C') := by
          have := emplace_split (L := A ++ (b :: B)) (R := c :: C') (k := t) p.2 hAB
            (fun q hq => by have := hC q hq; rcases List.mem_cons.mp hq with rfl | hq'
                            · omega
                            · have := hord.right.right.head_lt q hq'; omega)
          simpa using this
        refine ⟨(t, p.2) :: c :: C', ?_, ?_, ?_, fun h => absurd h (List.cons_ne_nil _ _), ?_, ?_,
          ?_⟩
        · rw [if_pos hct, hpe, hp, Option.some_bind, hem]; rfl
        · intro q hq
          rcases List.mem_cons.mp hq with rfl | hq
          · exact le_refl _
          · exact hC q hq
        · rw [← hem]; exact emplace_ordered hord t p.2
        · intro w
          rw [lastVal_cons, lastVal_cons, lastVal_cons]
        · intro q hq
          rcases List.mem_cons.mp hq with rfl | hq
          · exact Or.inr rfl
          · exact Or.inl hq
        · intro c1 r h
          obtain ⟨rfl, rfl⟩ := List.cons.inj h
          show Changes p.2 (c :: C')
          rw [hpv]; exact hchC
      · refine ⟨c :: C', ?_, hC, hord, fun h => absurd h (List.cons_ne_nil _ _), fun _ => rfl,
          fun q hq => Or.inl hq, ?_⟩
        · rw [if_neg hct]; rfl
        · intro c1 r h
          obtain ⟨rfl, rfl⟩ := List.cons.inj h
          exact hchC.2
  have hmb : mapBegin ((b :: B) ++ C) = mapBegin ((b :: B) ++ C1) := rfl
  have S6 := eraseRange_split hord1
  have S7 := rangeOf_split hord1
  obtain ⟨n, rest, hrs⟩ : ∃ n rest, (b :: B).reverse = n :: rest := by
    cases hrv : (b :: B).reverse with
    | nil => simp at hrv
    | cons n rest => exact ⟨n, rest, rfl⟩
  have hite : ∀ (c : Prop) [Decidable c] (x y : KeyMap V × Int),
      (if c then some x else some y) = some (if c then x else y) := by
    intro c _ x y; split <;> rfl
  obtain ⟨X, S8, hX0, hXo, hXk, -⟩ := reverse_middle f t (lastVal s.m_valBegin A) A C1 b B n rest
    hrs hord.right.left hB hfirst hA hC1
  have hXc : Changes (lastVal s.m_valBegin A) X := by
    obtain ⟨X2, S8', hc2⟩ := reverse_middle_changes f t (lastVal s.m_valBegin A) A C1 b B n rest
      hrs hord.right.left hB hfirst hA hC1 hchB.2
    have e := List.append_cancel_right (List.append_cancel_left (S8.symm.trans S8'))
    rw [e]; exact hc2
  unfold reverseValues
  simp only [hr, hs]
  rw [if_neg (by simp [hne])]
  simp only [S1, S2, if_neg hbc, S3, S4, Option.bind_eq_bind, Option.some_bind]
  rw [S5]
  simp only [Option.some_bind, hmb, S6, S7, hrs, hite, S8]
  have hAX : ∀ p ∈ A ++ X, p.1 < t := by
    intro p hp
    rcases List.mem_append.mp hp with hp | hp
    · have := hA p hp; omega
    · exact (hXk p hp).2
  have hAXo : Ordered (A ++ X) :=
    ordered_append_of hord.left hXo (fun p hp q hq => by
      have := hA p hp; have := (hXk q hq).1; omega)
  have hordX : Ordered ((A ++ X) ++ C1) :=
    ordered_append_of hAXo hord1.right.right (fun p hp q hq => by
      have := hAX p hp; have := hC1 q hq; omega)
  have hAXne : A ++ X ≠ [] := by simp [hX0]
  have hAXc : Changes s.m_valBegin (A ++ X) := Changes.append.mpr ⟨hchA, hXc⟩
  obtain ⟨pl, hpl⟩ : ∃ p, (A ++ X).getLast? = some p := by
    cases hl : (A ++ X).getLast? with
    | none => simp [hX0] at hl
    | some p => exact ⟨p, rfl⟩
  have hplv : pl.2 = lastVal s.m_valBegin (A ++ X) := by
    unfold lastVal; rw [hpl]
  -- the node at the range end is erased when its value equals the value before it
  obtain ⟨m4, S9, hm4k, hm4c, hm4l, hm4nil, hm4ne⟩ : ∃ m4 : KeyMap V,
      ((if mapBegin C1 ≠ none then
          (deref (A ++ (X ++ C1)) (mapBegin C1)).bind fun a =>
            (prevEntry (A ++ (X ++ C1)) (mapBegin C1)).bind fun a_1 =>
              if a.2 = a_1.2 then eraseAt (A ++ (X ++ C1)) (mapBegin C1)
              else pure (A ++ (X ++ C1))
        else pure (A ++ (X ++ C1))) : Option (KeyMap V))
        = some m4
      ∧ (∀ q ∈ m4, q ∈ A ∨ q ∈ X ∨ q ∈ C1)
      ∧ Changes s.m_valBegin m4
      ∧ lastVal s.m_valBegin m4 = lastVal s.m_valBegin ((A ++ X) ++ C1)
      ∧ (C1 = [] → m4 = A ++ X) ∧ m4 ≠ [] := by
    rw [← List.append_assoc]
    cases C1 with
    | nil =>
      refine ⟨A ++ X, by simp [mapBegin], ?_, hAXc, by simp, fun _ => rfl, hAXne⟩
      intro q hq
      rcases List.mem_append.mp hq with h | h
      · exact Or.inl h
      · exact Or.inr (Or.inl h)
    | cons c1 C1' =>
      have hadj := hadjC1 c1 C1' rfl
      rw [if_pos (by simp [mapBegin]), deref_split hordX, prevEntry_split hordX, hpl]
      simp only [List.head?_cons, Option.some_bind]
      by_cases hdup : c1.2 = pl.2
      · refine ⟨(A ++ X) ++ C1', ?_, ?_, ?_, ?_, fun h => absurd h (List.cons_ne_nil _ _), ?_⟩
        · rw [if_pos hdup]; exact eraseAt_split hordX
        · intro q hq
          rcases List.mem_append.mp hq with h | h
          · rcases List.mem_append.mp h with h | h
            · exact Or.inl h
            · exact Or.inr (Or.inl h)
          · exact Or.inr (Or.inr (List.mem_cons_of_mem _ h))
        · refine Changes.append.mpr ⟨hAXc, ?_⟩
          rw [← hplv, ← hdup]; exact hadj
        · rw [lastVal_append_cons, lastVal_append, ← hplv, hdup]
        · simp [hX0]
      · refine ⟨(A ++ X) ++ c1 :: C1', ?_, ?_, ?_, rfl,
          fun h => absurd h (List.cons_ne_nil _ _), by simp⟩
        · rw [if_neg hdup]; rfl
        · intro q hq
          rcases List.mem_append.mp hq with h | h
          · rcases List.mem_append.mp h with h | h
            · exact Or.inl h
            · exact Or.inr (Or.inl h)
          · exact Or.inr (Or.inr h)
        · refine Changes.append.mpr ⟨hAXc, ?_, hadj⟩
          rw [← hplv]; exact hdup
  obtain ⟨last, hlast⟩ : ∃ p, m4.getLast? = some p := by
    cases hl : m4.getLast? with
    | none => simp at hl; exact absurd hl hm4ne
    | some p => exact ⟨p, rfl⟩
  have hlastv : last.2 = lastVal s.m_valBegin m4 := by
    unfold lastVal; rw [hlast]
  rw [S9]
  simp only [Option.some_bind, hlast]
  have hkeys : ∀ q ∈ m4, q ∈ A ∨ q ∈ C ∨ (f ≤ q.1 ∧ q.1 ≤ t) := by
    intro q hq
    rcases hm4k q hq with h | h | h
    · exact Or.inl h
    · exact Or.inr (Or.inr ⟨(hXk q h).1, le_of_lt (hXk q h).2⟩)
    · rcases hmemC1 q h with h' | h'
      · exact Or.inr (Or.inl h')
      · exact Or.inr (Or.inr ⟨by omega, by omega⟩)
  by_cases hCnil : C = []
  · have hC1nil := hnil hCnil
    have hm4 := hm4nil hC1nil
    subst hCnil
    subst hC1nil
    by_cases hterm : last.2 ≠ s.m_valBegin
    · have hem : emplace m4 t s.m_valBegin = m4 ++ [(t, s.m_valBegin)] := by
        rw [hm4]; exact emplace_end _ hAX
      refine ⟨m4 ++ [(t, s.m_valBegin)], by rw [if_pos hterm, hem]; rfl, ?_, ?_, ?_⟩
      · intro q hq
        rcases List.mem_append.mp hq with h | h
        · exact hkeys q h
        · simp at h; rw [h]; exact Or.inr (Or.inr ⟨le_of_lt hlt, le_refl _⟩)
      · refine Changes.append.mpr ⟨hm4c, ?_, trivial⟩
        rw [← hlastv]; exact fun e => hterm e.symm
      · rw [lastVal_append, lastVal_cons, lastVal_nil]
    · refine ⟨m4, by rw [if_neg hterm]; rfl, hkeys, hm4c, ?_⟩
      rw [← hlastv]; exact not_not.mp hterm
  · obtain ⟨c, C', rfl⟩ : ∃ c C', C = c :: C' := by
      cases C with
      | nil => exact absurd rfl hCnil
      | cons c C' => exact ⟨c, C', rfl⟩
    have hbg : last.2 = s.m_valBegin := by
      rw [hlastv, hm4l, lastVal_append, hlast1, ← h5, ← List.append_assoc,
        lastVal_append_cons, lastVal_cons]
    refine ⟨m4, by rw [if_neg (not_not.mpr hbg)]; rfl, hkeys, hm4c, ?_⟩
    rw [← hlastv]; exact hbg

/-- The clamped range of a structure with `minIndex < maxIndex` is either empty
or a part of the domain. -/
theorem getValidRange_bounds (s : compressedVector V) (fromArg toArg f t : Int)
    (h1 : s.minIndex < s.maxIndex) (hr : getValidRange s fromArg toArg = (f, t)) :
    f = t ∨ (f < t ∧ s.minIndex ≤ f ∧ t ≤ s.maxIndex) := by
  unfold getValidRange at hr
  split_ifs at hr <;> simp only [Prod.mk.injEq] at hr <;> omega

/-- On a structure satisfying I1 to I5 and a non-empty clamped range,
`reverseValues` returns a structure that satisfies I1 to I5 again, with the
values of the range mirrored. -/
theorem reverseValues_canonical [DecidableEq V] (s : compressedVector V)
    (fromArg toArg f t : Int)
    (h : Canonical s) (hr : getValidRange s fromArg toArg = (f, t)) (hlt : f < t) :
    ∃ s', reverseValues s fromArg toArg = some s'
      ∧ s'.minIndex = s.minIndex ∧ s'.maxIndex = s.maxIndex ∧ s'.m_valBegin = s.m_valBegin
      ∧ Canonical s'
      ∧ (∀ x, f ≤ x → x < t → operatorAt s' (f + t - 1 - x) = operatorAt s x)
      ∧ (∀ x, ¬ (f ≤ x ∧ x < t) → operatorAt s' x = operatorAt s x) := by
  have hord := h.1
  have hbd : s.minIndex ≤ f ∧ t ≤ s.maxIndex := by
    rcases getValidRange_bounds s fromArg toArg f t h.2.1 hr with e | e
    · omega
    · exact e.2
  obtain ⟨A, B, C, hs, hA, hB, hC⟩ := hord.split3 f t
  have h5 := h.lastVal_eq
  have hch := changes_of_canonical h
  rw [hs] at h5 hord hch
  cases B with
  | nil =>
    refine ⟨s, ?_, rfl, rfl, rfl, h, ?_, fun _ _ => rfl⟩
    · unfold reverseValues
      simp only [hr, hs]
      by_cases he : (f = t ∨ (A ++ ([] ++ C)).isEmpty = true)
      · rw [if_pos he]
      · rw [if_neg he]
        have S1 : lowerBound (A ++ ([] ++ C)) f = mapBegin C :=
          lowerBound_split hA (fun p hp => by have := hC p (by simpa using hp); omega)
        have S2 : lowerBound (A ++ ([] ++ C)) t = mapBegin C :=
          lowerBound_split (fun p hp => by have := hA p hp; omega)
            (fun p hp => hC p (by simpa using hp))
        simp only [S1, S2, if_true]
    · intro x hx1 hx2
      rw [operatorAt_eq_valAt s h.1, operatorAt_eq_valAt s h.1, hs]
      simp only [List.nil_append]
      rw [valAt_append, valAt_append,
        valAt_of_forall_gt (m := C) _ (fun p hp => by have := hC p hp; omega),
        valAt_of_forall_gt (m := C) _ (fun p hp => by have := hC p hp; omega),
        valAt_of_forall_le (m := A) _ (fun p hp => by have := hA p hp; omega),
        valAt_of_forall_le (m := A) _ (fun p hp => by have := hA p hp; omega)]
  | cons b B =>
    have hfirst : b.2 ≠ lastVal s.m_valBegin A := by
      have := (Changes.append.mp hch).2
      exact this.1
    obtain ⟨M, hM, hMo, hin, hout⟩ :=
      reverseValues_split s fromArg toArg f t A C b B hs hord hr hlt hA hB hC h5 hfirst
    obtain ⟨M2, hM2, hk, hc, hl⟩ :=
      reverseValues_split_canonical s fromArg toArg f t A C b B hs hord hr hlt hA hB hC h5
        hfirst hch
    have hMM : M2 = M := by
      have e := Option.some.inj (hM2.symm.trans hM)
      exact congrArg compressedVector.m_map e
    rw [hMM] at hk hc hl
    refine ⟨{ s with m_map := M }, hM, rfl, rfl, rfl, ?_, ?_, ?_⟩
    · refine canonical_of_changes _ hMo h.2.1 ?_ hc hl
      intro q hq
      have hin' : ∀ p ∈ A ++ ((b :: B) ++ C), s.minIndex ≤ p.1 ∧ p.1 ≤ s.maxIndex := by
        intro p hp; exact h.2.2.1 p (by rw [hs]; exact hp)
      rcases hk q hq with hq' | hq' | hq'
      · exact hin' q (List.mem_append_left _ hq')
      · exact hin' q (List.mem_append_right _ (List.mem_append_right _ hq'))
      · show s.minIndex ≤ q.1 ∧ q.1 ≤ s.maxIndex
        omega
    · intro x hx1 hx2
      rw [operatorAt_eq_valAt _ hMo, operatorAt_eq_valAt s h.1, hs]
      exact hin x hx1 hx2
    · intro x hx
      rw [operatorAt_eq_valAt _ hMo, operatorAt_eq_valAt s h.1, hs]
      exact hout x hx

/-- For every non-empty sequence, start index and background value,
`uncompressToVector()` over the full domain of `compress(s, startIndex,
background)` returns the sequence itself.  The sequence, a contiguous buffer of
values, is no longer than the largest vector (`max_size()`). -/
theorem compress_uncompress_nonempty [DecidableEq V] (zero : V) (toKey : V → Int) (maxSize : Nat)
    (buffer : List V) (startIndex : Int) (initValue : V) (hne : buffer ≠ [])
    (hsize : buffer.length ≤ maxSize) :
    ∃ c, compress zero toKey buffer startIndex initValue = some c
      ∧ uncompressToVector maxSize c c.minIndex c.maxIndex = some buffer := by
  cases buffer with
  | nil => exact absurd rfl hne
  | cons x rest =>
    obtain ⟨n, more, e, hn, hg, hex⟩ := detectRuns_spec rest x 1 (by omega)
    have hlen : totalLength ((x, n) :: more) = (x :: rest).length := by
      rw [← length_expandRuns, hex]; simp
    obtain ⟨c, hc, hu⟩ := uncompress_fromRuns maxSize startIndex initValue x n more hn hg
      (by rw [hlen]; exact hsize)
    refine ⟨c, by simp only [compress]; rw [e]; exact hc, ?_⟩
    rw [hu, hex]; rfl

theorem setValue_split {L R : KeyMap V} {r : Int × V} (h : Ordered (L ++ r :: R)) (v : V) :
    setValue (L ++ r :: R) r.1 v = L ++ (r.1, v) :: R := by
  unfold setValue
  rw [List.map_append, List.map_cons, if_pos rfl]
  have hL : L.map (fun p => if p.1 = r.1 then (p.1, v) else p) = L := by
    conv_rhs => rw [← List.map_id L]
    apply List.map_congr_left
    intro p hp
    have := h.lt_of_append p hp r (List.mem_cons_self _ _)
    rw [if_neg (by omega)]; rfl
  have hR : R.map (fun p => if p.1 = r.1 then (p.1, v) else p) = R := by
    conv_rhs => rw [← List.map_id R]
    apply List.map_congr_left
    intro p hp
    have := h.right.head_lt p hp
    rw [if_neg (by omega)]; rfl
  rw [hL, hR]

theorem prevValue_split_eq [DecidableEq V] (bg : V) {L R : KeyMap V} (h : Ordered (L ++ R)) :
    (if mapBegin R = mapBegin (L ++ R) then pure bg
      else (prevEntry (L ++ R) (mapBegin R)).map (fun p => p.2)) = some (lastVal bg L) := by
  have := prevValue_split bg h
  by_cases e : mapBegin R = mapBegin (L ++ R)
  · rw [if_pos e]; rw [if_neg (not_not.mpr e)] at this; exact this
  · rw [if_neg e]; rw [if_pos e] at this; exact this

/-- The adjustment `if ( itBegin->first < from ) ++itBegin` on the node where
the backward walk stops gives `lower_bound(from)`. -/
theorem adjust_lowerBound (f : Int) {L : KeyMap V} {n : Int × V} {T : KeyMap V}
    (hord : Ordered (L ++ n :: T)) (hT : ∀ q ∈ T, f < q.1) (hL : ∀ p ∈ L, p.1 < f) :
    (if n.1 < f then nextIt (L ++ n :: T) (some n.1) else pure (some n.1))
      = some (lowerBound (L ++ n :: T) f) := by
  by_cases hn : n.1 < f
  · rw [if_pos hn, nextIt_split hord]
    have e : L ++ n :: T = (L ++ [n]) ++ T := by simp
    rw [e, lowerBound_split (k := f)]
    · intro p hp
      rcases List.mem_append.mp hp with hp | hp
      · exact hL p hp
      · simp at hp; rw [hp]; exact hn
    · intro q hq; exact le_of_lt (hT q hq)
  · rw [if_neg hn, lowerBound_split (k := f) hL]
    · rfl
    · intro q hq
      rcases List.mem_cons.mp hq with rfl | hq
      · omega
      · exact le_of_lt (hT q hq)

/-- The backward walk of `assignValue` from a node after which every key is
greater than `from`, followed by the adjustment, ends on `lower_bound(from)`. -/
theorem walkBack_lowerBound (f : Int) (fuel : Nat) :
    ∀ (L : KeyMap V) (n : Int × V) (T : KeyMap V),
      Ordered (L ++ n :: T) → (∀ q ∈ T, f < q.1) → L.length < fuel →
      ∃ it1 e1, walkBack (L ++ n :: T) f fuel (some n.1) = some it1
        ∧ deref (L ++ n :: T) it1 = some e1
        ∧ (if e1.1 < f then nextIt (L ++ n :: T) it1 else pure it1)
            = some (lowerBound (L ++ n :: T) f) := by
  induction fuel with
  | zero => intro L n T _ _ h; omega
  | succ k ih =>
    intro L n T hord hT hfuel
    have hd : deref (L ++ n :: T) (some n.1) = some n := deref_split (R := n :: T) hord
    rcases List.eq_nil_or_concat L with rfl | ⟨L', l, rfl⟩
    · refine ⟨some n.1, n, ?_, hd, adjust_lowerBound f hord hT (fun p hp => by cases hp)⟩
      simp [walkBack, mapBegin]
    · rw [List.concat_eq_append] at hord hfuel hd ⊢
      have hnb : some n.1 ≠ mapBegin (L' ++ [l] ++ n :: T) := by
        intro e
        have := (mapBegin_eq_iff (L := L' ++ [l]) (R := n :: T) hord).mp e
        simp at this
      by_cases hlt : f < n.1
      · have e : L' ++ [l] ++ n :: T = L' ++ l :: n :: T := by simp
        have hord' : Ordered (L' ++ l :: n :: T) := by rw [← e]; exact hord
        obtain ⟨it1, e1, hw, hd1, hn1⟩ := ih L' l (n :: T) hord'
          (fun q hq => by
            rcases List.mem_cons.mp hq with rfl | hq
            · exact hlt
            · exact hT q hq)
          (by simp at hfuel; omega)
        have hp : prevIt (L' ++ [l] ++ n :: T) (some n.1) = some (some l.1) := by
          unfold prevIt
          have hpe := prevEntry_split (R := n :: T) hord
          rw [show mapBegin (n :: T) = some n.1 from rfl] at hpe
          rw [hpe]
          simp
        refine ⟨it1, e1, ?_, by rw [e]; exact hd1, by rw [e]; exact hn1⟩
        rw [walkBack, if_neg hnb, hd]
        simp only [if_pos hlt, hp]
        rw [e]; exact hw
      · refine ⟨some n.1, n, ?_, hd, adjust_lowerBound f hord hT ?_⟩
        · rw [walkBack, if_neg hnb, hd]
          simp only [if_neg hlt]
        · intro p hp
          have := hord.lt_of_append p hp n (List.mem_cons_self _ _)
          omega

theorem assignEnd_nil [DecidableEq V] (t : Int) (v pB : V) :
    assignEnd t v pB [] = if v ≠ pB then [(t, pB)] else [] := rfl

theorem assignEnd_cons [DecidableEq V] (t : Int) (v pB : V) (c : Int × V) (C : KeyMap V) :
    assignEnd t v pB (c :: C) = if t < c.1 ∧ v ≠ pB then (t, pB) :: c :: C else c :: C := rfl

theorem dropEqual_cons [DecidableEq V] (v : V) (c : Int × V) (r : KeyMap V) :
    dropEqual v (c :: r) = if c.2 = v then r else c :: r := rfl

theorem assignEnd_ge [DecidableEq V] {t : Int} (v pB : V) {C : KeyMap V} (hC : ∀ p ∈ C, t ≤ p.1) :
    ∀ q ∈ assignEnd t v pB C, t ≤ q.1 := by
  intro q hq
  cases C with
  | nil =>
    rw [assignEnd_nil] at hq
    split at hq
    · simp at hq; rw [hq]
    · cases hq
  | cons c C' =>
    rw [assignEnd_cons] at hq
    split at hq
    · rcases List.mem_cons.mp hq with rfl | hq
      · exact le_refl _
      · exact hC q hq
    · exact hC q hq

theorem assignEnd_ordered [DecidableEq V] {t : Int} (v pB : V) {C : KeyMap V} (h : Ordered C) :
    Ordered (assignEnd t v pB C) := by
  cases C with
  | nil =>
    rw [assignEnd_nil]
    split
    · exact List.pairwise_singleton _ _
    · exact List.Pairwise.nil
  | cons c C' =>
    rw [assignEnd_cons]
    split
    · rename_i hc
      refine List.pairwise_cons.mpr ⟨?_, h⟩
      intro q hq
      rcases List.mem_cons.mp hq with rfl | hq
      · exact hc.1
      · have := h.head_lt q hq
        have := hc.1
        show t < q.1
        omega
    · exact h

theorem dropEqual_mem [DecidableEq V] (v : V) {C : KeyMap V} {q : Int × V}
    (hq : q ∈ dropEqual v C) : q ∈ C := by
  cases C with
  | nil => exact hq
  | cons c r =>
    rw [dropEqual_cons] at hq
    split at hq
    · exact List.mem_cons_of_mem _ hq
    · exact hq

theorem assignEnd_eq_nil [DecidableEq V] {t : Int} {v pB : V} {C : KeyMap V}
    (h : assignEnd t v pB C = []) : C = [] ∧ v = pB := by
  cases C with
  | nil =>
    rw [assignEnd_nil] at h
    by_cases hv : v ≠ pB
    · rw [if_pos hv] at h; cases h
    · exact ⟨rfl, not_not.mp hv⟩
  | cons c C' =>
    rw [assignEnd_cons] at h
    split at h <;> cases h

theorem stop_erase [DecidableEq V] (v : V) {L M C1 : KeyMap V} (h : Ordered (L ++ (M ++ C1))) :
    ∃ stop, ((if mapBegin C1 ≠ none then
          (deref (L ++ (M ++ C1)) (mapBegin C1)).bind fun e =>
            if e.2 = v then nextIt (L ++ (M ++ C1)) (mapBegin C1) else pure (mapBegin C1)
        else pure (mapBegin C1)) : Option Iter) = some stop
      ∧ eraseRange (L ++ (M ++ C1)) (mapBegin (M ++ C1)) stop = some (L ++ dropEqual v C1) := by
  cases C1 with
  | nil =>
    refine ⟨none, by simp [mapBegin], ?_⟩
    rw [eraseRange_to_end h]
    simp [dropEqual]
  | cons c1 r =>
    have h' : Ordered ((L ++ M) ++ c1 :: r) := by simpa using h
    have hd : deref (L ++ (M ++ c1 :: r)) (mapBegin (c1 :: r)) = some c1 := by
      rw [← List.append_assoc, deref_split h']; rfl
    rw [if_pos (by simp [mapBegin]), hd, Option.some_bind]
    by_cases hv : c1.2 = v
    · refine ⟨mapBegin r, ?_, ?_⟩
      · rw [if_pos hv]
        have := nextIt_split h'
        rw [List.append_assoc] at this
        exact this
      · have e : L ++ (M ++ c1 :: r) = L ++ ((M ++ [c1]) ++ r) := by simp
        have e2 : mapBegin (M ++ c1 :: r) = mapBegin ((M ++ [c1]) ++ r) := by simp
        rw [e2, e, eraseRange_split (by rw [← e]; exact h)]
        simp [dropEqual, hv]
    · refine ⟨mapBegin (c1 :: r), by rw [if_neg hv]; rfl, ?_⟩
      rw [eraseRange_split h]
      simp [dropEqual, hv]

theorem assignValueWith_split [DecidableEq V] (endKey : Int) (s : compressedVector V)
    (fromArg toArg f t : Int) (v : V) (A B C : KeyMap V)
    (hs : s.m_map = A ++ (B ++ C)) (hord : Ordered (A ++ (B ++ C)))
    (hr : getValidRange s fromArg toArg = (f, t)) (hlt : f < t)
    (hA : ∀ p ∈ A, p.1 < f) (hB : ∀ p ∈ B, f ≤ p.1 ∧ p.1 < t) (hC : ∀ p ∈ C, t ≤ p.1)
    (h5 : lastVal s.m_valBegin (A ++ (B ++ C)) = s.m_valBegin)
    (hne : A ++ (B ++ C) ≠ []) :
    assignValueWith endKey s fromArg toArg v = some { s with m_map :=
      A ++ ((if v ≠ lastVal s.m_valBegin A then [(f, v)] else [])
        ++ dropEqual v (assignEnd t v (lastVal s.m_valBegin (A ++ B)) C)) } := by
  have hft : f ≠ t := by omega
  have hAB : ∀ p ∈ A ++ B, p.1 < t := by
    intro p hp
    rcases List.mem_append.mp hp with hp | hp
    · have := hA p hp; omega
    · exact (hB p hp).2
  have hord' : Ordered ((A ++ B) ++ C) := by simpa using hord
  have S2 : lowerBound (A ++ (B ++ C)) t = mapBegin C := by
    have := lowerBound_split hAB hC
    simpa using this
  have hemp : (A ++ (B ++ C)).isEmpty = false := by
    cases h : A ++ (B ++ C) with
    | nil => exact absurd h hne
    | cons _ _ => rfl
  unfold assignValueWith
  simp only [hr, hs]
  rw [if_neg hft]
  simp only [hemp, S2, Bool.false_eq_true, if_false, Option.bind_eq_bind]
  -- the first part: the node at the range end
  obtain ⟨C1, it0, S5, hC1def, L, n, T, hLT, hit0, hT⟩ : ∃ (C1 : KeyMap V) (it0 : Iter),
      ((if mapBegin C = none then
          (prevIt
                (if v ≠ s.m_valBegin then (emplace (A ++ (B ++ C)) t s.m_valBegin, some t)
                  else (A ++ (B ++ C), mapBegin C)).1
                (if v ≠ s.m_valBegin then (emplace (A ++ (B ++ C)) t s.m_valBegin, some t)
                  else (A ++ (B ++ C), mapBegin C)).2).bind
            fun itBegin =>
            pure
              ((if v ≠ s.m_valBegin then (emplace (A ++ (B ++ C)) t s.m_valBegin, some t)
                  else (A ++ (B ++ C), mapBegin C)).1,
                itBegin,
                (if v ≠ s.m_valBegin then (emplace (A ++ (B ++ C)) t s.m_valBegin, some t)
                  else (A ++ (B ++ C), mapBegin C)).2)
        else
          if mapBegin C = mapBegin (A ++ (B ++ C)) then
            (deref (A ++ (B ++ C)) (mapBegin C)).bind fun e =>
              if t < e.1 ∧ v ≠ s.m_valBegin then
                pure (emplace (A ++ (B ++ C)) t s.m_valBegin, some t, some t)
              else pure (A ++ (B ++ C), mapBegin C, mapBegin C)
          else
            (prevEntry (A ++ (B ++ C)) (mapBegin C)).bind fun prevItEnd =>
              (deref (A ++ (B ++ C)) (mapBegin C)).bind fun e =>
                if t < e.1 ∧ v ≠ prevItEnd.2 then
                  pure (emplace (A ++ (B ++ C)) t prevItEnd.2, some t, some t)
                else pure (A ++ (B ++ C), mapBegin C, mapBegin C)) :
          Option (KeyMap V × Iter × Iter))
        = some (A ++ (B ++ C1), it0, mapBegin C1)
      ∧ C1 = assignEnd t v (lastVal s.m_valBegin (A ++ B)) C
      ∧ ∃ (L : KeyMap V) (n : Int × V) (T : KeyMap V),
          A ++ (B ++ C1) = L ++ n :: T ∧ it0 = some n.1 ∧ ∀ q ∈ T, f < q.1 := by
    cases C with
    | nil =>
      have hAB0 : A ++ B ≠ [] := by simpa using hne
      obtain ⟨L, l, hL⟩ : ∃ L l, A ++ B = L ++ [l] := by
        rcases List.eq_nil_or_concat (A ++ B) with e | ⟨L, l, e⟩
        · exact absurd e hAB0
        · exact ⟨L, l, by rw [e, List.concat_eq_append]⟩
      have hpB : lastVal s.m_valBegin (A ++ B) = s.m_valBegin := by simpa using h5
      rw [if_pos (show mapBegin ([] : KeyMap V) = none from rfl)]
      by_cases hv : v ≠ s.m_valBegin
      · simp only [if_pos hv]
        have hem : emplace (A ++ (B ++ [])) t s.m_valBegin = (A ++ B) ++ [(t, s.m_valBegin)] := by
          rw [List.append_nil]; exact emplace_end _ hAB
        have ho : Ordered ((A ++ B) ++ [(t, s.m_valBegin)]) := by
          rw [← hem]; exact emplace_ordered hord _ _
        have hp : prevIt ((A ++ B) ++ [(t, s.m_valBegin)]) (some t) = some (some l.1) := by
          unfold prevIt
          have := prevEntry_split ho
          rw [show mapBegin [(t, s.m_valBegin)] = some t from rfl] at this
          rw [this, hL]; simp
        refine ⟨[(t, s.m_valBegin)], some l.1, ?_, ?_, L, l, [(t, s.m_valBegin)], ?_, rfl, ?_⟩
        · rw [hem, hp]; simp [mapBegin]
        · rw [hpB]; simp [assignEnd, hv]
        · rw [← List.append_assoc, hL]; simp
        · intro q hq; simp at hq; rw [hq]; exact hlt
      · simp only [if_neg hv]
        have hp : prevIt (A ++ (B ++ [])) (mapBegin ([] : KeyMap V)) = some (some l.1) := by
          unfold prevIt
          rw [show mapBegin ([] : KeyMap V) = none from rfl, prevEntry_none, List.append_nil, hL]
          simp
        refine ⟨[], some l.1, ?_, ?_, L, l, [], ?_, rfl, ?_⟩
        · rw [hp]; rfl
        · rw [hpB]; simp [assignEnd, hv]
        · rw [← List.append_assoc, hL]; simp
        · intro q hq; cases hq
    | cons c C' =>
      have hc := hC c (List.mem_cons_self _ _)
      have hd : deref (A ++ (B ++ c :: C')) (mapBegin (c :: C')) = some c := by
        rw [← List.append_assoc, deref_split hord']; rfl
      have key : ∀ w : V, w = lastVal s.m_valBegin (A ++ B) →
          ∃ (C1 : KeyMap V) (it0 : Iter),
            ((if t < c.1 ∧ v ≠ w then pure (emplace (A ++ (B ++ c :: C')) t w, some t, some t)
              else pure (A ++ (B ++ c :: C'), mapBegin (c :: C'), mapBegin (c :: C'))) :
                Option (KeyMap V × Iter × Iter))
              = some (A ++ (B ++ C1), it0, mapBegin C1)
            ∧ C1 = assignEnd t v (lastVal s.m_valBegin (A ++ B)) (c :: C')
            ∧ ∃ (L : KeyMap V) (n : Int × V) (T : KeyMap V),
                A ++ (B ++ C1) = L ++ n :: T ∧ it0 = some n.1 ∧ ∀ q ∈ T, f < q.1 := by
        intro w hw
        by_cases hcond : t < c.1 ∧ v ≠ w
        · have hem : emplace (A ++ (B ++ c :: C')) t w = A ++ (B ++ (t, w) :: c :: C') := by
            have := emplace_split (L := A ++ B) (R := c :: C') (k := t) w hAB
              (fun q hq => by
                rcases List.mem_cons.mp hq with rfl | hq'
                · exact hcond.1
                · have := hord.right.right.head_lt q hq'; omega)
            simpa using this
          refine ⟨(t, w) :: c :: C', some t, ?_, ?_, A ++ B, (t, w), c :: C', by simp, rfl, ?_⟩
          · rw [if_pos hcond, hem]; rfl
          · rw [← hw]; simp [assignEnd, hcond]
          · intro q hq; have := hC q hq; omega
        · refine ⟨c :: C', some c.1, ?_, ?_, A ++ B, c, C', by simp, rfl, ?_⟩
          · rw [if_neg hcond]; rfl
          · rw [← hw]; simp [assignEnd, hcond]
          · intro q hq
            have := hord.right.right.head_lt q hq
            omega
      rw [if_neg (by simp [mapBegin]), hd]
      by_cases hAB0 : A ++ B = []
      · have e0 : mapBegin (c :: C') = mapBegin (A ++ (B ++ c :: C')) := by
          rw [← List.append_assoc]; exact (mapBegin_eq_iff hord').mpr hAB0
        rw [if_pos e0, Option.some_bind]
        exact key s.m_valBegin (by rw [hAB0]; rfl)
      · have e0 : ¬ mapBegin (c :: C') = mapBegin (A ++ (B ++ c :: C')) := by
          rw [← List.append_assoc]; exact fun e => hAB0 ((mapBegin_eq_iff hord').mp e)
        obtain ⟨p, hp⟩ : ∃ p, (A ++ B).getLast? = some p := by
          cases hl : (A ++ B).getLast? with
          | none => simp at hl; exact absurd (by simp [hl]) hAB0
          | some p => exact ⟨p, rfl⟩
        have hpe : prevEntry (A ++ (B ++ c :: C')) (mapBegin (c :: C')) = some p := by
          rw [← List.append_assoc, prevEntry_split hord', hp]
        rw [if_neg e0, hpe, Option.some_bind, Option.some_bind]
        exact key p.2 (by unfold lastVal; rw [hp])
  rw [S5]
  simp only [Option.some_bind]
  have hC1 : ∀ q ∈ C1, t ≤ q.1 := by rw [hC1def]; exact assignEnd_ge _ _ hC
  have hBC1 : ∀ q ∈ B ++ C1, f ≤ q.1 := by
    intro q hq
    rcases List.mem_append.mp hq with hq | hq
    · exact (hB q hq).1
    · have := hC1 q hq; omega
  have hord1 : Ordered (A ++ (B ++ C1)) := by
    rw [← List.append_assoc]
    refine ordered_append_of hord'.left ?_ ?_
    · rw [hC1def]; exact assignEnd_ordered _ _ hord'.right
    · intro p hp q hq
      have := hAB p hp; have := hC1 q hq; omega
  -- the backward walk ends on `lower_bound(from)`
  obtain ⟨it1, e1, hw, hd1, hn1⟩ := walkBack_lowerBound f ((L ++ n :: T).length + 1) L n T
    (by rw [← hLT]; exact hord1) hT (by simp; omega)
  rw [← hLT] at hw hd1 hn1
  rw [← hit0] at hw
  rw [lowerBound_split hA hBC1] at hn1
  simp only [hw, hd1, hn1, Option.some_bind, prevValue_split_eq s.m_valBegin hord1]
  rw [← hC1def]
  have hD : ∀ q ∈ dropEqual v C1, f < q.1 := fun q hq => by
    have := hC1 q (dropEqual_mem v hq); omega
  obtain ⟨stop, hstop, herase⟩ := stop_erase v (L := A) (M := B) hord1
  have hem : emplace (A ++ dropEqual v C1) f v = A ++ (f, v) :: dropEqual v C1 :=
    emplace_split v hA hD
  simp only [hstop, herase, Option.some_bind, hem]
  by_cases hv : v ≠ lastVal s.m_valBegin A
  · simp only [if_pos hv]
    obtain ⟨h, rest, hR⟩ : ∃ h rest, B ++ C1 = h :: rest := by
      cases hR : B ++ C1 with
      | nil =>
        exfalso
        obtain ⟨hB0, hC10⟩ := List.append_eq_nil.mp hR
        rw [hC10] at hC1def
        obtain ⟨-, hvB⟩ := assignEnd_eq_nil hC1def.symm
        rw [hB0, List.append_nil] at hvB
        exact hv hvB
      | cons h rest => exact ⟨h, rest, rfl⟩
    have hdR : deref (A ++ (B ++ C1)) (mapBegin (B ++ C1)) = some h := by
      rw [deref_split hord1, hR]; rfl
    have hbn : mapBegin (B ++ C1) ≠ none := by rw [hR]; simp [mapBegin]
    simp only [if_neg hbn, hdR, Option.map_some', Option.some_bind]
    by_cases hk : f < h.1
    · simp only [if_pos hk]
      rfl
    · simp only [if_neg hk]
      obtain ⟨B', hB'⟩ : ∃ B', B = h :: B' := by
        cases B with
        | nil =>
          exfalso
          have := hC1 h (by rw [List.nil_append] at hR; rw [hR]; exact List.mem_cons_self _ _)
          omega
        | cons b B' =>
          rw [List.cons_append] at hR
          exact ⟨B', by rw [(List.cons.inj hR).1]⟩
      subst hB'
      have hf : h.1 = f := by
        have := (hB h (List.mem_cons_self _ _)).1
        omega
      have hord2 : Ordered (A ++ h :: (B' ++ C1)) := hord1
      have hnx : nextIt (A ++ (h :: B' ++ C1)) (mapBegin (h :: B' ++ C1))
          = some (mapBegin (B' ++ C1)) := nextIt_split hord2
      have hsv : setValue (A ++ (h :: B' ++ C1)) h.1 v = (A ++ [(h.1, v)]) ++ (B' ++ C1) := by
        have := setValue_split hord2 v
        simpa using this
      have hord3 : Ordered ((A ++ [(h.1, v)]) ++ (B' ++ C1)) := by
        have e : (A ++ [(h.1, v)]) ++ (B' ++ C1) = A ++ (h.1, v) :: (B' ++ C1) := by simp
        rw [e]
        refine ordered_append_of hord2.left ?_ ?_
        · exact List.pairwise_cons.mpr ⟨hord2.right.head_lt, hord2.right.tail⟩
        · intro p hp q hq
          have hp1 := hA p hp
          rcases List.mem_cons.mp hq with rfl | hq
          · show p.1 < h.1
            omega
          · have := hord2.right.head_lt q hq
            omega
      obtain ⟨stop2, hstop2, herase2⟩ := stop_erase v (L := A ++ [(h.1, v)]) (M := B') hord3
      simp only [Option.pure_def] at hstop2
      simp only [hnx, hsv, Option.some_bind, Option.pure_def]
      simp only [hstop2, Option.some_bind, herase2]
      rw [hf]
      simp
  · simp only [if_neg hv]
    obtain ⟨k2, hk2⟩ : ∃ k2, ((if mapBegin (B ++ C1) = none then pure endKey
        else Option.map (fun e => e.1) (deref (A ++ (B ++ C1)) (mapBegin (B ++ C1)))) :
          Option Int) = some k2 := by
      cases hR : B ++ C1 with
      | nil => exact ⟨endKey, by simp [mapBegin]⟩
      | cons h rest =>
        refine ⟨h.1, ?_⟩
        rw [← hR, deref_split hord1, hR]
        simp [mapBegin]
    simp only [Option.pure_def] at hstop hk2
    simp only [Option.some_bind, Option.pure_def]
    simp only [hstop, Option.some_bind, herase, ite_self, List.nil_append, hk2]

/-- The closed form of `assignValue` on a map split around the clamped range
`[f, t)`, the map being empty or not. -/
theorem assignValueWith_closed [DecidableEq V] (endKey : Int) (s : compressedVector V)
    (fromArg toArg f t : Int) (v : V) (A B C : KeyMap V)
    (hs : s.m_map = A ++ (B ++ C)) (hord : Ordered (A ++ (B ++ C)))
    (hr : getValidRange s fromArg toArg = (f, t)) (hlt : f < t)
    (hA : ∀ p ∈ A, p.1 < f) (hB : ∀ p ∈ B, f ≤ p.1 ∧ p.1 < t) (hC : ∀ p ∈ C, t ≤ p.1)
    (h5 : lastVal s.m_valBegin (A ++ (B ++ C)) = s.m_valBegin) :
    assignValueWith endKey s fromArg toArg v = some { s with m_map :=
      A ++ ((if v ≠ lastVal s.m_valBegin A then [(f, v)] else [])
        ++ dropEqual v (assignEnd t v (lastVal s.m_valBegin (A ++ B)) C)) } := by
  by_cases hne : A ++ (B ++ C) = []
  · obtain ⟨hA0, hBC⟩ := List.append_eq_nil.mp hne
    obtain ⟨hB0, hC0⟩ := List.append_eq_nil.mp hBC
    subst hA0 hB0 hC0
    have hft : f ≠ t := by omega
    unfold assignValueWith
    simp only [hr, hs]
    rw [if_neg hft]
    by_cases hv : v ≠ s.m_valBegin
    · have hv' : ¬ s.m_valBegin = v := fun e => hv e.symm
      simp [lastVal, assignEnd, dropEqual, hv, hv']
    · simp [lastVal, assignEnd, dropEqual, hv]
      cases s
      simp only [compressedVector.mk.injEq, true_and]
      exact hs
  · exact assignValueWith_split endKey s fromArg toArg f t v A B C hs hord hr hlt hA hB hC h5 hne

/-- The nodes left from the range end on by `assignValue`: their order, their
origin, the absence of a redundant entry after the assigned value, their last
value and the values they give from the range end on. -/
theorem dropEqual_assignEnd [DecidableEq V] (t : Int) (v pB : V) (C : KeyMap V)
    (ho : Ordered C) (hC : ∀ p ∈ C, t ≤ p.1) (hch : Changes pB C) :
    Ordered (dropEqual v (assignEnd t v pB C))
    ∧ (∀ q ∈ dropEqual v (assignEnd t v pB C), q ∈ C ∨ q.1 = t)
    ∧ Changes v (dropEqual v (assignEnd t v pB C))
    ∧ lastVal v (dropEqual v (assignEnd t v pB C)) = lastVal pB C
    ∧ (∀ x, t ≤ x → valAt v (dropEqual v (assignEnd t v pB C)) x = valAt pB C x) := by
  cases C with
  | nil =>
    rw [assignEnd_nil]
    by_cases hv : v ≠ pB
    · have hv' : ¬ pB = v := fun e => hv e.symm
      rw [if_pos hv, dropEqual_cons, if_neg hv']
      refine ⟨List.pairwise_singleton _ _, ?_, ⟨hv', trivial⟩, rfl, ?_⟩
      · intro q hq; simp at hq; rw [hq]; exact Or.inr rfl
      · intro x hx
        rw [valAt_cons, valAt_nil, valAt_nil, if_pos hx]
    · rw [if_neg hv]
      refine ⟨List.Pairwise.nil, fun q hq => absurd hq (List.not_mem_nil _), trivial, ?_, ?_⟩
      · show v = pB
        exact not_not.mp hv
      · intro x _
        show v = pB
        exact not_not.mp hv
  | cons c C' =>
    have hc := hC c (List.mem_cons_self _ _)
    rw [assignEnd_cons]
    by_cases hcond : t < c.1 ∧ v ≠ pB
    · have hv' : ¬ pB = v := fun e => hcond.2 e.symm
      rw [if_pos hcond, dropEqual_cons, if_neg hv']
      refine ⟨?_, ?_, ⟨hv', hch⟩, ?_, ?_⟩
      · refine List.pairwise_cons.mpr ⟨?_, ho⟩
        intro q hq
        rcases List.mem_cons.mp hq with rfl | hq
        · exact hcond.1
        · have := ho.head_lt q hq
          show t < q.1
          omega
      · intro q hq
        rcases List.mem_cons.mp hq with rfl | hq
        · exact Or.inr rfl
        · exact Or.inl hq
      · rw [lastVal_cons]
      · intro x hx
        rw [valAt_cons, if_pos hx]
    · rw [if_neg hcond, dropEqual_cons]
      have hx0 : ∀ x, t ≤ x → x < c.1 → v = pB := by
        intro x h1 h2
        by_contra hne
        exact hcond ⟨by omega, hne⟩
      by_cases hcv : c.2 = v
      · rw [if_pos hcv]
        refine ⟨ho.tail, fun q hq => Or.inl (List.mem_cons_of_mem _ hq), ?_, ?_, ?_⟩
        · rw [← hcv]; exact hch.2
        · rw [lastVal_cons, hcv]
        · intro x hx
          rw [valAt_cons]
          by_cases hcx : c.1 ≤ x
          · rw [if_pos hcx, hcv]
          · rw [if_neg hcx, hx0 x hx (by omega)]
      · rw [if_neg hcv]
        refine ⟨ho, fun q hq => Or.inl hq, ⟨hcv, hch.2⟩, ?_, ?_⟩
        · rw [lastVal_cons, lastVal_cons]
        · intro x hx
          rw [valAt_cons, valAt_cons]
          by_cases hcx : c.1 ≤ x
          · rw [if_pos hcx, if_pos hcx]
          · rw [if_neg hcx, if_neg hcx, hx0 x hx (by omega)]

/-- The map left by `assignValue`, in closed form: it is ordered, its keys come
from the old map or are the range bounds, it has no redundant entry, it ends
with the initial value, it gives the assigned value on the range and the old
values elsewhere. -/
theorem assign_closed_props [DecidableEq V] (bg : V) (f t : Int) (v : V) (A B C : KeyMap V)
    (hord : Ordered (A ++ (B ++ C))) (hlt : f < t)
    (hA : ∀ p ∈ A, p.1 < f) (hB : ∀ p ∈ B, f ≤ p.1 ∧ p.1 < t) (hC : ∀ p ∈ C, t ≤ p.1)
    (h5 : lastVal bg (A ++ (B ++ C)) = bg) (hch : Changes bg (A ++ (B ++ C))) :
    Ordered (A ++ ((if v ≠ lastVal bg A then [(f, v)] else [])
        ++ dropEqual v (assignEnd t v (lastVal bg (A ++ B)) C)))
    ∧ (∀ q ∈ A ++ ((if v ≠ lastVal bg A then [(f, v)] else [])
        ++ dropEqual v (assignEnd t v (lastVal bg (A ++ B)) C)),
          q ∈ A ∨ q ∈ C ∨ q.1 = f ∨ q.1 = t)
    ∧ Changes bg (A ++ ((if v ≠ lastVal bg A then [(f, v)] else [])
        ++ dropEqual v (assignEnd t v (lastVal bg (A ++ B)) C)))
    ∧ lastVal bg (A ++ ((if v ≠ lastVal bg A then [(f, v)] else [])
        ++ dropEqual v (assignEnd t v (lastVal bg (A ++ B)) C))) = bg
    ∧ (∀ x, f ≤ x → x < t → valAt bg (A ++ ((if v ≠ lastVal bg A then [(f, v)] else [])
        ++ dropEqual v (assignEnd t v (lastVal bg (A ++ B)) C))) x = v)
    ∧ (∀ x, ¬ (f ≤ x ∧ x < t) → valAt bg (A ++ ((if v ≠ lastVal bg A then [(f, v)] else [])
        ++ dropEqual v (assignEnd t v (lastVal bg (A ++ B)) C))) x
          = valAt bg (A ++ (B ++ C)) x) := by
  obtain ⟨hchA, hchBC⟩ := Changes.append.mp hch
  obtain ⟨-, hchC⟩ := Changes.append.mp hchBC
  rw [← lastVal_append] at hchC
  obtain ⟨hDo, hDk, hDc, hDl, hDv⟩ :=
    dropEqual_assignEnd t v (lastVal bg (A ++ B)) C hord.right.right hC hchC
  generalize dropEqual v (assignEnd t v (lastVal bg (A ++ B)) C) = D at hDo hDk hDc hDl hDv ⊢
  have hDge : ∀ q ∈ D, t ≤ q.1 := by
    intro q hq
    rcases hDk q hq with h | h
    · exact hC q h
    · omega
  have hAB : ∀ p ∈ A ++ B, p.1 < t := by
    intro p hp
    rcases List.mem_append.mp hp with hp | hp
    · have := hA p hp; omega
    · exact (hB p hp).2
  have hl5 : lastVal (lastVal bg (A ++ B)) C = bg := by
    rw [← lastVal_append, List.append_assoc]; exact h5
  -- the entry at `f`
  obtain ⟨F, hF, hFk, hFl, hFc⟩ : ∃ F : KeyMap V,
      (if v ≠ lastVal bg A then [(f, v)] else []) = F ∧ (∀ q ∈ F, q.1 = f)
      ∧ lastVal (lastVal bg A) F = v ∧ Changes (lastVal bg A) F := by
    by_cases hv : v ≠ lastVal bg A
    · refine ⟨[(f, v)], by rw [if_pos hv], ?_, rfl, ⟨hv, trivial⟩⟩
      intro q hq; simp at hq; rw [hq]
    · refine ⟨[], by rw [if_neg hv], fun q hq => absurd hq (List.not_mem_nil _), ?_, trivial⟩
      show lastVal bg A = v
      exact (not_not.mp hv).symm
  rw [hF]
  have hFo : Ordered F := by
    cases F with
    | nil => exact List.Pairwise.nil
    | cons a r =>
      cases r with
      | nil => exact List.pairwise_singleton _ _
      | cons b r' =>
        exfalso
        by_cases hv : v ≠ lastVal bg A
        · rw [if_pos hv] at hF; cases hF
        · rw [if_neg hv] at hF; cases hF
  have hFD : Ordered (F ++ D) :=
    ordered_append_of hFo hDo (fun p hp q hq => by
      have := hFk p hp; have := hDge q hq; omega)
  refine ⟨?_, ?_, ?_, ?_, ?_, ?_⟩
  · refine ordered_append_of hord.left hFD ?_
    intro p hp q hq
    have := hA p hp
    rcases List.mem_append.mp hq with hq | hq
    · have := hFk q hq; omega
    · have := hDge q hq; omega
  · intro q hq
    rcases List.mem_append.mp hq with hq | hq
    · exact Or.inl hq
    · rcases List.mem_append.mp hq with hq | hq
      · exact Or.inr (Or.inr (Or.inl (hFk q hq)))
      · rcases hDk q hq with h | h
        · exact Or.inr (Or.inl h)
        · exact Or.inr (Or.inr (Or.inr h))
  · refine Changes.append.mpr ⟨hchA, Changes.append.mpr ⟨hFc, ?_⟩⟩
    rw [hFl]; exact hDc
  · rw [lastVal_append, lastVal_append, hFl, hDl, hl5]
  · intro x hx1 hx2
    rw [valAt_append, valAt_append,
      valAt_of_forall_gt (m := D) _ (fun p hp => by have := hDge p hp; omega),
      valAt_of_forall_le (m := F) _ (fun p hp => by have := hFk p hp; omega),
      valAt_of_forall_le (m := A) _ (fun p hp => by have := hA p hp; omega), hFl]
  · intro x hx
    by_cases hxf : x < f
    · rw [valAt_append, valAt_append, valAt_append, valAt_append,
        valAt_of_forall_gt (m := D) _ (fun p hp => by have := hDge p hp; omega),
        valAt_of_forall_gt (m := F) _ (fun p hp => by have := hFk p hp; omega),
        valAt_of_forall_gt (m := C) _ (fun p hp => by have := hC p hp; omega),
        valAt_of_forall_gt (m := B) _ (fun p hp => by have := (hB p hp).1; omega)]
    · have hxt : t ≤ x := by omega
      rw [valAt_append, valAt_append,
        valAt_of_forall_le (m := F) _ (fun p hp => by have := hFk p hp; omega),
        valAt_of_forall_le (m := A) _ (fun p hp => by have := hA p hp; omega), hFl,
        hDv x hxt, ← List.append_assoc, valAt_append,
        valAt_of_forall_le (m := A ++ B) _ (fun p hp => by have := hAB p hp; omega)]

/-- On a structure satisfying I1 to I5 and a non-empty clamped range,
`assignValue` returns a structure with the same bounds and background that
satisfies I1 to I5, carries the assigned value on the range and the old values
elsewhere. -/
theorem assignValueWith_spec [DecidableEq V] (endKey : Int) (s : compressedVector V)
    (fromArg toArg f t : Int) (v : V)
    (h : Canonical s) (hr : getValidRange s fromArg toArg = (f, t)) (hlt : f < t) :
    ∃ s', assignValueWith endKey s fromArg toArg v = some s'
      ∧ s'.minIndex = s.minIndex ∧ s'.maxIndex = s.maxIndex ∧ s'.m_valBegin = s.m_valBegin
      ∧ Canonical s'
      ∧ (∀ x, f ≤ x → x < t → operatorAt s' x = v)
      ∧ (∀ x, ¬ (f ≤ x ∧ x < t) → operatorAt s' x = operatorAt s x) := by
  have hord := h.1
  have hbd : s.minIndex ≤ f ∧ t ≤ s.maxIndex := by
    rcases getValidRange_bounds s fromArg toArg f t h.2.1 hr with e | e
    · omega
    · exact e.2
  obtain ⟨A, B, C, hs, hA, hB, hC⟩ := hord.split3 f t
  have h5 := h.lastVal_eq
  have hch := changes_of_canonical h
  rw [hs] at h5 hord hch
  have hcl := assignValueWith_closed endKey s fromArg toArg f t v A B C hs hord hr hlt hA hB hC h5
  obtain ⟨hMo, hMk, hMc, hMl, hMin, hMout⟩ :=
    assign_closed_props s.m_valBegin f t v A B C hord hlt hA hB hC h5 hch
  refine ⟨_, hcl, rfl, rfl, rfl, ?_, ?_, ?_⟩
  · refine canonical_of_changes _ hMo h.2.1 ?_ hMc hMl
    intro q hq
    have hin' : ∀ p ∈ A ++ (B ++ C), s.minIndex ≤ p.1 ∧ p.1 ≤ s.maxIndex := by
      intro p hp; exact h.2.2.1 p (by rw [hs]; exact hp)
    rcases hMk q hq with hq' | hq' | hq' | hq'
    · exact hin' q (List.mem_append_left _ hq')
    · exact hin' q (List.mem_append_right _ (List.mem_append_right _ hq'))
    · show s.minIndex ≤ q.1 ∧ q.1 ≤ s.maxIndex
      omega
    · show s.minIndex ≤ q.1 ∧ q.1 ≤ s.maxIndex
      omega
  · intro x hx1 hx2
    rw [operatorAt_eq_valAt _ hMo]
    exact hMin x hx1 hx2
  · intro x hx
    rw [operatorAt_eq_valAt _ hMo, operatorAt_eq_valAt s h.1, hs]
    exact hMout x hx

/-- Where `assignValue` has a result, `assignValueWith` has the same result,
whatever key the read at the past-the-end position gives. -/
theorem assignValueWith_of_assignValue [DecidableEq V] (endKey : Int) (s : compressedVector V)
    (fromArg toArg : Int) (v : V) (r : compressedVector V)
    (h : assignValue s fromArg toArg v = some r) :
    assignValueWith endKey s fromArg toArg v = some r := by
  obtain ⟨f, t, hr⟩ : ∃ f t, getValidRange s fromArg toArg = (f, t) := ⟨_, _, rfl⟩
  unfold assignValue at h
  unfold assignValueWith
  simp only [hr] at h ⊢
  by_cases c1 : f = t
  · rw [if_pos c1] at h ⊢; exact h
  · rw [if_neg c1] at h ⊢
    by_cases c2 : s.m_map.isEmpty = true
    · rw [if_pos c2] at h ⊢; exact h
    · rw [if_neg c2] at h ⊢
      simp only [Option.bind_eq_bind] at h
      simp only [Option.bind_eq_bind]
      obtain ⟨d, hd, h⟩ := Option.bind_eq_some.mp h
      rw [hd, Option.some_bind]
      obtain ⟨i1, hi1, h⟩ := Option.bind_eq_some.mp h
      rw [hi1, Option.some_bind]
      obtain ⟨e1, he1, h⟩ := Option.bind_eq_some.mp h
      rw [he1, Option.some_bind]
      obtain ⟨ib, hib, h⟩ := Option.bind_eq_some.mp h
      rw [hib, Option.some_bind]
      obtain ⟨pv, hpv, h⟩ := Option.bind_eq_some.mp h
      rw [hpv, Option.some_bind]
      obtain ⟨e2, he2, h⟩ := Option.bind_eq_some.mp h
      have hib0 : ib ≠ none := by
        intro e; rw [e] at he2; cases he2
      rw [if_neg hib0, he2]
      simp only [Option.map_some', Option.some_bind]
      exact h

theorem assignValueWith_empty_range [DecidableEq V] (endKey : Int) (s : compressedVector V)
    (fromArg toArg f t : Int) (v : V) (hr : getValidRange s fromArg toArg = (f, t)) (e : f = t) :
    assignValueWith endKey s fromArg toArg v = some s := by
  unfold assignValueWith
  simp only [hr]
  rw [if_pos e]

end Lemmas

/-! ## Claims -/

section Claims

variable {V : Type}

theorem getLast?_of_greatest {L : KeyMap V} (h : Ordered L) {p : Int × V} (hp : p ∈ L)
    (hmax : ∀ q ∈ L, q.1 ≤ p.1) : L.getLast? = some p := by
  rcases List.eq_nil_or_concat L with rfl | ⟨L', z, rfl⟩
  · cases hp
  · rw [List.concat_eq_append] at h hp hmax ⊢
    rw [List.getLast?_append]
    rcases List.mem_append.mp hp with hp' | hp'
    · have h1 := h.lt_of_append p hp' z (List.mem_singleton_self _)
      have h2 := hmax z (by simp)
      omega
    · simp at hp'; simp [hp']

/-- C3: the point lookup `operator[]` returns the value stored at the greatest
breakpoint key that is at most `x`, and the background value when no
breakpoint key is at most `x` (the map being ordered by key, as every
`std::map` is). -/
theorem operatorAt_greatest_key [DecidableEq V] (s : compressedVector V) (x : Int)
    (h : Ordered s.m_map) :
    (∀ p ∈ s.m_map, p.1 ≤ x → (∀ q ∈ s.m_map, q.1 ≤ x → q.1 ≤ p.1) → operatorAt s x = p.2)
    ∧ ((∀ q ∈ s.m_map, x < q.1) → operatorAt s x = s.m_valBegin) := by
  rw [operatorAt_eq_valAt s h]
  refine ⟨?_, fun hgt => valAt_of_forall_gt _ hgt⟩
  intro p hp hpx hmax
  obtain ⟨L, R, e, hL, hR⟩ := h.split_le x
  rw [e] at hp hmax h ⊢
  have hpL : p ∈ L := by
    rcases List.mem_append.mp hp with hp' | hp'
    · exact hp'
    · have := hR p hp'; omega
  have hlast : L.getLast? = some p :=
    getLast?_of_greatest h.left hpL (fun q hq => hmax q (List.mem_append_left _ hq) (hL q hq))
  rw [valAt_append, valAt_of_forall_gt _ hR, valAt_of_forall_le _ hL]
  simp [lastVal, hlast]

theorem operatorAt_greatest_key_witness :
    Ordered [((2 : Int), (7 : Nat)), (5, 0)]
    ∧ ((∀ p ∈ [((2 : Int), (7 : Nat)), (5, 0)], p.1 ≤ 3 →
          (∀ q ∈ [((2 : Int), (7 : Nat)), (5, 0)], q.1 ≤ 3 → q.1 ≤ p.1) →
          operatorAt (⟨0, 10, 0, [(2, 7), (5, 0)]⟩ : compressedVector Nat) 3 = p.2)
      ∧ ((∀ q ∈ [((2 : Int), (7 : Nat)), (5, 0)], (3 : Int) < q.1) →
          operatorAt (⟨0, 10, 0, [(2, 7), (5, 0)]⟩ : compressedVector Nat) 3 = 0)) :=
  ⟨by decide, operatorAt_greatest_key ⟨0, 10, 0, [(2, 7), (5, 0)]⟩ 3 (by decide)⟩

/-- C6, as stated, fails: for a requested range lying entirely below `minIndex`
the result of `getValidRange` is `(minIndex, minIndex)`, not `(from, from)`. -/
theorem getValidRange_below_not_from :
    (1 : Int) ≤ (⟨5, 10, 0, []⟩ : compressedVector Nat).minIndex
    ∧ getValidRange (⟨5, 10, 0, []⟩ : compressedVector Nat) 0 1 = (5, 5)
    ∧ getValidRange (⟨5, 10, 0, []⟩ : compressedVector Nat) 0 1 ≠ (0, 0) := by
  decide

/-- C6, amended: `getValidRange(from, to)` returns `(from, from)` when
`to ≤ from`; otherwise `(minIndex, minIndex)` when `to ≤ minIndex`; otherwise
`(maxIndex, maxIndex)` when `maxIndex ≤ from`; in every other case
`(max(from, minIndex), min(to, maxIndex))`.  In the first three cases the
returned range is empty. -/
theorem getValidRange_cases (s : compressedVector V) (frm til : Int) :
    (til ≤ frm → getValidRange s frm til = (frm, frm))
    ∧ (frm < til → til ≤ s.minIndex → getValidRange s frm til = (s.minIndex, s.minIndex))
    ∧ (frm < til → s.minIndex < til → s.maxIndex ≤ frm →
        getValidRange s frm til = (s.maxIndex, s.maxIndex))
    ∧ (frm < til → s.minIndex < til → frm < s.maxIndex →
        getValidRange s frm til = (max frm s.minIndex, min til s.maxIndex)) := by
  unfold getValidRange
  refine ⟨?_, ?_, ?_, ?_⟩
  · intro h; rw [if_pos h]
  · intro h1 h2; rw [if_neg (by omega), if_pos h2]
  · intro h1 h2 h3; rw [if_neg (by omega), if_neg (by omega), if_pos h3]
  · intro h1 h2 h3
    rw [if_neg (by omega), if_neg (by omega), if_neg (by omega)]
    by_cases h4 : s.minIndex ≤ frm <;> by_cases h5 : til ≤ s.maxIndex
    · rw [if_pos h4, if_pos h5, max_eq_left h4, min_eq_left h5]
    · rw [if_pos h4, if_neg h5, max_eq_left h4, min_eq_right (by omega)]
    · rw [if_neg h4, if_pos h5, max_eq_right (by omega), min_eq_left h5]
    · rw [if_neg h4, if_neg h5, max_eq_right (by omega), min_eq_right (by omega)]

theorem getValidRange_cases_witness :
    (((1 : Int) ≤ 0 → getValidRange (⟨5, 10, 0, []⟩ : compressedVector Nat) 0 1 = (0, 0))
    ∧ ((0 : Int) < 1 → (1 : Int) ≤ 5 → getValidRange (⟨5, 10, 0, []⟩ : compressedVector Nat) 0 1 = (5, 5))
    ∧ ((0 : Int) < 1 → (5 : Int) < 1 → (10 : Int) ≤ 0 →
        getValidRange (⟨5, 10, 0, []⟩ : compressedVector Nat) 0 1 = (10, 10))
    ∧ ((0 : Int) < 1 → (5 : Int) < 1 → (0 : Int) < 10 →
        getValidRange (⟨5, 10, 0, []⟩ : compressedVector Nat) 0 1 = (max 0 5, min 1 10)))
    ∧ getValidRange (⟨5, 10, 0, []⟩ : compressedVector Nat) 0 1 = (5, 5) :=
  ⟨getValidRange_cases (⟨5, 10, 0, []⟩ : compressedVector Nat) 0 1,
   (getValidRange_cases (⟨5, 10, 0, []⟩ : compressedVector Nat) 0 1).2.1 (by decide) (by decide)⟩

/-- C7: when `minIndex < maxIndex`, the pair `(f, t) = getValidRange(from, to)`
is empty exactly when `to ≤ from` or `to ≤ minIndex` or `maxIndex ≤ from`;
otherwise `minIndex ≤ f < t ≤ maxIndex` and `[f, t)` is exactly the
intersection of `[from, to)` with `[minIndex, maxIndex)`. -/
theorem getValidRange_empty_iff_and_clamp (s : compressedVector V) (frm til : Int)
    (h : s.minIndex < s.maxIndex) :
    ((getValidRange s frm til).1 = (getValidRange s frm til).2
        ↔ (til ≤ frm ∨ til ≤ s.minIndex ∨ s.maxIndex ≤ frm))
    ∧ (¬ (til ≤ frm ∨ til ≤ s.minIndex ∨ s.maxIndex ≤ frm) →
        s.minIndex ≤ (getValidRange s frm til).1
        ∧ (getValidRange s frm til).1 < (getValidRange s frm til).2
        ∧ (getValidRange s frm til).2 ≤ s.maxIndex
        ∧ ∀ x : Int, ((getValidRange s frm til).1 ≤ x ∧ x < (getValidRange s frm til).2)
            ↔ ((frm ≤ x ∧ x < til) ∧ (s.minIndex ≤ x ∧ x < s.maxIndex))) := by
  unfold getValidRange
  by_cases h1 : til ≤ frm
  · simp [h1]
  by_cases h2 : til ≤ s.minIndex
  · simp [h1, h2]
  by_cases h3 : s.maxIndex ≤ frm
  · simp [h1, h2, h3]
  rw [if_neg h1, if_neg h2, if_neg h3]
  by_cases h4 : s.minIndex ≤ frm <;> by_cases h5 : til ≤ s.maxIndex
  · simp only [if_pos h4, if_pos h5]
    refine ⟨by constructor <;> intro <;> omega, fun _ => ⟨by omega, by omega, by omega, fun x => by omega⟩⟩
  · simp only [if_pos h4, if_neg h5]
    refine ⟨by constructor <;> intro <;> omega, fun _ => ⟨by omega, by omega, by omega, fun x => by omega⟩⟩
  · simp only [if_neg h4, if_pos h5]
    refine ⟨by constructor <;> intro <;> omega, fun _ => ⟨by omega, by omega, by omega, fun x => by omega⟩⟩
  · simp only [if_neg h4, if_neg h5]
    refine ⟨by constructor <;> intro <;> omega, fun _ => ⟨by omega, by omega, by omega, fun x => by omega⟩⟩

theorem getValidRange_empty_iff_and_clamp_witness :
    (⟨0, 10, 0, []⟩ : compressedVector Nat).minIndex < (⟨0, 10, 0, []⟩ : compressedVector Nat).maxIndex
    ∧ getValidRange (⟨0, 10, 0, []⟩ : compressedVector Nat) (-3) 4 = (0, 4)
    ∧ (⟨0, 10, 0, []⟩ : compressedVector Nat).minIndex
        ≤ (getValidRange (⟨0, 10, 0, []⟩ : compressedVector Nat) (-3) 4).1 :=
  ⟨by decide, by decide,
   ((getValidRange_empty_iff_and_clamp (⟨0, 10, 0, []⟩ : compressedVector Nat) (-3) 4
      (by decide)).2 (by decide)).1⟩

/-- C4: for a structure satisfying I1 to I5 and an index `x` of the domain,
the list `getValues(minIndex, maxIndex)` is produced and holds exactly one
triple `(start, end, value)` with `start ≤ x < end`; the value of that triple
is `operator[](x)`. -/
theorem getValues_unique_cover [DecidableEq V] (s : compressedVector V) (x : Int)
    (h : Canonical s) (hx : s.minIndex ≤ x ∧ x < s.maxIndex) :
    ∃ l, getValues s s.minIndex s.maxIndex = some l
      ∧ ∃ a b, l.filter (fun t => decide (t.1 ≤ x ∧ x < t.2.1)) = [(a, b, operatorAt s x)] := by
  obtain ⟨L, R, e, hL, hR, hget⟩ := getValues_full s h
  obtain ⟨hord, h1, h2, -⟩ := h
  refine ⟨_, hget, ?_⟩
  rw [operatorAt_eq_valAt s hord, e, valAt_append,
    valAt_of_forall_le _ (fun p hp => le_trans (hL p hp) hx.1)]
  rw [e] at hord h2
  exact segs_cover hord.right s.minIndex _ s.maxIndex x hx.1 hx.2
    (fun n hn => ⟨hR n hn, (h2 n (List.mem_append_right _ hn)).2⟩)

theorem getValues_unique_cover_witness :
    Canonical exampleVector ∧ (exampleVector.minIndex ≤ 3 ∧ (3 : Int) < exampleVector.maxIndex)
    ∧ ∃ l, getValues exampleVector exampleVector.minIndex exampleVector.maxIndex = some l
      ∧ ∃ a b, l.filter (fun t => decide (t.1 ≤ 3 ∧ 3 < t.2.1))
          = [(a, b, operatorAt exampleVector 3)] :=
  ⟨by decide, by decide, getValues_unique_cover exampleVector 3 (by decide) (by decide)⟩

/-- C9: for a structure satisfying I1 to I5 and a non-empty clamped range
`(f, t)`, `erase(from, to, false)` produces a structure whose `minIndex` is
unchanged and whose `maxIndex` is `maxIndex − (t − f)`; `operator[](x)` is
unchanged for `x` in `[minIndex, f)` and equals the old `operator[](x + (t − f))`
for `x` in `[f, new maxIndex)`. -/
theorem erase_shrinkLeft_values [DecidableEq V] (s : compressedVector V)
    (fromArg toArg f t : Int) (h : Canonical s)
    (hr : getValidRange s fromArg toArg = (f, t)) (hlt : f < t) :
    ∃ s', erase s fromArg toArg false = some s'
      ∧ s'.minIndex = s.minIndex
      ∧ s'.maxIndex = s.maxIndex - (t - f)
      ∧ (∀ x, s.minIndex ≤ x → x < f → operatorAt s' x = operatorAt s x)
      ∧ (∀ x, f ≤ x → x < s'.maxIndex → operatorAt s' x = operatorAt s (x + (t - f))) := by
  have h5 := h.lastVal_eq
  obtain ⟨hord, -, -, h3, -, -⟩ := h
  obtain ⟨A, B, C, e, hA, hB, hC⟩ := hord.split3 f t
  have hord0 := hord
  rw [e] at hord h3 h5
  have hclosed := erase_false_closed s fromArg toArg f t A B C e hord hr hlt hA hB hC
  obtain ⟨-, -, ho2⟩ := erase_restored_ordered (B := B) hord f t
    (lastVal s.m_valBegin (A ++ B)) hlt hA hC
  have hres : Ordered (eraseClose s.m_valBegin f
      ((A ++ eraseIns f t (lastVal s.m_valBegin (A ++ B)) B C)
        ++ eraseTail (t - f)
            (lastVal s.m_valBegin (A ++ eraseIns f t (lastVal s.m_valBegin (A ++ B)) B C)) C)) :=
    ordered_eraseClose _ _ (ordered_eraseTail _ _ ho2)
  have hsem := erase_false_valAt s.m_valBegin f t A B C hord hlt hA hB hC h3 h5
  refine ⟨_, hclosed, rfl, rfl, ?_, ?_⟩
  · intro x _ hx
    rw [operatorAt_eq_valAt _ hres, operatorAt_eq_valAt s hord0, e]
    simp only
    rw [hsem x, if_pos hx]
  · intro x hx _
    rw [operatorAt_eq_valAt _ hres, operatorAt_eq_valAt s hord0, e]
    simp only
    rw [hsem x, if_neg (by omega)]

theorem erase_shrinkLeft_values_witness :
    Canonical (⟨0, 10, 0, [(2, 7), (8, 0)]⟩ : compressedVector Nat)
    ∧ getValidRange (⟨0, 10, 0, [(2, 7), (8, 0)]⟩ : compressedVector Nat) 2 8 = (2, 8)
    ∧ (2 : Int) < 8
    ∧ ∃ s', erase (⟨0, 10, 0, [(2, 7), (8, 0)]⟩ : compressedVector Nat) 2 8 false = some s'
      ∧ s'.minIndex = (⟨0, 10, 0, [(2, 7), (8, 0)]⟩ : compressedVector Nat).minIndex
      ∧ s'.maxIndex = (⟨0, 10, 0, [(2, 7), (8, 0)]⟩ : compressedVector Nat).maxIndex - (8 - 2)
      ∧ (∀ x, (⟨0, 10, 0, [(2, 7), (8, 0)]⟩ : compressedVector Nat).minIndex ≤ x → x < 2 →
          operatorAt s' x = operatorAt (⟨0, 10, 0, [(2, 7), (8, 0)]⟩ : compressedVector Nat) x)
      ∧ (∀ x, 2 ≤ x → x < s'.maxIndex →
          operatorAt s' x
            = operatorAt (⟨0, 10, 0, [(2, 7), (8, 0)]⟩ : compressedVector Nat) (x + (8 - 2))) :=
  ⟨by decide, by decide, by decide,
   erase_shrinkLeft_values (⟨0, 10, 0, [(2, 7), (8, 0)]⟩ : compressedVector Nat) 2 8 2 8
     (by decide) (by decide) (by decide)⟩

/-- C5 fails on the code for the empty sequence: with the same integer type
for keys and values, `compress({}, 0, 5)` is the structure `[0, 5)` with
background 0 and no breakpoint, because the braced return selects the
constructor taking two bounds and an initial value; its `uncompressToVector()`
is `0, 0, 0, 0, 0`, not the empty sequence.  The run-list constructor, which the
non-empty path calls, gives on the empty run list the structure `[0, 0)`
with background 5, whose `uncompressToVector()` is empty. -/
theorem compress_empty_uncompresses_to_zeros :
    compress (0 : Int) (fun v => v) [] 0 5 = some ⟨0, 5, 0, []⟩
    ∧ uncompressToVector 1000 (⟨0, 5, 0, []⟩ : compressedVector Int) 0 5 = some [0, 0, 0, 0, 0]
    ∧ fromRuns 0 (5 : Int) [] = some ⟨0, 0, 5, []⟩
    ∧ uncompressToVector 1000 (⟨0, 0, 5, []⟩ : compressedVector Int) 0 0 = some [] := by
  decide

/-- C1: on a structure satisfying I1 to I5, with `(f, t)` the clamped range of
`(from, to)` and `f < t`, `assignValue(from, to, value)` returns; afterwards
`operator[](x)` is `value` for every `x` in `[f, t)` and unchanged for every
other `x`, and the bounds and the background are unchanged.  This holds
whatever key the read `itBegin->first` gives when `itBegin` is the
past-the-end position (`endKey`), and the structure is the result of
`assignValue` wherever that read does not occur. -/
theorem assignValue_postcondition [DecidableEq V] (endKey : Int) (s : compressedVector V)
    (fromArg toArg f t : Int) (value : V)
    (h : Canonical s) (hr : getValidRange s fromArg toArg = (f, t)) (hlt : f < t) :
    ∃ s', assignValueWith endKey s fromArg toArg value = some s'
      ∧ (∀ r, assignValue s fromArg toArg value = some r → r = s')
      ∧ (∀ x, f ≤ x → x < t → operatorAt s' x = value)
      ∧ (∀ x, ¬ (f ≤ x ∧ x < t) → operatorAt s' x = operatorAt s x)
      ∧ s'.minIndex = s.minIndex ∧ s'.maxIndex = s.maxIndex
      ∧ s'.m_valBegin = s.m_valBegin := by
  obtain ⟨s', hs', hmin, hmax, hbg, -, hin, hout⟩ :=
    assignValueWith_spec endKey s fromArg toArg f t value h hr hlt
  refine ⟨s', hs', ?_, hin, hout, hmin, hmax, hbg⟩
  intro r hr'
  have := assignValueWith_of_assignValue endKey s fromArg toArg value r hr'
  rw [hs'] at this
  exact (Option.some.inj this).symm

/-- C1 at the sample structure `[0, 10)` with breakpoints `{2: 7, 5: 0}`, for
the call `assignValue(6, 8, 0)`, in which the read at the past-the-end position
occurs. -/
theorem assignValue_postcondition_witness :
    Canonical exampleVector ∧ getValidRange exampleVector 6 8 = (6, 8) ∧ (6 : Int) < 8
    ∧ ∃ s', assignValueWith 0 exampleVector 6 8 0 = some s'
      ∧ (∀ r, assignValue exampleVector 6 8 0 = some r → r = s')
      ∧ (∀ x, 6 ≤ x → x < 8 → operatorAt s' x = 0)
      ∧ (∀ x, ¬ (6 ≤ x ∧ x < 8) → operatorAt s' x = operatorAt exampleVector x)
      ∧ s'.minIndex = exampleVector.minIndex ∧ s'.maxIndex = exampleVector.maxIndex
      ∧ s'.m_valBegin = exampleVector.m_valBegin :=
  ⟨by decide, by decide, by decide,
    assignValue_postcondition 0 exampleVector 6 8 6 8 0 (by decide) (by decide) (by decide)⟩

/-- C2: on a structure satisfying I1 to I5, for every `from`, `to` and
`value`, `assignValue(from, to, value)` returns a structure that satisfies I1
to I5 again; in particular no two consecutive breakpoints carry equal values,
so a run written next to an equal-valued run is merged with it.  This holds
whatever key the read `itBegin->first` gives when `itBegin` is the
past-the-end position (`endKey`), and the structure is the result of
`assignValue` wherever that read does not occur. -/
theorem assignValue_preserves_invariants [DecidableEq V] (endKey : Int)
    (s : compressedVector V) (fromArg toArg : Int) (value : V) (h : Canonical s) :
    ∃ s', assignValueWith endKey s fromArg toArg value = some s'
      ∧ (∀ r, assignValue s fromArg toArg value = some r → r = s')
      ∧ Canonical s' := by
  obtain ⟨f, t, hr⟩ : ∃ f t, getValidRange s fromArg toArg = (f, t) := ⟨_, _, rfl⟩
  have hrel : ∀ s', assignValueWith endKey s fromArg toArg value = some s' →
      ∀ r, assignValue s fromArg toArg value = some r → r = s' := by
    intro s' hs' r hr'
    have := assignValueWith_of_assignValue endKey s fromArg toArg value r hr'
    rw [hs'] at this
    exact (Option.some.inj this).symm
  rcases getValidRange_bounds s fromArg toArg f t h.2.1 hr with e | ⟨hlt, -, -⟩
  · have hs := assignValueWith_empty_range endKey s fromArg toArg f t value hr e
    exact ⟨s, hs, hrel s hs, h⟩
  · obtain ⟨s', hs', -, -, -, hc, -, -⟩ :=
      assignValueWith_spec endKey s fromArg toArg f t value h hr hlt
    exact ⟨s', hs', hrel s' hs', hc⟩

/-- C2 at the sample structure `[0, 10)` with breakpoints `{2: 7, 5: 0}`, for
the call `assignValue(5, 6, 7)`, which writes 7 next to the run of 7 on
`[2, 5)`: the result has the breakpoints `{2: 7, 6: 0}`. -/
theorem assignValue_preserves_invariants_witness :
    Canonical exampleVector
    ∧ assignValueWith 0 exampleVector 5 6 7 = some ⟨0, 10, 0, [(2, 7), (6, 0)]⟩
    ∧ ∃ s', assignValueWith 0 exampleVector 5 6 7 = some s'
      ∧ (∀ r, assignValue exampleVector 5 6 7 = some r → r = s')
      ∧ Canonical s' :=
  ⟨by decide, by decide, assignValue_preserves_invariants 0 exampleVector 5 6 7 (by decide)⟩

/-- C8: on a structure satisfying I1 to I5, for every `from`, `to` and
`value`, `assignValue(from, to, value)` returns a structure on which a second
`assignValue(from, to, value)` returns that same structure: same bounds,
background and breakpoint map.  This holds whatever keys the read
`itBegin->first` gives in the two calls when `itBegin` is the past-the-end
position (`endKey`, `endKey2`). -/
theorem assignValue_idempotent [DecidableEq V] (endKey endKey2 : Int) (s : compressedVector V)
    (fromArg toArg : Int) (value : V) (h : Canonical s) :
    ∃ s', assignValueWith endKey s fromArg toArg value = some s'
      ∧ assignValueWith endKey2 s' fromArg toArg value = some s' := by
  obtain ⟨f, t, hr⟩ : ∃ f t, getValidRange s fromArg toArg = (f, t) := ⟨_, _, rfl⟩
  rcases getValidRange_bounds s fromArg toArg f t h.2.1 hr with e | ⟨hlt, -, -⟩
  · exact ⟨s, assignValueWith_empty_range endKey s fromArg toArg f t value hr e,
      assignValueWith_empty_range endKey2 s fromArg toArg f t value hr e⟩
  · obtain ⟨s1, h1, hmin1, hmax1, hbg1, hc1, hin1, hout1⟩ :=
      assignValueWith_spec endKey s fromArg toArg f t value h hr hlt
    have hr1 : getValidRange s1 fromArg toArg = (f, t) := by
      rw [← hr]; unfold getValidRange; rw [hmin1, hmax1]
    obtain ⟨s2, h2, hmin2, hmax2, hbg2, hc2, hin2, hout2⟩ :=
      assignValueWith_spec endKey2 s1 fromArg toArg f t value hc1 hr1 hlt
    have hv : ∀ x, operatorAt s2 x = operatorAt s1 x := by
      intro x
      by_cases hx : f ≤ x ∧ x < t
      · rw [hin2 x hx.1 hx.2, hin1 x hx.1 hx.2]
      · exact hout2 x hx
    have hm : s2.m_map = s1.m_map := by
      refine @unique_of_valAt V s2.m_map s1.m_map s1.m_valBegin s1.minIndex s1.maxIndex
        hc2.1 hc1.1 ?_ hc1.2.2.1 ?_ (changes_of_canonical hc1) ?_ ?_
      · intro p hp
        have := hc2.2.2.1 p hp
        rw [hmin2, hmax2] at this
        exact this
      · have := changes_of_canonical hc2
        rw [hbg2] at this
        exact this
      · have := hc2.lastVal_eq
        rw [hbg2] at this
        rw [this, hc1.lastVal_eq]
      · intro x _ _
        have := hv x
        rw [operatorAt_eq_valAt s2 hc2.1, operatorAt_eq_valAt s1 hc1.1, hbg2] at this
        exact this
    have he : s2 = s1 := by
      cases s1; cases s2
      simp only [compressedVector.mk.injEq]
      exact ⟨hmin2, hmax2, hbg2, hm⟩
    rw [he] at h2
    exact ⟨s1, h1, h2⟩

/-- C8 at the structure `[0, 4)` with background 1 and breakpoints
`{0: 0, 1: 1, 2: 0, 4: 1}`, for the call `assignValue(2, 4, 1)`: the first call
leaves the breakpoints `{0: 0, 1: 1}`, and in the second call the read at the
past-the-end position occurs. -/
theorem assignValue_idempotent_witness :
    Canonical (⟨0, 4, 1, [(0, 0), (1, 1), (2, 0), (4, 1)]⟩ : compressedVector Nat)
    ∧ assignValueWith 0 (⟨0, 4, 1, [(0, 0), (1, 1), (2, 0), (4, 1)]⟩ : compressedVector Nat) 2 4 1
        = some ⟨0, 4, 1, [(0, 0), (1, 1)]⟩
    ∧ ∃ s', assignValueWith 0 (⟨0, 4, 1, [(0, 0), (1, 1), (2, 0), (4, 1)]⟩ : compressedVector Nat)
          2 4 1 = some s'
      ∧ assignValueWith 9 s' 2 4 1 = some s' :=
  ⟨by decide, by decide,
    assignValue_idempotent 0 9 (⟨0, 4, 1, [(0, 0), (1, 1), (2, 0), (4, 1)]⟩ : compressedVector Nat)
      2 4 1 (by decide)⟩

/-- C10 fails on the code: on the structure `[0, 10)` with background 0 and
breakpoints `{2: 7, 5: 0}`, `erase(3, 8, true)` leaves the domain `[5, 10)`
with breakpoints `{3: 0, 7: 7}`: the closing entry is added at `from` = 3
instead of `to` = 8, so that `operator[](8)`, which was 0 and lies in
`[t, maxIndex)`, becomes 7. -/
theorem erase_shrinkRight_changes_kept_value :
    Canonical exampleVector
    ∧ getValidRange exampleVector 3 8 = (3, 8)
    ∧ erase exampleVector 3 8 true = some ⟨5, 10, 0, [(3, 0), (7, 7)]⟩
    ∧ operatorAt exampleVector 8 = 0
    ∧ operatorAt (⟨5, 10, 0, [(3, 0), (7, 7)]⟩ : compressedVector Nat) 8 = 7 := by
  decide

/-- C11 fails on the code: on the structure `[0, 5)` with background 0 and
elements `1, 2, 1, 1, 0` (breakpoints `{0: 1, 1: 2, 2: 1, 4: 0}`), which
satisfies I1 to I5, `erase(1, 3, false)` restores the value 1 at index 1 next
to the run of value 1 that starts at 0: the result `{0: 1, 1: 1, 2: 0}` has
two consecutive breakpoints with equal values (I3 fails). -/
theorem erase_leaves_adjacent_equal :
    Canonical (⟨0, 5, 0, [(0, 1), (1, 2), (2, 1), (4, 0)]⟩ : compressedVector Nat)
    ∧ getValidRange (⟨0, 5, 0, [(0, 1), (1, 2), (2, 1), (4, 0)]⟩ : compressedVector Nat) 1 3 = (1, 3)
    ∧ erase (⟨0, 5, 0, [(0, 1), (1, 2), (2, 1), (4, 0)]⟩ : compressedVector Nat) 1 3 false
        = some ⟨0, 3, 0, [(0, 1), (1, 1), (2, 0)]⟩
    ∧ noAdjacentEqual [((0 : Int), (1 : Nat)), (1, 1), (2, 0)] = false
    ∧ ¬ Canonical (⟨0, 3, 0, [(0, 1), (1, 1), (2, 0)]⟩ : compressedVector Nat) := by
  decide

/-- C12 fails on the code: on the structure `[0, 10)` with background 0 and no
breakpoint, `assignValues(0, 10, [(7, 0), (8, 3)])`, whose element sequence
is `8, 8, 8`, leaves the breakpoints `{0: 7, 3: 0}`, so `operator[](0)` is 7
instead of 8: the breakpoint of the zero-length first run is emplaced at 0 and
keeps the key.  With runs of non-zero length, `assignValues(6, 8, [(0, 2)])`
on the breakpoints `{2: 7, 5: 0}` and `assignValues(0, 4, [(1, 1), (2, 1),
(1, 1), (2, 1)])` on the breakpoints `{1: 1, 2: 0}` of `[0, 4)` have no
defined result. -/
theorem assignValues_wrong_or_undefined :
    assignValues (⟨0, 10, 0, []⟩ : compressedVector Nat) 0 10 [(7, 0), (8, 3)]
        = some ⟨0, 10, 0, [(0, 7), (3, 0)]⟩
    ∧ operatorAt (⟨0, 10, 0, [(0, 7), (3, 0)]⟩ : compressedVector Nat) 0 = 7
    ∧ assignValues exampleVector 6 8 [(0, 2)] = none
    ∧ Canonical (⟨0, 4, 0, [(1, 1), (2, 0)]⟩ : compressedVector Nat)
    ∧ assignValues (⟨0, 4, 0, [(1, 1), (2, 0)]⟩ : compressedVector Nat) 0 4
        [(1, 1), (2, 1), (1, 1), (2, 1)] = none := by
  decide

/-- C13: on a structure satisfying I1 to I5, when the clamped range `(f, t)`
of `(from, to)` is not empty and `t - f` does not exceed the maximum size of
the vector, `uncompressToVector(from, to)` returns a sequence of length
`t - f` whose `i`-th element is `operator[](f + i)` for every `0 ≤ i < t - f`. -/
theorem uncompressToVector_elements [DecidableEq V] (maxSize : Nat) (s : compressedVector V)
    (fromArg toArg f t : Int) (h : Canonical s)
    (hr : getValidRange s fromArg toArg = (f, t)) (hlt : f < t)
    (hsize : (t - f).toNat ≤ maxSize) :
    ∃ l, uncompressToVector maxSize s fromArg toArg = some l
      ∧ (l.length : Int) = t - f
      ∧ ∀ i : Nat, (i : Int) < t - f → l[i]? = some (operatorAt s (f + i)) := by
  have hord := h.1
  obtain ⟨A, B, C, hs, hA, hB, hC⟩ := hord.split3 f t
  have h5 := h.lastVal_eq
  rw [hs] at h5 hord
  have hBo : Ordered B := hord.right.left
  have hBk : ∀ p ∈ B, f ≤ p.1 ∧ p.1 ≤ t := fun p hp => ⟨(hB p hp).1, le_of_lt (hB p hp).2⟩
  refine ⟨fill f (lastVal s.m_valBegin A) B t,
    uncompressToVector_closed maxSize s fromArg toArg f t A B C hs hord h5 hr hlt hsize hA hB hC,
    length_fill hBo f _ t hBk (le_of_lt hlt), ?_⟩
  intro i hi
  rw [getElem?_fill hBo f _ t hBk i hi, operatorAt_eq_valAt s h.1, hs, valAt_append, valAt_append,
    valAt_of_forall_gt (m := C) _ (fun p hp => by have := hC p hp; omega),
    valAt_of_forall_le (m := A) _ (fun p hp => by have := hA p hp; omega)]

/-- C13 at the sample structure, for the call `uncompressToVector(1, 7)`. -/
theorem uncompressToVector_elements_witness :
    Canonical exampleVector ∧ getValidRange exampleVector 1 7 = (1, 7)
    ∧ ∃ l, uncompressToVector 100 exampleVector 1 7 = some l
      ∧ (l.length : Int) = 7 - 1
      ∧ ∀ i : Nat, (i : Int) < 7 - 1 → l[i]? = some (operatorAt exampleVector (1 + i)) :=
  ⟨by decide, by decide,
    uncompressToVector_elements 100 exampleVector 1 7 1 7 (by decide) (by decide) (by decide)
      (by decide)⟩

/-- C14: on a structure satisfying I1 to I5, when the clamped range `(f, t)`
of `(from, to)` is not empty, `reverseValues(from, to)` returns, leaves the
bounds and the background unchanged, and mirrors the values inside the range:
the new `operator[](f + t - 1 - x)` is the old `operator[](x)` for every `x` in
`[f, t)`, and `operator[](x)` is unchanged for every `x` outside `[f, t)`. -/
theorem reverseValues_mirror [DecidableEq V] (s : compressedVector V) (fromArg toArg f t : Int)
    (h : Canonical s) (hr : getValidRange s fromArg toArg = (f, t)) (hlt : f < t) :
    ∃ s', reverseValues s fromArg toArg = some s'
      ∧ s'.minIndex = s.minIndex ∧ s'.maxIndex = s.maxIndex ∧ s'.m_valBegin = s.m_valBegin
      ∧ (∀ x, f ≤ x → x < t → operatorAt s' (f + t - 1 - x) = operatorAt s x)
      ∧ (∀ x, ¬ (f ≤ x ∧ x < t) → operatorAt s' x = operatorAt s x) := by
  have hord := h.1
  obtain ⟨A, B, C, hs, hA, hB, hC⟩ := hord.split3 f t
  have h5 := h.lastVal_eq
  rw [hs] at h5 hord
  cases B with
  | nil =>
    refine ⟨s, ?_, rfl, rfl, rfl, ?_, fun _ _ => rfl⟩
    · unfold reverseValues
      simp only [hr, hs]
      by_cases he : (f = t ∨ (A ++ ([] ++ C)).isEmpty = true)
      · rw [if_pos he]
      · rw [if_neg he]
        have S1 : lowerBound (A ++ ([] ++ C)) f = mapBegin C :=
          lowerBound_split hA (fun p hp => by have := hC p (by simpa using hp); omega)
        have S2 : lowerBound (A ++ ([] ++ C)) t = mapBegin C :=
          lowerBound_split (fun p hp => by have := hA p hp; omega)
            (fun p hp => hC p (by simpa using hp))
        simp only [S1, S2, if_true]
    · intro x hx1 hx2
      rw [operatorAt_eq_valAt s h.1, operatorAt_eq_valAt s h.1, hs]
      simp only [List.nil_append]
      rw [valAt_append, valAt_append,
        valAt_of_forall_gt (m := C) _ (fun p hp => by have := hC p hp; omega),
        valAt_of_forall_gt (m := C) _ (fun p hp => by have := hC p hp; omega),
        valAt_of_forall_le (m := A) _ (fun p hp => by have := hA p hp; omega),
        valAt_of_forall_le (m := A) _ (fun p hp => by have := hA p hp; omega)]
  | cons b B =>
    have hfirst : b.2 ≠ lastVal s.m_valBegin A := by
      obtain ⟨-, -, -, h3, -, h5'⟩ := h
      rw [hs] at h3 h5'
      rcases List.eq_nil_or_concat A with rfl | ⟨A', a, rfl⟩
      · have := (h5' (by simp)).1
        intro e
        apply this
        simp [e, lastVal]
      · rw [List.concat_eq_append] at h3 ⊢
        have e : A' ++ [a] ++ ((b :: B) ++ C) = A' ++ a :: b :: (B ++ C) := by simp
        rw [e] at h3
        have := noAdjacentEqual_junction h3
        rw [lastVal_append_cons, lastVal_nil]
        exact fun e' => this e'.symm
    obtain ⟨M, hM, hMo, hin, hout⟩ :=
      reverseValues_split s fromArg toArg f t A C b B hs hord hr hlt hA hB hC h5 hfirst
    refine ⟨{ s with m_map := M }, hM, rfl, rfl, rfl, ?_, ?_⟩
    · intro x hx1 hx2
      rw [operatorAt_eq_valAt _ hMo, operatorAt_eq_valAt s h.1, hs]
      exact hin x hx1 hx2
    · intro x hx
      rw [operatorAt_eq_valAt _ hMo, operatorAt_eq_valAt s h.1, hs]
      exact hout x hx

/-- C14 at the sample structure, for the call `reverseValues(1, 9)`. -/
theorem reverseValues_mirror_witness :
    Canonical exampleVector ∧ getValidRange exampleVector 1 9 = (1, 9)
    ∧ ∃ s', reverseValues exampleVector 1 9 = some s'
      ∧ s'.minIndex = exampleVector.minIndex ∧ s'.maxIndex = exampleVector.maxIndex
      ∧ s'.m_valBegin = exampleVector.m_valBegin
      ∧ (∀ x, 1 ≤ x → x < 9 → operatorAt s' (1 + 9 - 1 - x) = operatorAt exampleVector x)
      ∧ (∀ x, ¬ (1 ≤ x ∧ x < 9) → operatorAt s' x = operatorAt exampleVector x) :=
  ⟨by decide, by decide,
    reverseValues_mirror exampleVector 1 9 1 9 (by decide) (by decide) (by decide)⟩

/-- C16 fails on the code: on the structure `[0, 4)` with background 0 and
elements `2, 1, 2, 0` (breakpoints `{0: 2, 1: 1, 2: 2, 3: 0}`), which
satisfies I1 to I5, `sortValues(0, 2, false, <)` rewrites the range as `1, 2`
and leaves the breakpoints `{0: 1, 1: 2, 2: 2, 3: 0}`: the last rewritten run
is not merged with the equal-valued run that starts at the range end (I3
fails). -/
theorem sortValues_leaves_adjacent_equal :
    Canonical (⟨0, 4, 0, [(0, 2), (1, 1), (2, 2), (3, 0)]⟩ : compressedVector Nat)
    ∧ sortValues (⟨0, 4, 0, [(0, 2), (1, 1), (2, 2), (3, 0)]⟩ : compressedVector Nat) 0 2 false
        natLess = some ⟨0, 4, 0, [(0, 1), (1, 2), (2, 2), (3, 0)]⟩
    ∧ ¬ Canonical (⟨0, 4, 0, [(0, 1), (1, 2), (2, 2), (3, 0)]⟩ : compressedVector Nat) := by
  decide

/-- C18 fails on the code: on the structure `[0, 4)` with background 0 and
breakpoints `{0: 1, 4: 0}`, which satisfies I1 to I5, `replaceValue(0, 2, 1,
0)` leaves the breakpoints `{0: 0, 2: 1, 4: 0}`: the first breakpoint carries
the background value (I5 fails). -/
theorem replaceValue_leaves_background_first :
    Canonical (⟨0, 4, 0, [(0, 1), (4, 0)]⟩ : compressedVector Nat)
    ∧ replaceValue (⟨0, 4, 0, [(0, 1), (4, 0)]⟩ : compressedVector Nat) 0 2 1 0
        = some ⟨0, 4, 0, [(0, 0), (2, 1), (4, 0)]⟩
    ∧ ¬ Canonical (⟨0, 4, 0, [(0, 0), (2, 1), (4, 0)]⟩ : compressedVector Nat) := by
  decide

/-- C19 fails on the code: on the structure `[0, 10)` with background 0 and
breakpoints `{2: 1, 5: 0}`, `apply(0, 5, v ↦ v + 1)` leaves the breakpoints
`{0: 1, 5: 0}`: the breakpoint at 2 is erased because its value before the
transformation equals the new value of the run before it, so `operator[](2)`
is 1 instead of 2. -/
theorem apply_merges_before_transforming :
    Canonical (⟨0, 10, 0, [(2, 1), (5, 0)]⟩ : compressedVector Nat)
    ∧ getValidRange (⟨0, 10, 0, [(2, 1), (5, 0)]⟩ : compressedVector Nat) 0 5 = (0, 5)
    ∧ apply (⟨0, 10, 0, [(2, 1), (5, 0)]⟩ : compressedVector Nat) 0 5 (fun v => v + 1)
        = some ⟨0, 10, 0, [(0, 1), (5, 0)]⟩
    ∧ operatorAt (⟨0, 10, 0, [(2, 1), (5, 0)]⟩ : compressedVector Nat) 2 = 1
    ∧ operatorAt (⟨0, 10, 0, [(0, 1), (5, 0)]⟩ : compressedVector Nat) 2 = 1 := by
  decide

/-- C20 fails on the code: on the structure `[0, 10)` with background 0 and
breakpoints `{2: 7, 5: 0}`, `apply(0, 10, v ↦ 0)` erases every breakpoint and
then reads `m_map.crbegin()->second` on the empty map; `apply(2, 5, v ↦ 0)`
erases the breakpoint at 2 and then reads `std::prev(itEnd)` with `itEnd ==
begin()`.  Neither call has a defined result. -/
theorem apply_undefined_on_collapse :
    Canonical exampleVector
    ∧ apply exampleVector 0 10 (fun _ => 0) = none
    ∧ apply exampleVector 2 5 (fun _ => 0) = none := by
  decide

/-- C21 fails on the code: on the structure `[0, 10)` with background 0 and
breakpoints `{2: 7, 5: 0}`, `insertValuesAfterPosition(6, [(9, 2)], false)`
has `upper_bound(6) == end()` and reads `itPosition->first`, and
`insertValuesAfterPosition(0, [(0, 3)], false)` extracts every node, skips the
only run (its value is the value at 0) and reads `m_map.crbegin()->second` on
the empty map: neither call has a defined result.  On the structure `[0, 10)`
with no breakpoint, `insertValuesAfterPosition(4, [(7, 0), (8, 3)], false)`
leaves the breakpoints `{5: 7, 8: 0}`, so `operator[](5)` is 7 instead of 8. -/
theorem insertValuesAfterPosition_undefined_or_wrong :
    Canonical exampleVector
    ∧ upperBound exampleVector.m_map 6 = none
    ∧ insertValuesAfterPosition exampleVector 6 [(9, 2)] false = none
    ∧ insertValuesAfterPosition exampleVector 0 [(0, 3)] false = none
    ∧ insertValuesAfterPosition (⟨0, 10, 0, []⟩ : compressedVector Nat) 4 [(7, 0), (8, 3)] false
        = some ⟨0, 13, 0, [(5, 7), (8, 0)]⟩
    ∧ operatorAt (⟨0, 13, 0, [(5, 7), (8, 0)]⟩ : compressedVector Nat) 5 = 7 := by
  decide

/-- C22 fails on the code: on the structure `[0, 10)` with background 0 and
breakpoints `{2: 7, 5: 0}`, `appendValues([(0, 2)], false)` calls
`assignValue(10, 12, 0)`, which dereferences `end()`: there is no defined
result.  On the structure `[0, 10)` with no breakpoint,
`appendValues([(7, 0), (8, 3)], false)` leaves the breakpoints
`{10: 7, 13: 0}`, so the appended elements are `7, 7, 7` instead of
`8, 8, 8`. -/
theorem appendValues_undefined_or_wrong :
    Canonical exampleVector
    ∧ appendValues exampleVector [(0, 2)] false = none
    ∧ assignValue (⟨0, 12, 0, [(2, 7), (5, 0)]⟩ : compressedVector Nat) 10 12 0 = none
    ∧ appendValues (⟨0, 10, 0, []⟩ : compressedVector Nat) [(7, 0), (8, 3)] false
        = some ⟨0, 13, 0, [(10, 7), (13, 0)]⟩
    ∧ operatorAt (⟨0, 13, 0, [(10, 7), (13, 0)]⟩ : compressedVector Nat) 10 = 7 := by
  decide

/-- C23: when the clamped range of `(from, to)` is empty, which is the case
when `to ≤ from`, when the range lies entirely below `minIndex` and when it
lies entirely at or above `maxIndex`, each of `assignValue`, `assignValues`,
`erase`, `reverseValues`, `sortValues`, `replaceValue` and `apply` returns and
leaves the structure as it was: bounds, background and breakpoint map. -/
theorem empty_range_is_no_op [DecidableEq V] (s : compressedVector V) (fromArg toArg : Int)
    (h : toArg ≤ fromArg ∨ toArg ≤ s.minIndex ∨ s.maxIndex ≤ fromArg
      ∨ (getValidRange s fromArg toArg).1 = (getValidRange s fromArg toArg).2) :
    (∀ value, assignValue s fromArg toArg value = some s)
    ∧ (∀ values, assignValues s fromArg toArg values = some s)
    ∧ (∀ shrinkRight, erase s fromArg toArg shrinkRight = some s)
    ∧ reverseValues s fromArg toArg = some s
    ∧ (∀ reverse compareFunction, sortValues s fromArg toArg reverse compareFunction = some s)
    ∧ (∀ oldValue newValue, replaceValue s fromArg toArg oldValue newValue = some s)
    ∧ (∀ appliedFunction, apply s fromArg toArg appliedFunction = some s) := by
  have he : (getValidRange s fromArg toArg).1 = (getValidRange s fromArg toArg).2 := by
    rcases h with h | h | h | h
    · exact getValidRange_empty_of_cases s fromArg toArg (Or.inl h)
    · exact getValidRange_empty_of_cases s fromArg toArg (Or.inr (Or.inl h))
    · exact getValidRange_empty_of_cases s fromArg toArg (Or.inr (Or.inr h))
    · exact h
  refine ⟨fun value => ?_, fun values => ?_, fun shrinkRight => ?_, ?_,
    fun reverse compareFunction => ?_, fun oldValue newValue => ?_, fun appliedFunction => ?_⟩
  · unfold assignValue; simp only [if_pos he]
  · unfold assignValues; simp only [if_pos (Or.inl he)]
  · unfold erase; simp only [if_pos he]
  · unfold reverseValues; simp only [if_pos (Or.inl he)]
  · unfold sortValues; simp only [if_pos (Or.inl he)]
  · unfold replaceValue; simp only [if_pos (Or.inl he)]
  · unfold apply; simp only [if_pos he]

/-- C23 at the sample structure, for the range `(12, 15)` above `maxIndex`. -/
theorem empty_range_is_no_op_witness :
    (15 ≤ 12 ∨ 15 ≤ exampleVector.minIndex ∨ exampleVector.maxIndex ≤ 12
      ∨ (getValidRange exampleVector 12 15).1 = (getValidRange exampleVector 12 15).2)
    ∧ (∀ value, assignValue exampleVector 12 15 value = some exampleVector)
    ∧ (∀ values, assignValues exampleVector 12 15 values = some exampleVector)
    ∧ (∀ shrinkRight, erase exampleVector 12 15 shrinkRight = some exampleVector)
    ∧ reverseValues exampleVector 12 15 = some exampleVector
    ∧ (∀ reverse compareFunction,
        sortValues exampleVector 12 15 reverse compareFunction = some exampleVector)
    ∧ (∀ oldValue newValue, replaceValue exampleVector 12 15 oldValue newValue = some exampleVector)
    ∧ (∀ appliedFunction, apply exampleVector 12 15 appliedFunction = some exampleVector) :=
  ⟨by decide, empty_range_is_no_op exampleVector 12 15 (by decide)⟩

/-- C24: on a map ordered by key, `setMinIndex(k)` returns false and leaves
the structure unchanged when `k ≥ maxIndex`, and otherwise returns true with
`minIndex = k < maxIndex`; `setMaxIndex(k)` returns false and leaves the
structure unchanged when `k ≤ minIndex`, and otherwise returns true with
`minIndex < maxIndex = k`. -/
theorem setMinIndex_setMaxIndex_result [DecidableEq V] (s : compressedVector V) (k : Int)
    (h : Ordered s.m_map) :
    (s.maxIndex ≤ k → setMinIndex s k = some (false, s))
    ∧ (k < s.maxIndex → ∃ s', setMinIndex s k = some (true, s')
        ∧ s'.minIndex = k ∧ s'.maxIndex = s.maxIndex ∧ s'.minIndex < s'.maxIndex)
    ∧ (k ≤ s.minIndex → setMaxIndex s k = some (false, s))
    ∧ (s.minIndex < k → ∃ s', setMaxIndex s k = some (true, s')
        ∧ s'.minIndex = s.minIndex ∧ s'.maxIndex = k ∧ s'.minIndex < s'.maxIndex) := by
  refine ⟨fun hk => ?_, fun hk => ?_, fun hk => ?_, fun hk => ?_⟩
  · unfold setMinIndex; rw [if_pos hk]
  · obtain ⟨m, hm⟩ := setMinIndex_closed s k h hk
    exact ⟨_, hm, rfl, rfl, hk⟩
  · unfold setMaxIndex; rw [if_pos hk]
  · obtain ⟨m, hm⟩ := setMaxIndex_closed s k hk
    exact ⟨_, hm, rfl, rfl, hk⟩

/-- C24 at the sample structure, for `k = 3`. -/
theorem setMinIndex_setMaxIndex_result_witness :
    Ordered exampleVector.m_map
    ∧ (exampleVector.maxIndex ≤ 3 → setMinIndex exampleVector 3 = some (false, exampleVector))
    ∧ (3 < exampleVector.maxIndex → ∃ s', setMinIndex exampleVector 3 = some (true, s')
        ∧ s'.minIndex = 3 ∧ s'.maxIndex = exampleVector.maxIndex ∧ s'.minIndex < s'.maxIndex)
    ∧ (3 ≤ exampleVector.minIndex → setMaxIndex exampleVector 3 = some (false, exampleVector))
    ∧ (exampleVector.minIndex < 3 → ∃ s', setMaxIndex exampleVector 3 = some (true, s')
        ∧ s'.minIndex = exampleVector.minIndex ∧ s'.maxIndex = 3 ∧ s'.minIndex < s'.maxIndex) :=
  ⟨by decide, setMinIndex_setMaxIndex_result exampleVector 3 (by decide)⟩

/-- C25 fails on the code: on the structure `[0, 10)` with background 0 and
breakpoints `{2: 7, 5: 0}`, which satisfies I1 to I5, `setMinIndex(3)` leaves
the single breakpoint `{5: 0}` and `setMaxIndex(3)` leaves the single
breakpoint `{2: 7}`: I4 and I5 fail, and `mapCanonicalValidationDebug` rejects
both results. -/
theorem setMinIndex_setMaxIndex_leave_one_breakpoint :
    Canonical exampleVector
    ∧ setMinIndex exampleVector 3 = some (true, ⟨3, 10, 0, [(5, 0)]⟩)
    ∧ ¬ Canonical (⟨3, 10, 0, [(5, 0)]⟩ : compressedVector Nat)
    ∧ mapCanonicalValidationDebug (⟨3, 10, 0, [(5, 0)]⟩ : compressedVector Nat) = false
    ∧ setMaxIndex exampleVector 3 = some (true, ⟨0, 3, 0, [(2, 7)]⟩)
    ∧ ¬ Canonical (⟨0, 3, 0, [(2, 7)]⟩ : compressedVector Nat)
    ∧ mapCanonicalValidationDebug (⟨0, 3, 0, [(2, 7)]⟩ : compressedVector Nat) = false := by
  decide

/-- C26 fails on the code: on the structure `[0, 10)` with background 0 and
breakpoints `{2: 7, 4: 3, 5: 0}`, which satisfies I1 to I5, `setInitValue(3)`
overwrites the value of the last breakpoint and leaves
`{2: 7, 4: 3, 5: 3}`: the breakpoints at 4 and 5 carry equal values (I3
fails). -/
theorem setInitValue_leaves_adjacent_equal :
    Canonical (⟨0, 10, 0, [(2, 7), (4, 3), (5, 0)]⟩ : compressedVector Nat)
    ∧ setInitValue (⟨0, 10, 0, [(2, 7), (4, 3), (5, 0)]⟩ : compressedVector Nat) 3
        = some ⟨0, 10, 3, [(2, 7), (4, 3), (5, 3)]⟩
    ∧ noAdjacentEqual [((2 : Int), (7 : Nat)), (4, 3), (5, 3)] = false
    ∧ mapCanonicalValidationDebug (⟨0, 10, 3, [(2, 7), (4, 3), (5, 3)]⟩ : compressedVector Nat)
        = false := by
  decide

/-- C27 fails on the code: on the structure `[0, 10)` with background 0 and
breakpoints `{2: 7, 5: 0}`, `getSubArray(2, 5)` builds the map `{2: 7}`, which
the constructor rejects (one breakpoint) and resets: the result is the
structure `[2, 5)` with background 0 and no breakpoint, whose `operator[](2)`
is 0 while the original `operator[](2)` is 7.  `getSubArray(0, 10)` is reset
in the same way. -/
theorem getSubArray_loses_values :
    Canonical exampleVector
    ∧ getValidRange exampleVector 2 5 = (2, 5)
    ∧ getSubArray 0 exampleVector 2 5 = some ⟨2, 5, 0, []⟩
    ∧ operatorAt (⟨2, 5, 0, []⟩ : compressedVector Nat) 2 = 0
    ∧ operatorAt exampleVector 2 = 7
    ∧ getSubArray 0 exampleVector 0 10 = some ⟨0, 10, 0, []⟩ := by
  decide

/-- C28 fails on the code: on the structure `[0, 10)` with background 0 and
breakpoints `{2: 7, 5: 0}`, `contains(0, 3, 9)` returns true although no index
carries the value 9: `std::find_if` returns `itEnd`, the node at 5, which is
compared with `cend()`.  `contains(2, 5, 0)` returns true although every index
of `[2, 5)` carries 7: the value before `itBegin` is tested even when
`itBegin` lies on `from`. -/
theorem contains_false_positive :
    Canonical exampleVector
    ∧ getValidRange exampleVector 0 3 = (0, 3)
    ∧ contains exampleVector 0 3 9 = some true
    ∧ operatorAt exampleVector 0 = 0 ∧ operatorAt exampleVector 1 = 0
    ∧ operatorAt exampleVector 2 = 7
    ∧ getValidRange exampleVector 2 5 = (2, 5)
    ∧ contains exampleVector 2 5 0 = some true
    ∧ operatorAt exampleVector 3 = 7 ∧ operatorAt exampleVector 4 = 7 := by
  decide

/-- C29 fails on the code: on the structure `[0, 10)` with background 0 and
breakpoints `{2: 7, 5: 0}`, `getMinValue(3, 4)` returns 0 although
`operator[](3)` is 7, and `getMaxValue(0, 1)` returns 7 although
`operator[](0)` is 0: no breakpoint lies in the range, `std::min_element`
and `std::max_element` return `itEnd`, and the value of that node, which lies
outside the range, enters the result. -/
theorem getMinValue_getMaxValue_read_outside :
    Canonical exampleVector
    ∧ getValidRange exampleVector 3 4 = (3, 4)
    ∧ getMinValue exampleVector 3 4 natLess = some 0
    ∧ operatorAt exampleVector 3 = 7
    ∧ getValidRange exampleVector 0 1 = (0, 1)
    ∧ getMaxValue exampleVector 0 1 natLess = some 7
    ∧ operatorAt exampleVector 0 = 0 := by
  decide

/-- C30 fails on the code: on the structure `[0, 10)` with background 0 and
breakpoints `{2: 7, 5: 0}`, `getSum(3, 3, 100)` has an empty clamped range and
returns `operator[](3) = 7` instead of `init = 100`, while
`uncompressToVector(3, 3)` is empty. -/
theorem getSum_empty_range_ignores_init :
    Canonical (⟨0, 10, 0, [(2, 7), (5, 0)]⟩ : compressedVector Int)
    ∧ getValidRange (⟨0, 10, 0, [(2, 7), (5, 0)]⟩ : compressedVector Int) 3 3 = (3, 3)
    ∧ getSum (⟨0, 10, 0, [(2, 7), (5, 0)]⟩ : compressedVector Int) 3 3 100 = some 7
    ∧ uncompressToVector 100 (⟨0, 10, 0, [(2, 7), (5, 0)]⟩ : compressedVector Int) 3 3 = some []
    ∧ getSum (⟨0, 10, 0, [(2, 7), (5, 0)]⟩ : compressedVector Int) 3 4 100 = some 107 := by
  decide

/-- C31: on a map ordered by key and in exact index arithmetic,
`shiftRight(d)` adds `d` to both bounds, keeps the background, and the new
`operator[](x + d)` is the old `operator[](x)` for every `x`; `shiftLeft(d)`
does the same with `-d`; and `shiftRight(d)` followed by `shiftLeft(d)` gives
back the original structure. -/
theorem shift_translates [DecidableEq V] (s : compressedVector V) (d : Int)
    (h : Ordered s.m_map) :
    (shiftRight s d).minIndex = s.minIndex + d
    ∧ (shiftRight s d).maxIndex = s.maxIndex + d
    ∧ (shiftRight s d).m_valBegin = s.m_valBegin
    ∧ (∀ x, operatorAt (shiftRight s d) (x + d) = operatorAt s x)
    ∧ (shiftLeft s d).minIndex = s.minIndex - d
    ∧ (shiftLeft s d).maxIndex = s.maxIndex - d
    ∧ (shiftLeft s d).m_valBegin = s.m_valBegin
    ∧ (∀ x, operatorAt (shiftLeft s d) (x - d) = operatorAt s x)
    ∧ shiftLeft (shiftRight s d) d = s := by
  have hR := shiftRight_closed s d h
  have hL := shiftLeft_closed s d h
  have hoR : Ordered (shiftRight s d).m_map := by rw [hR]; exact ordered_map_add h d
  have hoL : Ordered (shiftLeft s d).m_map := by rw [hL]; exact ordered_map_sub h d
  refine ⟨by rw [hR], by rw [hR], by rw [hR], ?_, by rw [hL], by rw [hL], by rw [hL], ?_, ?_⟩
  · intro x
    rw [operatorAt_eq_valAt _ hoR, operatorAt_eq_valAt s h, hR]
    exact valAt_map_add _ _ d x
  · intro x
    rw [operatorAt_eq_valAt _ hoL, operatorAt_eq_valAt s h, hL]
    show valAt s.m_valBegin (s.m_map.map (fun p => (p.1 - d, p.2))) (x - d) = _
    rw [valAt_map_sub]
    congr 1; omega
  · rw [shiftLeft_closed _ d hoR, hR]
    cases s with
    | mk mn mx bg m =>
      simp only [List.map_map, compressedVector.mk.injEq]
      refine ⟨by omega, by omega, trivial, ?_⟩
      conv_rhs => rw [← List.map_id m]
      apply List.map_congr_left
      intro p _
      show ((p.1 + d) - d, p.2) = p
      rw [Int.add_sub_cancel]

/-- C31 at the sample structure, for `d = 4`. -/
theorem shift_translates_witness :
    Ordered exampleVector.m_map
    ∧ (shiftRight exampleVector 4).minIndex = exampleVector.minIndex + 4
    ∧ (shiftRight exampleVector 4).maxIndex = exampleVector.maxIndex + 4
    ∧ (shiftRight exampleVector 4).m_valBegin = exampleVector.m_valBegin
    ∧ (∀ x, operatorAt (shiftRight exampleVector 4) (x + 4) = operatorAt exampleVector x)
    ∧ (shiftLeft exampleVector 4).minIndex = exampleVector.minIndex - 4
    ∧ (shiftLeft exampleVector 4).maxIndex = exampleVector.maxIndex - 4
    ∧ (shiftLeft exampleVector 4).m_valBegin = exampleVector.m_valBegin
    ∧ (∀ x, operatorAt (shiftLeft exampleVector 4) (x - 4) = operatorAt exampleVector x)
    ∧ shiftLeft (shiftRight exampleVector 4) 4 = exampleVector :=
  ⟨by decide, shift_translates exampleVector 4 (by decide)⟩

/-- C32 fails on the code for the empty sequence: `compress` of the empty
sequence with start index 0 and background 0 returns the structure with
`minIndex = maxIndex = 0`, for which I1 does not hold. -/
theorem compress_empty_not_canonical :
    compress (0 : Nat) (fun v => (v : Int)) [] 0 0 = some ⟨0, 0, 0, []⟩
    ∧ ¬ Canonical (⟨0, 0, 0, []⟩ : compressedVector Nat)
    ∧ ¬ (⟨0, 0, 0, []⟩ : compressedVector Nat).minIndex
        < (⟨0, 0, 0, []⟩ : compressedVector Nat).maxIndex := by
  decide

/-- C32 as amended: for every non-empty sequence, start index and background
value, `compress` returns a structure over `[startIndex, startIndex +
length)` with that background which satisfies I1 to I5. -/
theorem compress_canonical [DecidableEq V] (zero : V) (toKey : V → Int) (buffer : List V)
    (startIndex : Int) (initValue : V) (h : buffer ≠ []) :
    ∃ c, compress zero toKey buffer startIndex initValue = some c
      ∧ c.minIndex = startIndex ∧ c.maxIndex = startIndex + (buffer.length : Int)
      ∧ c.m_valBegin = initValue ∧ Canonical c := by
  cases buffer with
  | nil => exact absurd rfl h
  | cons x rest =>
    obtain ⟨n, more, e, hn, hg, hex⟩ := detectRuns_spec rest x 1 (by omega)
    have hlen : totalLength ((x, n) :: more) = (x :: rest).length := by
      rw [← length_expandRuns, hex]; simp
    have hc := fromRuns_closed startIndex initValue x n more hn hg
    have hlens : ∀ r ∈ (x, n) :: more, r.2 ≠ 0 := by
      intro r hr
      rcases List.mem_cons.mp hr with rfl | hr
      · exact hn
      · exact hg.lengths r hr
    have hpos : 0 < totalLength ((x, n) :: more) := by simp [totalLength]; omega
    have hbp : breakpointsOf startIndex ((x, n) :: more)
        = (startIndex, x) :: breakpointsOf (startIndex + (n : Int)) more := rfl
    obtain ⟨ho, hk, hch, hl⟩ := closeMap_changes initValue (startIndex, x)
      (breakpointsOf (startIndex + (n : Int)) more) startIndex
      (startIndex + (totalLength ((x, n) :: more) : Int))
      (by rw [← hbp]; exact breakpointsOf_ordered _ hlens)
      (by
        intro q hq
        rw [← hbp] at hq
        exact ⟨(mem_breakpointsOf hq).1, mem_breakpointsOf_lt hlens hq⟩)
      (changes_breakpointsOf hg _)
    rw [← hbp] at ho hk hch hl
    refine ⟨_, by simp only [compress]; rw [e]; exact hc, rfl, by rw [← hlen], rfl, ?_⟩
    exact canonical_of_changes _ ho (by show startIndex < startIndex + _; omega) hk hch hl

/-- C32 as amended, at the sequence `1, 1, 1, 2, 2, 3`. -/
theorem compress_canonical_witness :
    ([1, 1, 1, 2, 2, 3] : List Nat) ≠ []
    ∧ ∃ c, compress (0 : Nat) (fun v => (v : Int)) [1, 1, 1, 2, 2, 3] 0 0 = some c
      ∧ c.minIndex = 0 ∧ c.maxIndex = 0 + (([1, 1, 1, 2, 2, 3] : List Nat).length : Int)
      ∧ c.m_valBegin = 0 ∧ Canonical c :=
  ⟨by decide, compress_canonical (0 : Nat) (fun v => (v : Int)) [1, 1, 1, 2, 2, 3] 0 0 (by decide)⟩

/-- C33 fails on the code: `swapRanges(0, 2, 5, 7)` on the structure `[0, 10)`
with background 0 and breakpoints `{2: 7, 5: 0}` returns normally with the
structure unchanged; no error is signalled. -/
theorem swapRanges_returns_normally :
    swapRanges exampleVector 0 2 5 7 = Except.ok exampleVector
    ∧ ∀ e : String, swapRanges exampleVector 0 2 5 7 ≠ Except.error e := by
  refine ⟨rfl, fun e h => ?_⟩
  cases h

/-- C33 as amended: each of the ten members declared without a body returns
normally on every input and leaves the structure, and the second structure
where one is passed, unchanged. -/
theorem members_without_body_are_no_ops (s array : compressedVector V) (a b c d : Int) (value : V)
    (n : Nat) (flag : Bool) (operation : V → V → V) :
    assignRangeFromArray s array a b c d = Except.ok (s, array)
    ∧ swapRangesWithArray s a b array c d = Except.ok (s, array)
    ∧ swapRanges s a b c d = Except.ok s
    ∧ copyRange s a b c d = Except.ok s
    ∧ increaseValueRange s a b value n flag = Except.ok s
    ∧ decreaseValueRange s a b value n flag = Except.ok s
    ∧ changeValueRange s a b value n = Except.ok s
    ∧ shiftRangeLeft s a b c value = Except.ok s
    ∧ shiftRangeRight s a b c value = Except.ok s
    ∧ operationWithArray s array a b operation = Except.ok (s, array) :=
  ⟨rfl, rfl, rfl, rfl, rfl, rfl, rfl, rfl, rfl, rfl⟩

/-- C34: two structures with the same bounds and background, each with keys
ordered and within the bounds and each accepted by
`mapCanonicalValidationDebug`, whose `operator[]` agree on every index of
`[minIndex, maxIndex)`, have the same breakpoint map and are equal in all four
data members.  The member `operator==` is not embedded: the defaulted
declaration of the source is defined as deleted, the base class
`compressedVectorBase` having no `operator==`, so no comparison can be
called. -/
theorem canonical_form_unique [DecidableEq V] (s1 s2 : compressedVector V)
    (hmin : s1.minIndex = s2.minIndex) (hmax : s1.maxIndex = s2.maxIndex)
    (hbg : s1.m_valBegin = s2.m_valBegin)
    (ho1 : Ordered s1.m_map) (ho2 : Ordered s2.m_map)
    (hk1 : ∀ p ∈ s1.m_map, s1.minIndex ≤ p.1 ∧ p.1 ≤ s1.maxIndex)
    (hk2 : ∀ p ∈ s2.m_map, s2.minIndex ≤ p.1 ∧ p.1 ≤ s2.maxIndex)
    (hc1 : mapCanonicalValidationDebug s1 = true) (hc2 : mapCanonicalValidationDebug s2 = true)
    (hv : ∀ x, s1.minIndex ≤ x → x < s1.maxIndex → operatorAt s1 x = operatorAt s2 x) :
    s1.m_map = s2.m_map ∧ s1 = s2 := by
  obtain ⟨c1, l1⟩ := changes_of_validation s1 hc1
  obtain ⟨c2, l2⟩ := changes_of_validation s2 hc2
  have hm : s1.m_map = s2.m_map := by
    refine @unique_of_valAt V s1.m_map s2.m_map s1.m_valBegin s1.minIndex s1.maxIndex
      ho1 ho2 hk1 ?_ c1 ?_ ?_ ?_
    · rw [hmin, hmax]; exact hk2
    · rw [hbg]; exact c2
    · rw [l1, hbg, l2]
    · intro x h1 h2
      have := hv x h1 h2
      rw [operatorAt_eq_valAt s1 ho1, operatorAt_eq_valAt s2 ho2, ← hbg] at this
      exact this
  have he : s1 = s2 := by
    cases s1; cases s2
    simp only [compressedVector.mk.injEq]
    exact ⟨hmin, hmax, hbg, hm⟩
  exact ⟨hm, he⟩

/-- C34 at the sample structure, compared with a structure built apart. -/
theorem canonical_form_unique_witness :
    (⟨0, 10, 0, [(2, 7), (5, 0)]⟩ : compressedVector Nat).m_map = exampleVector.m_map
    ∧ (⟨0, 10, 0, [(2, 7), (5, 0)]⟩ : compressedVector Nat) = exampleVector :=
  canonical_form_unique ⟨0, 10, 0, [(2, 7), (5, 0)]⟩ exampleVector rfl rfl rfl (by decide)
    (by decide) (by decide) (by decide) (by decide) (by decide) (fun _ _ _ => rfl)

/-- C35 fails on the code: for `T = int32_t` with checked arithmetic,
`safeMultiply(1, -2)` returns `max(T) = 2147483647` although the product `-2`
is representable, and `safeMultiply(-3, -4)` returns `max(T)` instead of 12:
the test `a > max / b` is made for a negative `b` too, where `max / b` is
negative. -/
theorem safeMultiply_saturates_for_negative_factor :
    tMax 32 = 2147483647
    ∧ Int.tdiv (tMax 32) (-2) = -1073741823
    ∧ safeMultiply 32 true 1 (-2) = some 2147483647
    ∧ mulT 32 1 (-2) = some (-2)
    ∧ safeMultiply 32 true (-3) (-4) = some 2147483647
    ∧ mulT 32 (-3) (-4) = some 12
    ∧ safeMultiply 32 true 3 4 = some 12 := by
  decide

/-- C36 fails on the code: on the structure `[0, 10)` with background 0 and
breakpoints `{2: 7, 5: 0}`, `setMinIndex(3)` succeeds and erases the
breakpoint at 2, so `operator[](3)` and `operator[](4)`, indices of the new
domain `[3, 10)`, change from 7 to 0. -/
theorem setMinIndex_changes_surviving_values :
    Canonical exampleVector
    ∧ setMinIndex exampleVector 3 = some (true, ⟨3, 10, 0, [(5, 0)]⟩)
    ∧ operatorAt exampleVector 3 = 7
    ∧ operatorAt (⟨3, 10, 0, [(5, 0)]⟩ : compressedVector Nat) 3 = 0
    ∧ operatorAt exampleVector 4 = 7
    ∧ operatorAt (⟨3, 10, 0, [(5, 0)]⟩ : compressedVector Nat) 4 = 0 := by
  decide

/-- C37: `reverseValues` is an involution.  On a structure satisfying I1 to
I5, for every `from` and `to`, `reverseValues(from, to)` returns a structure
that satisfies I1 to I5, and `reverseValues(from, to)` on that structure
returns the original one: same bounds, background and breakpoint map. -/
theorem reverseValues_involution [DecidableEq V] (s : compressedVector V) (fromArg toArg : Int)
    (h : Canonical s) :
    ∃ s', reverseValues s fromArg toArg = some s' ∧ Canonical s'
      ∧ reverseValues s' fromArg toArg = some s := by
  obtain ⟨f, t, hr⟩ : ∃ f t, getValidRange s fromArg toArg = (f, t) := ⟨_, _, rfl⟩
  rcases getValidRange_bounds s fromArg toArg f t h.2.1 hr with e | ⟨hlt, hlo, hhi⟩
  · have hs : reverseValues s fromArg toArg = some s := by
      unfold reverseValues
      simp only [hr]
      rw [if_pos (Or.inl e)]
    exact ⟨s, hs, h, hs⟩
  · obtain ⟨s1, h1, hmin1, hmax1, hbg1, hc1, hin1, hout1⟩ :=
      reverseValues_canonical s fromArg toArg f t h hr hlt
    have hr1 : getValidRange s1 fromArg toArg = (f, t) := by
      rw [← hr]; unfold getValidRange; rw [hmin1, hmax1]
    obtain ⟨s2, h2, hmin2, hmax2, hbg2, hc2, hin2, hout2⟩ :=
      reverseValues_canonical s1 fromArg toArg f t hc1 hr1 hlt
    have hv : ∀ x, operatorAt s2 x = operatorAt s x := by
      intro x
      by_cases hx : f ≤ x ∧ x < t
      · have a := hin2 (f + t - 1 - x) (by omega) (by omega)
        have b := hin1 x hx.1 hx.2
        have e : f + t - 1 - (f + t - 1 - x) = x := by omega
        rw [e] at a
        rw [a, b]
      · rw [hout2 x hx, hout1 x hx]
    have hm : s2.m_map = s.m_map := by
      refine @unique_of_valAt V s2.m_map s.m_map s.m_valBegin s.minIndex s.maxIndex
        hc2.1 h.1 ?_ h.2.2.1 ?_ (changes_of_canonical h) ?_ ?_
      · intro p hp
        have := hc2.2.2.1 p hp
        rw [hmin2, hmax2, hmin1, hmax1] at this
        exact this
      · have := changes_of_canonical hc2
        rw [hbg2, hbg1] at this
        exact this
      · have := hc2.lastVal_eq
        rw [hbg2, hbg1] at this
        rw [this, h.lastVal_eq]
      · intro x _ _
        have := hv x
        rw [operatorAt_eq_valAt s2 hc2.1, operatorAt_eq_valAt s h.1, hbg2, hbg1] at this
        exact this
    have he : s2 = s := by
      cases s; cases s2
      simp only [compressedVector.mk.injEq]
      exact ⟨hmin2.trans hmin1, hmax2.trans hmax1, hbg2.trans hbg1, hm⟩
    rw [he] at h2
    exact ⟨s1, h1, hc1, h2⟩

/-- C37 at the sample structure, for the call `reverseValues(1, 9)`. -/
theorem reverseValues_involution_witness :
    Canonical exampleVector
    ∧ ∃ s', reverseValues exampleVector 1 9 = some s' ∧ Canonical s'
      ∧ reverseValues s' 1 9 = some exampleVector :=
  ⟨by decide, reverseValues_involution exampleVector 1 9 (by decide)⟩

/-- C38 fails on the code: on the structure `[0, 10)` with background 0 and
breakpoints `{2: 7, 5: 0}`, `assignValue(7, 9, 0)` has `itEnd == end()`,
takes `itBegin = std::prev(itEnd)`, the node at 5, advances it to `end()`
because `5 < 7`, and then reads `itBegin->first`: the past-the-end position is
dereferenced. -/
theorem assignValue_dereferences_end :
    Canonical exampleVector
    ∧ getValidRange exampleVector 7 9 = (7, 9)
    ∧ lowerBound exampleVector.m_map 9 = none
    ∧ prevIt exampleVector.m_map none = some (some 5)
    ∧ walkBack exampleVector.m_map 7 3 (some 5) = some (some 5)
    ∧ nextIt exampleVector.m_map (some 5) = some none
    ∧ deref exampleVector.m_map none = none
    ∧ assignValue exampleVector 7 9 0 = none := by
  decide

/-- C39 fails on the code: on the structure `[0, 10)` with background 0 and no
breakpoint, `assignValues(0, 10, [(7, 0), (8, 3)])` leaves the breakpoints
`{0: 7, 3: 0}`, while `assignValues(0, 10, [(8, 3)])`, the same run list
without its zero-length run, leaves `{0: 8, 3: 0}`. -/
theorem assignValues_keeps_zero_length_first_run :
    [((7 : Nat), 0), (8, 3)].filter (fun r => decide (r.2 ≠ 0)) = [(8, 3)]
    ∧ assignValues (⟨0, 10, 0, []⟩ : compressedVector Nat) 0 10 [(7, 0), (8, 3)]
        = some ⟨0, 10, 0, [(0, 7), (3, 0)]⟩
    ∧ assignValues (⟨0, 10, 0, []⟩ : compressedVector Nat) 0 10 [(8, 3)]
        = some ⟨0, 10, 0, [(0, 8), (3, 0)]⟩
    ∧ assignValues (⟨0, 10, 0, []⟩ : compressedVector Nat) 0 10 [(7, 0), (8, 3)]
        ≠ assignValues (⟨0, 10, 0, []⟩ : compressedVector Nat) 0 10 [(8, 3)] := by
  decide

/-- C40 fails on the code: for two distinct objects the test `this == &other`
is false and the move assignment does nothing: after `a = std::move(b)` with
`a` the structure `[0, 1)` without breakpoints and `b` the structure `[0, 10)`
with breakpoints `{2: 7, 5: 0}`, `a` is as before, whatever a self-move would
leave.  The copy assignment does give `a` the state of `b`. -/
theorem moveAssign_keeps_old_state :
    (∀ selfMoved, moveAssign (⟨0, 1, 0, []⟩ : compressedVector Nat) exampleVector false selfMoved
        = ⟨0, 1, 0, []⟩)
    ∧ (⟨0, 1, 0, []⟩ : compressedVector Nat) ≠ exampleVector
    ∧ copyAssign (⟨0, 1, 0, []⟩ : compressedVector Nat) exampleVector = exampleVector := by
  refine ⟨fun _ => rfl, by decide, rfl⟩

end Claims

end CompressedVector
